import Mathlib

/-!
The package uber-go/atomic: a shallow embedding of the atomic cells

Every cell of the package is a Go struct with one private raw field.  A cell
state is embedded as a Lean structure holding that raw field, and a method
with a pointer receiver becomes a function from the state before the call to
the returned value and the state after it.

The functions of `sync/atomic` used by the package are embedded by their
sequential meaning on one memory word: each of them is a single indivisible
step, so in an execution without an interleaved writer a call is exactly the
function given here.

The reference cells (`String`, `Time`, the cells of gen-valuewrapper) sit on `Value`,
whose slot holds an interface value; the generators under internal/ are embedded as
functions from the parsed flags and the world around a run to the error and the effects
of the run.

Go's builtin scalar types keep their Go names in lower case (`bool`,
`int64`, `uint32`, `uintptr`, `uint64`, `float64`); the cell types keep the
names of the package (`Bool`, `Int64`, `Uint32`, `Uintptr`, `Duration`,
`Float64`).
-/

namespace atomic

/-! ## Builtin types -/

/-- Go's builtin `bool`. -/
abbrev bool := Bool

/-- Go's `int64`: an integer in `[-2^63, 2^63)`. -/
abbrev int64 := Int

/-- Go's `uint32`: a natural number below `2^32`. -/
abbrev uint32 := Nat

/-- Go's `uint64`: a natural number below `2^64`. -/
abbrev uint64 := Nat

/-- Go's `uintptr`: a natural number below `2^w`, `w` the pointer width. -/
abbrev uintptr := Nat

/-- Go's `[]byte`, each element below 256. -/
abbrev Bytes := List Nat

/-- Go's `string`: an immutable sequence of bytes, not necessarily valid UTF-8.  The
conversions `[]byte(s)` and `string(b)` copy the bytes unchanged. -/
abbrev string := List Nat

/-- Text handled by the generators: command-line flag values, template output and Go
source, as character strings. -/
abbrev text := String

/-- Range of an `int64`. -/
def isInt64 (x : Int) : Prop := -(2 : Int) ^ 63 ≤ x ∧ x < (2 : Int) ^ 63

instance (x : Int) : Decidable (isInt64 x) := by
  unfold isInt64; infer_instance

/-- Range of an unsigned integer of `w` bits. -/
def isUint (w : Nat) (x : Nat) : Prop := x < 2 ^ w

instance (w x : Nat) : Decidable (isUint w x) := by
  unfold isUint; infer_instance

/-- Smallest `int64`. -/
def MinInt64 : Int := -(2 : Int) ^ 63

/-- Largest `int64`. -/
def MaxInt64 : Int := (2 : Int) ^ 63 - 1

/-- Largest `uint32`. -/
def MaxUint32 : Nat := 2 ^ 32 - 1

/-- Two's-complement reduction of an integer to `int64`. -/
def wrapInt64 (x : Int) : Int := (x + (2 : Int) ^ 63) % (2 : Int) ^ 64 - (2 : Int) ^ 63

/-- Go's `x + y` on `int64`. -/
def addInt64 (x y : int64) : int64 := wrapInt64 (x + y)

/-- Go's unary `-x` on `int64`. -/
def negInt64 (x : int64) : int64 := wrapInt64 (-x)

/-- Go's `x + y` on an unsigned integer of `w` bits. -/
def addUint (w : Nat) (x y : Nat) : Nat := (x + y) % 2 ^ w

/-- Go's `x - y` on an unsigned integer of `w` bits. -/
def subUint (w : Nat) (x y : Nat) : Nat := (x + (2 ^ w - y % 2 ^ w)) % 2 ^ w

/-- Go's unary `^x` (bitwise complement) on an unsigned integer of `w` bits. -/
def notUint (w : Nat) (x : Nat) : Nat := x ^^^ (2 ^ w - 1)

/-! ## sync/atomic on one memory word

The first argument is the content of the addressed word before the call.
Functions that write return the content of the word after the call as
their last component. -/

/-- Function `atomic.LoadUint32`. -/
def LoadUint32 (addr : uint32) : uint32 := addr

/-- Function `atomic.StoreUint32`: the word after the store. -/
def StoreUint32 (_addr : uint32) (val : uint32) : uint32 := val

/-- Function `atomic.SwapUint32`: the old value and the word after. -/
def SwapUint32 (addr : uint32) (new : uint32) : uint32 × uint32 := (addr, new)

/-- Function `atomic.CompareAndSwapUint32`: whether swapped, and the word after. -/
def CompareAndSwapUint32 (addr : uint32) (old new : uint32) : bool × uint32 :=
  if addr = old then (true, new) else (false, addr)

/-- Function `atomic.AddUint32`: the new value and the word after. -/
def AddUint32 (addr : uint32) (delta : uint32) : uint32 × uint32 :=
  let n := addUint 32 addr delta
  (n, n)

/-- Function `atomic.LoadInt64`. -/
def LoadInt64 (addr : int64) : int64 := addr

/-- Function `atomic.StoreInt64`: the word after the store. -/
def StoreInt64 (_addr : int64) (val : int64) : int64 := val

/-- Function `atomic.SwapInt64`: the old value and the word after. -/
def SwapInt64 (addr : int64) (new : int64) : int64 × int64 := (addr, new)

/-- Function `atomic.CompareAndSwapInt64`: whether swapped, and the word after. -/
def CompareAndSwapInt64 (addr : int64) (old new : int64) : bool × int64 :=
  if addr = old then (true, new) else (false, addr)

/-- Function `atomic.AddInt64`: the new value and the word after. -/
def AddInt64 (addr : int64) (delta : int64) : int64 × int64 :=
  let n := addInt64 addr delta
  (n, n)

/-- Function `atomic.LoadUint64`. -/
def LoadUint64 (addr : uint64) : uint64 := addr

/-- Function `atomic.StoreUint64`: the word after the store. -/
def StoreUint64 (_addr : uint64) (val : uint64) : uint64 := val

/-- Function `atomic.CompareAndSwapUint64`: whether swapped, and the word after. -/
def CompareAndSwapUint64 (addr : uint64) (old new : uint64) : bool × uint64 :=
  if addr = old then (true, new) else (false, addr)

/-- The type `atomic.Uintptr` of sync/atomic: one pointer-width word. -/
structure SyncUintptr where
  word : uintptr
deriving DecidableEq, Repr

/-- Method `Load` of sync/atomic's `Uintptr`. -/
def SyncUintptr.Load (x : SyncUintptr) : uintptr := x.word

/-- Method `Store` of sync/atomic's `Uintptr`. -/
def SyncUintptr.Store (_x : SyncUintptr) (val : uintptr) : SyncUintptr := ⟨val⟩

/-- Method `Swap` of sync/atomic's `Uintptr`. -/
def SyncUintptr.Swap (x : SyncUintptr) (new : uintptr) : uintptr × SyncUintptr :=
  (x.word, ⟨new⟩)

/-- Method `CompareAndSwap` of sync/atomic's `Uintptr`. -/
def SyncUintptr.CompareAndSwap (x : SyncUintptr) (old new : uintptr) : bool × SyncUintptr :=
  if x.word = old then (true, ⟨new⟩) else (false, x)

/-- Method `Add` of sync/atomic's `Uintptr`, on a platform with pointers of `w` bits. -/
def SyncUintptr.Add (w : Nat) (x : SyncUintptr) (delta : uintptr) : uintptr × SyncUintptr :=
  let n := addUint w x.word delta
  (n, ⟨n⟩)

/-! ## bool.go -/

/-- The cell `Bool`: its raw field `v uint32`. -/
structure Bool where
  v : uint32
deriving DecidableEq, Repr

/-- The helper `truthy` of bool.go. -/
def truthy (n : uint32) : bool := n == 1

/-- The helper `boolToInt` of bool.go. -/
def boolToInt (b : bool) : uint32 := if b then 1 else 0

/-- Constructor `NewBool`. -/
def NewBool (initial : bool) : Bool := { v := boolToInt initial }

/-- Method `Bool.Load`. -/
def Bool.Load (b : Bool) : bool := truthy (LoadUint32 b.v)

/-- Method `Bool.CAS`. -/
def Bool.CAS (b : Bool) (old new : bool) : bool × Bool :=
  let r := CompareAndSwapUint32 b.v (boolToInt old) (boolToInt new)
  (r.1, { v := r.2 })

/-- Method `Bool.Store`. -/
def Bool.Store (b : Bool) (new : bool) : Bool := { v := StoreUint32 b.v (boolToInt new) }

/-- Method `Bool.Swap`. -/
def Bool.Swap (b : Bool) (new : bool) : bool × Bool :=
  let r := SwapUint32 b.v (boolToInt new)
  (truthy r.1, { v := r.2 })

/-- Method `Bool.Toggle`: the retry loop, `fuel` bounding the number of iterations.
The result is `none` when the loop has not returned within `fuel` iterations. -/
def Bool.Toggle (fuel : Nat) (b : Bool) : Option (bool × Bool) :=
  match fuel with
  | 0 => none
  | fuel + 1 =>
    let old := b.Load
    let r := b.CAS old (!old)
    if r.1 then some (old, r.2) else Bool.Toggle fuel r.2

/-! ## int64.go -/

/-- The cell `Int64`: its raw field `v int64`. -/
structure Int64 where
  v : int64
deriving DecidableEq, Repr

/-- Constructor `NewInt64`. -/
def NewInt64 (i : int64) : Int64 := { v := i }

/-- Method `Int64.Load`. -/
def Int64.Load (i : Int64) : int64 := LoadInt64 i.v

/-- Method `Int64.Add`. -/
def Int64.Add (i : Int64) (n : int64) : int64 × Int64 :=
  let r := AddInt64 i.v n
  (r.1, { v := r.2 })

/-- Method `Int64.Sub`. -/
def Int64.Sub (i : Int64) (n : int64) : int64 × Int64 :=
  let r := AddInt64 i.v (negInt64 n)
  (r.1, { v := r.2 })

/-- Method `Int64.Inc`. -/
def Int64.Inc (i : Int64) : int64 × Int64 := i.Add 1

/-- Method `Int64.Dec`. -/
def Int64.Dec (i : Int64) : int64 × Int64 := i.Sub 1

/-- Method `Int64.CAS`. -/
def Int64.CAS (i : Int64) (old new : int64) : bool × Int64 :=
  let r := CompareAndSwapInt64 i.v old new
  (r.1, { v := r.2 })

/-- Method `Int64.Store`. -/
def Int64.Store (i : Int64) (n : int64) : Int64 := { v := StoreInt64 i.v n }

/-- Method `Int64.Swap`. -/
def Int64.Swap (i : Int64) (n : int64) : int64 × Int64 :=
  let r := SwapInt64 i.v n
  (r.1, { v := r.2 })

/-! ## uint32.go -/

/-- The cell `Uint32`: its raw field `v uint32`. -/
structure Uint32 where
  v : uint32
deriving DecidableEq, Repr

/-- Constructor `NewUint32`. -/
def NewUint32 (i : uint32) : Uint32 := { v := i }

/-- Method `Uint32.Load`. -/
def Uint32.Load (i : Uint32) : uint32 := LoadUint32 i.v

/-- Method `Uint32.Add`. -/
def Uint32.Add (i : Uint32) (n : uint32) : uint32 × Uint32 :=
  let r := AddUint32 i.v n
  (r.1, { v := r.2 })

/-- Method `Uint32.Sub`: adds `^(n - 1)`. -/
def Uint32.Sub (i : Uint32) (n : uint32) : uint32 × Uint32 :=
  let r := AddUint32 i.v (notUint 32 (subUint 32 n 1))
  (r.1, { v := r.2 })

/-- Method `Uint32.Inc`. -/
def Uint32.Inc (i : Uint32) : uint32 × Uint32 := i.Add 1

/-- Method `Uint32.Dec`. -/
def Uint32.Dec (i : Uint32) : uint32 × Uint32 := i.Sub 1

/-- Method `Uint32.CAS`. -/
def Uint32.CAS (i : Uint32) (old new : uint32) : bool × Uint32 :=
  let r := CompareAndSwapUint32 i.v old new
  (r.1, { v := r.2 })

/-- Method `Uint32.Store`. -/
def Uint32.Store (i : Uint32) (n : uint32) : Uint32 := { v := StoreUint32 i.v n }

/-- Method `Uint32.Swap`. -/
def Uint32.Swap (i : Uint32) (n : uint32) : uint32 × Uint32 :=
  let r := SwapUint32 i.v n
  (r.1, { v := r.2 })

/-! ## uintptr_go119.go -/

/-- The cell `Uintptr`: its raw field `v atomic.Uintptr`. -/
structure Uintptr where
  v : SyncUintptr
deriving DecidableEq, Repr

/-- Method `Uintptr.Store`. -/
def Uintptr.Store (i : Uintptr) (val : uintptr) : Uintptr := { v := i.v.Store val }

/-- Constructor `NewUintptr`: a zero cell, then `Store`. -/
def NewUintptr (val : uintptr) : Uintptr :=
  let i : Uintptr := { v := ⟨0⟩ }
  i.Store val

/-- Method `Uintptr.Load`. -/
def Uintptr.Load (i : Uintptr) : uintptr := i.v.Load

/-- Method `Uintptr.Add`, pointers of `w` bits. -/
def Uintptr.Add (w : Nat) (i : Uintptr) (delta : uintptr) : uintptr × Uintptr :=
  let r := SyncUintptr.Add w i.v delta
  (r.1, { v := r.2 })

/-- Method `Uintptr.Sub`, pointers of `w` bits: adds `^(delta - 1)`. -/
def Uintptr.Sub (w : Nat) (i : Uintptr) (delta : uintptr) : uintptr × Uintptr :=
  let r := SyncUintptr.Add w i.v (notUint w (subUint w delta 1))
  (r.1, { v := r.2 })

/-- Method `Uintptr.Inc`. -/
def Uintptr.Inc (w : Nat) (i : Uintptr) : uintptr × Uintptr := i.Add w 1

/-- Method `Uintptr.Dec`. -/
def Uintptr.Dec (w : Nat) (i : Uintptr) : uintptr × Uintptr := i.Sub w 1

/-- Method `Uintptr.CompareAndSwap`. -/
def Uintptr.CompareAndSwap (i : Uintptr) (old new : uintptr) : bool × Uintptr :=
  let r := i.v.CompareAndSwap old new
  (r.1, { v := r.2 })

/-- Method `Uintptr.CAS`: the deprecated name of `CompareAndSwap`. -/
def Uintptr.CAS (i : Uintptr) (old new : uintptr) : bool × Uintptr :=
  i.CompareAndSwap old new

/-- Method `Uintptr.Swap`. -/
def Uintptr.Swap (i : Uintptr) (val : uintptr) : uintptr × Uintptr :=
  let r := i.v.Swap val
  (r.1, { v := r.2 })

/-! ## duration.go -/

/-- Go's `time.Duration`: an `int64` count of nanoseconds. -/
abbrev time.Duration := int64

/-- The conversion `int64(d)` of a `time.Duration`. -/
def time.Duration.toInt64 (d : time.Duration) : int64 := d

/-- The conversion `time.Duration(x)` of an `int64`. -/
def time.Duration.ofInt64 (x : int64) : time.Duration := x

/-- The cell `Duration`: its raw field `v Int64`. -/
structure Duration where
  v : Int64
deriving DecidableEq, Repr

/-- Constructor `NewDuration`. -/
def NewDuration (d : time.Duration) : Duration := { v := NewInt64 (time.Duration.toInt64 d) }

/-- Method `Duration.Load`. -/
def Duration.Load (d : Duration) : time.Duration := time.Duration.ofInt64 d.v.Load

/-- Method `Duration.Store`. -/
def Duration.Store (d : Duration) (n : time.Duration) : Duration :=
  { v := d.v.Store (time.Duration.toInt64 n) }

/-- Method `Duration.Add`. -/
def Duration.Add (d : Duration) (n : time.Duration) : time.Duration × Duration :=
  let r := d.v.Add (time.Duration.toInt64 n)
  (time.Duration.ofInt64 r.1, { v := r.2 })

/-- Method `Duration.Sub`. -/
def Duration.Sub (d : Duration) (n : time.Duration) : time.Duration × Duration :=
  let r := d.v.Sub (time.Duration.toInt64 n)
  (time.Duration.ofInt64 r.1, { v := r.2 })

/-- Method `Duration.Swap`. -/
def Duration.Swap (d : Duration) (n : time.Duration) : time.Duration × Duration :=
  let r := d.v.Swap (time.Duration.toInt64 n)
  (time.Duration.ofInt64 r.1, { v := r.2 })

/-- Method `Duration.CAS`. -/
def Duration.CAS (d : Duration) (old new : time.Duration) : bool × Duration :=
  let r := d.v.CAS (time.Duration.toInt64 old) (time.Duration.toInt64 new)
  (r.1, { v := r.2 })

/-! ## float64.go -/

/-- Go's `float64`: the sign, biased exponent and fraction fields of an
IEEE 754 binary64 value. -/
structure float64 where
  sign : bool
  exp : Nat
  frac : Nat
  exp_lt : exp < 2 ^ 11
  frac_lt : frac < 2 ^ 52
deriving DecidableEq

/-- Function `math.Float64bits`: the IEEE 754 binary representation of `f`. -/
def math.Float64bits (f : float64) : uint64 :=
  (if f.sign then 2 ^ 63 else 0) + f.exp * 2 ^ 52 + f.frac

/-- Function `math.Float64frombits`: the float with binary representation `b`. -/
def math.Float64frombits (b : uint64) : float64 :=
  { sign := b / 2 ^ 63 % 2 == 1
    exp := b / 2 ^ 52 % 2 ^ 11
    frac := b % 2 ^ 52
    exp_lt := Nat.mod_lt _ (by decide)
    frac_lt := Nat.mod_lt _ (by decide) }

/-- Whether a `float64` is a NaN: exponent all ones, fraction not zero. -/
def float64.isNaN (f : float64) : bool := f.exp == 2047 && f.frac != 0

/-- Whether a `float64` is an infinity: exponent all ones, fraction zero. -/
def float64.isInf (f : float64) : bool := f.exp == 2047 && f.frac == 0

/-- Whether a `float64` is a zero of either sign. -/
def float64.isZero (f : float64) : bool := f.exp == 0 && f.frac == 0

/-- Whether a `float64` is a denormal: exponent zero, fraction not zero. -/
def float64.isDenormal (f : float64) : bool := f.exp == 0 && f.frac != 0

/-- Go's `x == y` on `float64`: a NaN equals nothing, the two zeros are equal,
any other two values are equal when their fields are. -/
def float64.eq (x y : float64) : bool :=
  !x.isNaN && !y.isNaN && ((x.isZero && y.isZero) || decide (x = y))

/-- The cell `Float64`: its raw field `v uint64`. -/
structure Float64 where
  v : uint64
deriving DecidableEq, Repr

/-- Constructor `NewFloat64`. -/
def NewFloat64 (f : float64) : Float64 := { v := math.Float64bits f }

/-- Method `Float64.Load`. -/
def Float64.Load (f : Float64) : float64 := math.Float64frombits (LoadUint64 f.v)

/-- Method `Float64.Store`. -/
def Float64.Store (f : Float64) (s : float64) : Float64 :=
  { v := StoreUint64 f.v (math.Float64bits s) }

/-- Method `Float64.CAS`. -/
def Float64.CAS (f : Float64) (old new : float64) : bool × Float64 :=
  let r := CompareAndSwapUint64 f.v (math.Float64bits old) (math.Float64bits new)
  (r.1, { v := r.2 })

/-! ### Particular `float64` values -/

/-- The value `+0.0`: all bits zero. -/
def posZero : float64 := math.Float64frombits 0

/-- The value `-0.0` (`math.Copysign(0, -1)`): only the sign bit set. -/
def negZero : float64 := math.Float64frombits 0x8000000000000000

/-- The value `math.Inf(1)`. -/
def posInf : float64 := math.Float64frombits 0x7FF0000000000000

/-- The value `math.Inf(-1)`. -/
def negInf : float64 := math.Float64frombits 0xFFF0000000000000

/-- The value `math.NaN()`: the quiet NaN with payload 1. -/
def nanA : float64 := math.Float64frombits 0x7FF8000000000001

/-- A quiet NaN with payload 2. -/
def nanB : float64 := math.Float64frombits 0x7FF8000000000002

/-- The smallest positive denormal. -/
def minDenormal : float64 := math.Float64frombits 1

/-! ### Arithmetic of `float64`

Go's `+` and unary `-` on `float64` are the IEEE 754 binary64 operations with
rounding to nearest, ties to even.  A finite value is a sign and a magnitude counted in
units of `2^-1074`, the weight of the last bit of a denormal; the magnitude is kept as a
significand and a power of two. -/

/-- Number of binary digits of `n`; `fuel` bounds the number of digits. -/
def bitLenAux : Nat → Nat → Nat
  | 0, _ => 0
  | fuel + 1, n => if n = 0 then 0 else 1 + bitLenAux fuel (n / 2)

/-- Number of binary digits of `n`. -/
def bitLen (n : Nat) : Nat := bitLenAux n n

/-- Significand of a finite `float64`: the fraction, with the hidden bit when the
value is not a denormal. -/
def float64.sig (x : float64) : Nat :=
  if x.exp = 0 then x.frac else 2 ^ 52 + x.frac

/-- Scale of a finite `float64`: the value is `sig * 2^scale` units of `2^-1074`. -/
def float64.scale (x : float64) : Nat := x.exp - 1

/-- Exponent and fraction fields of the `float64` nearest to the magnitude `m * 2^e0`
(in units of `2^-1074`), ties to even; a magnitude beyond the largest finite value gives
the fields of an infinity. -/
def roundMag (m e0 : Nat) : Nat × Nat :=
  let len := bitLen m
  if len + e0 ≤ 53 then (m * 2 ^ e0 / 2 ^ 52, m * 2 ^ e0 % 2 ^ 52)
  else if len ≤ 53 then
    let e := len + e0 - 52
    if 2047 ≤ e then (2047, 0) else (e, m * 2 ^ (53 - len) - 2 ^ 52)
  else
    let sh := len - 53
    let q := m / 2 ^ sh
    let r := m % 2 ^ sh
    let half := 2 ^ (sh - 1)
    let q2 := if half < r ∨ (r = half ∧ q % 2 = 1) then q + 1 else q
    let q3 := if q2 = 2 ^ 53 then 2 ^ 52 else q2
    let e := if q2 = 2 ^ 53 then sh + e0 + 2 else sh + e0 + 1
    if 2047 ≤ e then (2047, 0) else (e, q3 - 2 ^ 52)

/-- The `float64` with the given sign nearest to the magnitude `m * 2^e0` (units of
`2^-1074`). -/
def float64.ofMag (sign : bool) (m e0 : Nat) : float64 :=
  let r := roundMag m e0
  math.Float64frombits ((if sign then 2 ^ 63 else 0) + r.1 * 2 ^ 52 + r.2)

/-- A NaN made quiet: the top fraction bit set, sign and payload kept. -/
def float64.quiet (x : float64) : float64 :=
  math.Float64frombits
    ((if x.sign then 2 ^ 63 else 0) + 2047 * 2 ^ 52 + (x.frac % 2 ^ 51 + 2 ^ 51))

/-- Go's `x + y` on `float64`.  A NaN operand gives that NaN made quiet (the first one
when both are NaN) and the sum of opposite infinities gives the default NaN of amd64;
which NaN comes out is the one point where platforms differ. -/
def float64.add (x y : float64) : float64 :=
  if x.isNaN then x.quiet
  else if y.isNaN then y.quiet
  else if x.isInf then
    if y.isInf && (x.sign != y.sign) then math.Float64frombits 0xFFF8000000000000 else x
  else if y.isInf then y
  else
    let e0 := min x.scale y.scale
    let mx := x.sig * 2 ^ (x.scale - e0)
    let my := y.sig * 2 ^ (y.scale - e0)
    let a : Int := if x.sign then -(mx : Int) else (mx : Int)
    let b : Int := if y.sign then -(my : Int) else (my : Int)
    let s := a + b
    if s = 0 then (if x.sign && y.sign then negZero else posZero)
    else float64.ofMag (decide (s < 0)) s.natAbs e0

/-- Go's unary `-x` on `float64`: the sign bit flipped. -/
def float64.neg (x : float64) : float64 :=
  { x with sign := !x.sign }

/-- Method `Float64.Add`: the retry loop, `fuel` bounding the number of iterations.
The result is `none` when the loop has not returned within `fuel` iterations. -/
def Float64.Add (fuel : Nat) (f : Float64) (s : float64) : Option (float64 × Float64) :=
  match fuel with
  | 0 => none
  | fuel + 1 =>
    let old := f.Load
    let new := old.add s
    let r := f.CAS old new
    if r.1 then some (new, r.2) else Float64.Add fuel r.2 s

/-- Method `Float64.Sub`. -/
def Float64.Sub (fuel : Nat) (f : Float64) (s : float64) : Option (float64 × Float64) :=
  f.Add fuel s.neg

/-! ## encoding/json at the wrapped types

The package calls `json.Marshal` and `json.Unmarshal` of the standard library.
The methods of the cells are embedded over an arbitrary such pair; the pairs of
encoding/json at `bool`, at the integer types and at `float64` follow them. -/

/-- The pair `json.Marshal`, `json.Unmarshal` of encoding/json at the Go type
`α`, with errors of type `ε`.  `Unmarshal t` is the outcome of
`json.Unmarshal(t, &v)` for a freshly declared `var v α`: the error returned,
or the content of `v` after a nil error. -/
structure json (ε α : Type) where
  Marshal : α → Except ε Bytes
  Unmarshal : Bytes → Except ε α

deriving instance DecidableEq for Except

/-- Method `Bool.MarshalJSON`. -/
def Bool.MarshalJSON {ε : Type} (j : json ε bool) (b : Bool) : Except ε Bytes :=
  j.Marshal b.Load

/-- Method `Bool.UnmarshalJSON`: the returned error (`none` is nil) and the cell after. -/
def Bool.UnmarshalJSON {ε : Type} (j : json ε bool) (b : Bool) (t : Bytes) : Option ε × Bool :=
  match j.Unmarshal t with
  | .error err => (some err, b)
  | .ok v => (none, b.Store v)

/-- Method `Int64.MarshalJSON`. -/
def Int64.MarshalJSON {ε : Type} (j : json ε int64) (i : Int64) : Except ε Bytes :=
  j.Marshal i.Load

/-- Method `Int64.UnmarshalJSON`: the returned error (`none` is nil) and the cell after. -/
def Int64.UnmarshalJSON {ε : Type} (j : json ε int64) (i : Int64) (b : Bytes) : Option ε × Int64 :=
  match j.Unmarshal b with
  | .error err => (some err, i)
  | .ok v => (none, i.Store v)

/-- Method `Uint32.MarshalJSON`. -/
def Uint32.MarshalJSON {ε : Type} (j : json ε uint32) (i : Uint32) : Except ε Bytes :=
  j.Marshal i.Load

/-- Method `Uint32.UnmarshalJSON`: the returned error (`none` is nil) and the cell after. -/
def Uint32.UnmarshalJSON {ε : Type} (j : json ε uint32) (i : Uint32) (b : Bytes) :
    Option ε × Uint32 :=
  match j.Unmarshal b with
  | .error err => (some err, i)
  | .ok v => (none, i.Store v)

/-- Method `Uintptr.MarshalJSON`. -/
def Uintptr.MarshalJSON {ε : Type} (j : json ε uintptr) (i : Uintptr) : Except ε Bytes :=
  j.Marshal i.Load

/-- Method `Uintptr.UnmarshalJSON`: the returned error (`none` is nil) and the cell after. -/
def Uintptr.UnmarshalJSON {ε : Type} (j : json ε uintptr) (i : Uintptr) (b : Bytes) :
    Option ε × Uintptr :=
  match j.Unmarshal b with
  | .error err => (some err, i)
  | .ok v => (none, i.Store v)

/-- Method `Float64.MarshalJSON`. -/
def Float64.MarshalJSON {ε : Type} (j : json ε float64) (f : Float64) : Except ε Bytes :=
  j.Marshal f.Load

/-- Method `Float64.UnmarshalJSON`: the returned error (`none` is nil) and the cell after. -/
def Float64.UnmarshalJSON {ε : Type} (j : json ε float64) (f : Float64) (b : Bytes) :
    Option ε × Float64 :=
  match j.Unmarshal b with
  | .error err => (some err, f)
  | .ok v => (none, f.Store v)

/-- Method `Duration.MarshalJSON`. -/
def Duration.MarshalJSON {ε : Type} (j : json ε time.Duration) (d : Duration) : Except ε Bytes :=
  j.Marshal d.Load

/-- Method `Duration.UnmarshalJSON`: the returned error (`none` is nil) and the cell after. -/
def Duration.UnmarshalJSON {ε : Type} (j : json ε time.Duration) (d : Duration) (b : Bytes) :
    Option ε × Duration :=
  match j.Unmarshal b with
  | .error err => (some err, d)
  | .ok v => (none, d.Store v)

/-! ### The scanner and the decoders of encoding/json

`json.Unmarshal` first runs its scanner over the bytes (`checkValid`) and refuses with a
`SyntaxError` what is not one JSON value.  A valid value of a kind the target cannot
hold, or a number the target type cannot represent, is refused with an
`UnmarshalTypeError`; the literal `null` leaves the target as it is. -/

/-- The errors of encoding/json: `malformed` is the `SyntaxError` of the scanner,
`unsupportedValue` the `UnsupportedValueError` of the encoder, `typeMismatch` the
`UnmarshalTypeError` of the decoder. -/
inductive jsonError where
  | malformed
  | unsupportedValue
  | typeMismatch
deriving DecidableEq, Repr

/-- JSON white space: space, tab, line feed, carriage return. -/
def isSpace (c : Nat) : bool := c == 32 || c == 9 || c == 10 || c == 13

/-- The bytes after the leading white space. -/
def skipSpace (t : Bytes) : Bytes := t.dropWhile isSpace

/-- An ASCII decimal digit. -/
def isDigit (c : Nat) : bool := decide (48 ≤ c) && decide (c ≤ 57)

/-- An ASCII hexadecimal digit. -/
def isHex (c : Nat) : bool :=
  isDigit c || (decide (65 ≤ c) && decide (c ≤ 70)) || (decide (97 ≤ c) && decide (c ≤ 102))

/-- A JSON number literal cut into its parts: the digits of the integer part, of the
fraction (none when there is no fraction) and of the exponent (none when there is no
exponent), and the two signs. -/
structure NumLit where
  neg : bool
  int : Bytes
  frac : Bytes
  expNeg : bool
  exp : Bytes
deriving DecidableEq, Repr

/-- The integer part of a JSON number: `0`, or a digit from 1 to 9 and the digits after
it.  Returns the part and the bytes after it. -/
def lexInt (t : Bytes) : Option (Bytes × Bytes) :=
  match t with
  | [] => none
  | c :: r =>
    if c = 48 then some ([48], r)
    else if isDigit c then some (c :: r.takeWhile isDigit, r.dropWhile isDigit)
    else none

/-- One digit at least: the digits and the bytes after them. -/
def lexDigits (t : Bytes) : Option (Bytes × Bytes) :=
  match t with
  | [] => none
  | c :: r =>
    if isDigit c then some (c :: r.takeWhile isDigit, r.dropWhile isDigit) else none

/-- The fraction of a JSON number, if one starts here. -/
def lexFrac (t : Bytes) : Option (Bytes × Bytes) :=
  match t with
  | 46 :: r => lexDigits r
  | _ => some ([], t)

/-- The exponent of a JSON number, if one starts here: its sign, its digits, and the
bytes after it. -/
def lexExp (t : Bytes) : Option (bool × Bytes × Bytes) :=
  match t with
  | [] => some (false, [], [])
  | c :: r =>
    if c = 101 ∨ c = 69 then
      match r with
      | [] => none
      | s :: r2 =>
        if s = 45 then (lexDigits r2).map fun p => (true, p.1, p.2)
        else if s = 43 then (lexDigits r2).map fun p => (false, p.1, p.2)
        else (lexDigits r).map fun p => (false, p.1, p.2)
    else some (false, [], t)

/-- The JSON number literal at the head of `t` and the bytes after it. -/
def lexNumber (t : Bytes) : Option (NumLit × Bytes) :=
  let neg := decide (t.head? = some 45)
  match lexInt (if neg then t.tail else t) with
  | none => none
  | some (ip, t2) =>
    match lexFrac t2 with
    | none => none
    | some (fp, t3) =>
      match lexExp t3 with
      | none => none
      | some (eneg, ep, t4) => some (⟨neg, ip, fp, eneg, ep⟩, t4)

/-- The bytes after the JSON string whose opening quotation mark has been read: no raw
control character, and after a backslash one of the escapes of JSON. -/
def scanString : Bytes → Option Bytes
  | [] => none
  | c :: r =>
    if c = 34 then some r
    else if c = 92 then
      match r with
      | [] => none
      | e :: r2 =>
        if e = 34 ∨ e = 92 ∨ e = 47 ∨ e = 98 ∨ e = 102 ∨ e = 110 ∨ e = 114 ∨ e = 116 then
          scanString r2
        else if e = 117 then
          match r2 with
          | h1 :: h2 :: h3 :: h4 :: r3 =>
            if isHex h1 && isHex h2 && isHex h3 && isHex h4 then scanString r3 else none
          | _ => none
        else none
    else if c < 32 then none
    else scanString r

/-- The containers the scanner is inside of. -/
inductive Container where
  | array
  | object
deriving DecidableEq, Repr

/-- What the scanner expects next: a value; a value or the end of an empty array; a key
or the end of an empty object; a key; what follows a value. -/
inductive Expect where
  | value
  | valueOrEmpty
  | keyOrEmpty
  | key
  | after
deriving DecidableEq, Repr

/-- Deepest nesting of arrays and objects the scanner of encoding/json accepts. -/
def maxNestingDepth : Nat := 10000

/-- One step of the scanner of encoding/json: what is read next, given the open
containers `stack` and what is expected; `k` scans what is left. -/
def scanStep (k : List Container → Expect → Bytes → bool) (stack : List Container)
    (e : Expect) (t : Bytes) : bool :=
  match e, skipSpace t with
  | Expect.after, [] => stack.isEmpty
  | _, [] => false
  | Expect.after, c :: r =>
    match stack with
    | [] => false
    | Container.array :: st =>
      if c = 44 then k stack Expect.value r
      else if c = 93 then k st Expect.after r
      else false
    | Container.object :: st =>
      if c = 44 then k stack Expect.key r
      else if c = 125 then k st Expect.after r
      else false
  | Expect.valueOrEmpty, c :: r =>
    if c = 93 then k stack.tail Expect.after r
    else k stack Expect.value (c :: r)
  | Expect.keyOrEmpty, c :: r =>
    if c = 125 then k stack.tail Expect.after r
    else k stack Expect.key (c :: r)
  | Expect.key, c :: r =>
    if c = 34 then
      match scanString r with
      | none => false
      | some r2 =>
        match skipSpace r2 with
        | 58 :: r3 => k stack Expect.value r3
        | _ => false
    else false
  | Expect.value, c :: r =>
    if c = 34 then
      match scanString r with
      | none => false
      | some r2 => k stack Expect.after r2
    else if c = 91 then
      if stack.length < maxNestingDepth then
        k (Container.array :: stack) Expect.valueOrEmpty r
      else false
    else if c = 123 then
      if stack.length < maxNestingDepth then
        k (Container.object :: stack) Expect.keyOrEmpty r
      else false
    else if c = 110 then
      if r.take 3 = [117, 108, 108] then k stack Expect.after (r.drop 3) else false
    else if c = 116 then
      if r.take 3 = [114, 117, 101] then k stack Expect.after (r.drop 3) else false
    else if c = 102 then
      if r.take 4 = [97, 108, 115, 101] then k stack Expect.after (r.drop 4) else false
    else
      match lexNumber (c :: r) with
      | none => false
      | some (_, r2) => k stack Expect.after r2

/-- The scanner of encoding/json: whether the bytes are one JSON value with white space
around it; `fuel` bounds the number of steps. -/
def scan : Nat → List Container → Expect → Bytes → bool
  | 0, _, _, _ => false
  | fuel + 1, stack, e, t => scanStep (scan fuel) stack e t

/-- Function `checkValid` of encoding/json: twice the length and two more steps are
enough, a step that reads no byte coming only right after one that does. -/
def checkValid (t : Bytes) : bool := scan (2 * t.length + 2) [] Expect.value t

/-- The kinds of JSON value, by the first byte of the value. -/
inductive jsonKind where
  | null
  | true
  | false
  | number
  | string
  | array
  | object
deriving DecidableEq, Repr

/-- The kind of the value at the head of `d`, known to be a JSON value. -/
def jsonKindOf (d : Bytes) : jsonKind :=
  match d with
  | [] => jsonKind.number
  | c :: _ =>
    if c = 110 then jsonKind.null
    else if c = 116 then jsonKind.true
    else if c = 102 then jsonKind.false
    else if c = 34 then jsonKind.string
    else if c = 91 then jsonKind.array
    else if c = 123 then jsonKind.object
    else jsonKind.number

/-- The bytes of `true`. -/
def litTrue : Bytes := [116, 114, 117, 101]

/-- The bytes of `false`. -/
def litFalse : Bytes := [102, 97, 108, 115, 101]

/-- The bytes of `null`. -/
def litNull : Bytes := [110, 117, 108, 108]

/-- Base 10 digits of `n` pushed in front of `acc`, most significant first;
`fuel` bounds the number of digits. -/
def formatUintAux : Nat → Nat → Bytes → Bytes
  | 0, _, acc => acc
  | fuel + 1, n, acc =>
    if n / 10 = 0 then (48 + n % 10) :: acc
    else formatUintAux fuel (n / 10) ((48 + n % 10) :: acc)

/-- Base 10 text of a natural number (`strconv.FormatUint(n, 10)`). -/
def formatUint (n : Nat) : Bytes := formatUintAux (n + 1) n []

/-- Base 10 text of an integer (`strconv.FormatInt(x, 10)`). -/
def formatInt (x : Int) : Bytes :=
  if x < 0 then 45 :: formatUint x.natAbs else formatUint x.natAbs

/-- The number a sequence of decimal digits denotes. -/
def digitsVal (ds : Bytes) : Nat := ds.foldl (fun a d => a * 10 + (d - 48)) 0

/-- Function `strconv.ParseInt` in base 10 on a JSON number literal: the integer, when the
literal has neither fraction nor exponent. -/
def parseIntLit (lit : NumLit) : Option Int :=
  if lit.frac = [] ∧ lit.exp = [] then
    some (if lit.neg then -(digitsVal lit.int : Int) else (digitsVal lit.int : Int))
  else none

/-- Function `strconv.ParseUint` in base 10 on a JSON number literal: the number, when the
literal has no sign, no fraction and no exponent. -/
def parseUintLit (lit : NumLit) : Option Nat :=
  if lit.neg = false ∧ lit.frac = [] ∧ lit.exp = [] then some (digitsVal lit.int) else none

/-- The pair at `bool`: `json.Marshal` writes `true` or `false`; `json.Unmarshal` refuses
bytes that are not valid JSON, leaves the zero value on `null`, reads `true` and `false`
and reports a type mismatch on any other value. -/
def jsonBool : json jsonError bool where
  Marshal b := .ok (if b then litTrue else litFalse)
  Unmarshal t :=
    if checkValid t then
      match jsonKindOf (skipSpace t) with
      | jsonKind.null => .ok false
      | jsonKind.true => .ok true
      | jsonKind.false => .ok false
      | _ => .error .typeMismatch
    else .error .malformed

/-- The pair at `int64` (and at `time.Duration`, an `int64`): `json.Unmarshal` refuses
bytes that are not valid JSON, leaves the zero value on `null`, reads a number that
`strconv.ParseInt` accepts within range, and reports a type mismatch otherwise. -/
def jsonInt64 : json jsonError int64 where
  Marshal x := .ok (formatInt x)
  Unmarshal t :=
    if checkValid t then
      match jsonKindOf (skipSpace t) with
      | jsonKind.null => .ok 0
      | jsonKind.number =>
        match (lexNumber (skipSpace t)).bind fun p => parseIntLit p.1 with
        | some x => if isInt64 x then .ok x else .error .typeMismatch
        | none => .error .typeMismatch
      | _ => .error .typeMismatch
    else .error .malformed

/-- The pair at an unsigned integer type of `w` bits, with `strconv.ParseUint`. -/
def jsonUint (w : Nat) : json jsonError Nat where
  Marshal n := .ok (formatUint n)
  Unmarshal t :=
    if checkValid t then
      match jsonKindOf (skipSpace t) with
      | jsonKind.null => .ok 0
      | jsonKind.number =>
        match (lexNumber (skipSpace t)).bind fun p => parseUintLit p.1 with
        | some n => if isUint w n then .ok n else .error .typeMismatch
        | none => .error .typeMismatch
      | _ => .error .typeMismatch
    else .error .malformed

/-! ### encoding/json at `float64`

The encoder refuses infinities and NaNs with an `UnsupportedValueError` before any text
is produced.  Every other value is written by strconv with the fewest digits that tell
it from every other `float64`, in the format `e` when the magnitude is below `1e-6` or
at least `1e21` and in the format `f` otherwise.  The decoder reads a JSON number with
`strconv.ParseFloat`, which rounds the decimal to the nearest `float64`, ties to even. -/

/-- The quotient `q / 2^sh` rounded to the nearest whole number, ties to even, for
`1 ≤ sh`; `sticky` tells that `q` is itself a quotient cut off, the number being rounded
lying above `q` and below `q + 1`. -/
def roundShift (q : Nat) (sticky : bool) (sh : Nat) : Nat :=
  let keep := q / 2 ^ sh
  let rem := q % 2 ^ sh
  let half := 2 ^ (sh - 1)
  if decide (half < rem) || (decide (rem = half) && (sticky || decide (keep % 2 = 1))) then
    keep + 1
  else keep

/-- The `float64` with the given sign nearest to the fraction `num / den` (`den` not
zero), ties to even; `none` when that is beyond the largest finite value.  The quotient
is taken with 56 binary digits or more and a flag for what is left, then cut to the 53
digits of a significand, or to fewer where the result is a denormal. -/
def float64.ofRat (sign : bool) (num den : Nat) : Option float64 :=
  if num = 0 then some (if sign then negZero else posZero)
  else
    let s := 56 + bitLen den - bitLen num
    let q := num * 2 ^ s / den
    let sh := max (bitLen q - 53) (s - 1074)
    let r := roundMag (roundShift q (decide (num * 2 ^ s % den ≠ 0)) sh) (sh + 1074 - s)
    if r.1 = 2047 then none
    else some (math.Float64frombits ((if sign then 2 ^ 63 else 0) + r.1 * 2 ^ 52 + r.2))

/-- Numerator of the fraction a JSON number denotes, sign apart: the digits of the
integer part and of the fraction read as one number, times the power of ten of the
exponent less the length of the fraction when that is not negative. -/
def NumLit.num (lit : NumLit) : Nat :=
  if lit.expNeg = false ∧ lit.frac.length ≤ digitsVal lit.exp then
    digitsVal (lit.int ++ lit.frac) * 10 ^ (digitsVal lit.exp - lit.frac.length)
  else digitsVal (lit.int ++ lit.frac)

/-- Denominator of the fraction a JSON number denotes: a power of ten. -/
def NumLit.den (lit : NumLit) : Nat :=
  if lit.expNeg then 10 ^ (digitsVal lit.exp + lit.frac.length)
  else if lit.frac.length ≤ digitsVal lit.exp then 1
  else 10 ^ (lit.frac.length - digitsVal lit.exp)

/-- Function `strconv.ParseFloat(s, 64)` on a JSON number cut into its parts: the
`float64` nearest to the decimal, `none` for the range error of a value that rounds to
an infinity.  A value too small for a denormal rounds to a zero without an error. -/
def parseFloatLit (lit : NumLit) : Option float64 :=
  float64.ofRat lit.neg lit.num lit.den

/-- Function `strconv.ParseFloat(s, 64)` on a text that is a JSON number, the only texts
encoding/json passes to it; `none` when the text is no JSON number or the value is out of
range. -/
def parseFloat (t : Bytes) : Option float64 :=
  match lexNumber t with
  | some (lit, []) => parseFloatLit lit
  | _ => none

/-- The largest `k` from `k0` on with `b * 10^k ≤ a`, for `b * 10^k0 ≤ a`; `fuel` bounds
the search. -/
def expUp : Nat → Nat → Nat → Nat → Nat
  | 0, _, _, k => k
  | fuel + 1, a, b, k => if b * 10 ^ (k + 1) ≤ a then expUp fuel a b (k + 1) else k

/-- The smallest `k` from `k0` on with `b ≤ a * 10^k`; `fuel` bounds the search. -/
def expDown : Nat → Nat → Nat → Nat → Nat
  | 0, _, _, k => k
  | fuel + 1, a, b, k => if b ≤ a * 10 ^ k then k else expDown fuel a b (k + 1)

/-- The decimal exponent of the positive fraction `a / b`: the `e` with
`10^e ≤ a / b < 10^(e+1)`. -/
def decimalExp (a b : Nat) : Int :=
  if b ≤ a then (expUp 400 a b 0 : Int) else -(expDown 400 a b 1 : Int)

/-- The digits without the zeros at their end. -/
def stripZeros (ds : Bytes) : Bytes := (ds.reverse.dropWhile fun c => c == 48).reverse

/-- The format `e` for the digits `ds` of the decimal `0.ds * 10^dp`, as the encoder
leaves it: `d.ddde±x`.  strconv writes two digits of exponent at least and the encoder
takes the zero off again (`e-07` becomes `e-7`), so the exponent has no zero in front. -/
def fmtE (neg : bool) (ds : Bytes) (dp : Int) : Bytes :=
  (if neg then [45] else []) ++ ds.take 1 ++
  (if 1 < ds.length then 46 :: ds.drop 1 else []) ++
  101 :: (if dp - 1 < 0 then 45 else 43) :: formatUint (dp - 1).natAbs

/-- The format `f` of strconv for the decimal `0.ds * 10^dp` and the digits `ds`. -/
def fmtF (neg : bool) (ds : Bytes) (dp : Int) : Bytes :=
  (if neg then [45] else []) ++
  (if dp ≤ 0 then 48 :: 46 :: (List.replicate (-dp).toNat 48 ++ ds)
   else if ds.length ≤ dp.toNat then ds ++ List.replicate (dp.toNat - ds.length) 48
   else ds.take dp.toNat ++ 46 :: ds.drop dp.toNat)

/-- The text of the decimal `n * 10^e` (`n` not zero) in the format `fmt`, the byte `e`
or `f`. -/
def decimalText (fmt : Nat) (neg : bool) (n : Nat) (e : Int) : Bytes :=
  let ds := formatUint n
  if fmt = 101 then fmtE neg (stripZeros ds) (ds.length + e)
  else fmtF neg (stripZeros ds) (ds.length + e)

/-- The decimals of `p` digits next to the fraction `a / b` of decimal exponent `e10`,
the one below and the one above, the nearer one first and of two equally near ones the
one with the even last digit; the fraction itself alone when it is such a decimal.  A
decimal is a pair `(n, e)` for `n * 10^e`. -/
def neighbours (a b : Nat) (e10 : Int) (p : Nat) : List (Nat × Int) :=
  let j : Int := (p : Int) - 1 - e10
  let a2 := a * 10 ^ j.toNat
  let b2 := b * 10 ^ (-j).toNat
  let n := a2 / b2
  let r := a2 % b2
  if r = 0 then [(n, -j)]
  else if 2 * r < b2 ∨ (2 * r = b2 ∧ n % 2 = 0) then [(n, -j), (n + 1, -j)]
  else [(n + 1, -j), (n, -j)]

/-- Four times the significand of a finite `x`, less the way to the point halfway to the
`float64` below `x`: two quarters of the last place of `x`, and one quarter when `x` is a
power of two other than the smallest normal number, the `float64` below being half as
far away as the one above. -/
def float64.below4 (x : float64) : Nat :=
  if x.frac = 0 ∧ 2 ≤ x.exp then 4 * x.sig - 1 else 4 * x.sig - 2

/-- Whether `strconv.ParseFloat` reads the fraction `num / den` as the finite `x`, `x` not
zero: the fraction lies between the point halfway to the `float64` below `x` and the
point halfway to the one above, the two points included when the significand of `x` is
even.  All is counted in quarters of the last place of `x`. -/
def float64.rounds (x : float64) (num den : Nat) : bool :=
  let lo := x.below4 * 2 ^ (x.scale - 1074) * den
  let hi := (4 * x.sig + 2) * 2 ^ (x.scale - 1074) * den
  let v := 4 * num * 2 ^ (1074 - x.scale)
  if x.sig % 2 = 0 then decide (lo ≤ v ∧ v ≤ hi) else decide (lo < v ∧ v < hi)

/-- The digits `strconv` writes for a finite `x` that is not zero when asked for the
shortest text (precision -1): the decimal with the fewest digits that
`strconv.ParseFloat` reads as `x`, and of the decimals with that many digits the one
nearest to `x`.  Seventeen digits always do, so the nearest decimal of 17 digits is
taken when no shorter one is read as `x`. -/
def shortestDecimal (x : float64) : Nat × Int :=
  let a := x.sig * 2 ^ (x.scale - 1074)
  let b := 2 ^ (1074 - x.scale)
  let e10 := decimalExp a b
  let shorter := (List.range 16).flatMap fun p => neighbours a b e10 (p + 1)
  match shorter.find? fun c => x.rounds (c.1 * 10 ^ c.2.toNat) (10 ^ (-c.2).toNat) with
  | some c => c
  | none => (neighbours a b e10 17).headD (0, 0)

/-- The constant `1e-6` of the encoder as a `float64`. -/
def float1e_6 : float64 := math.Float64frombits 0x3EB0C6F7A0B5ED8D

/-- The constant `1e21` of the encoder as a `float64`. -/
def float1e21 : float64 := math.Float64frombits 0x444B1AE4D6E2EF50

/-- Go's `math.Abs(x) < y` for finite `x` and a positive finite `y`: the order of the bit
patterns without the sign. -/
def float64.absLt (x y : float64) : bool :=
  decide (x.exp * 2 ^ 52 + x.frac < y.exp * 2 ^ 52 + y.frac)

/-- The format the encoder asks strconv for: the byte `e` when the magnitude is not zero
and below `1e-6` or at least `1e21`, the byte `f` otherwise. -/
def floatFmt (x : float64) : Nat :=
  if !x.isZero && (x.absLt float1e_6 || !x.absLt float1e21) then 101 else 102

/-- The encoder of encoding/json at `float64` (`floatEncoder.encode`): an
`UnsupportedValueError` for an infinity and a NaN, and else what
`strconv.AppendFloat(b, x, fmt, -1, 64)` writes, the shortest decimal that reads back as
`x` in the format `fmt`. -/
def floatEncoder (x : float64) : Except jsonError Bytes :=
  if x.isInf || x.isNaN then .error .unsupportedValue
  else if x.isZero then .ok (if x.sign then [45, 48] else [48])
  else .ok (decimalText (floatFmt x) x.sign (shortestDecimal x).1 (shortestDecimal x).2)

/-- The pair at `float64`: `json.Unmarshal` refuses bytes that are not valid JSON, leaves
the zero value on `null`, reads a number with `strconv.ParseFloat` and reports a type
mismatch on a number out of range and on any other value. -/
def jsonFloat64 : json jsonError float64 where
  Marshal := floatEncoder
  Unmarshal t :=
    if checkValid t then
      match jsonKindOf (skipSpace t) with
      | jsonKind.null => .ok posZero
      | jsonKind.number =>
        match (lexNumber (skipSpace t)).bind fun p => parseFloatLit p.1 with
        | some x => .ok x
        | none => .error .typeMismatch
      | _ => .error .typeMismatch
    else .error .malformed

/-! ### Text forms of `Bool` -/

/-- Function `strconv.FormatBool`. -/
def strconv.FormatBool (b : bool) : string := if b then litTrue else litFalse

/-- Method `Bool.String`. -/
def Bool.String (b : Bool) : string := strconv.FormatBool b.Load

/-! ## string.go

`String` wraps the package's `Value`, which embeds `Value` of sync/atomic: a slot that
holds a nil interface until the first `Store`, and whose `Store` panics on a nil
interface and on a value whose dynamic type differs from the one stored first. -/

/-- Go's `time.Time` as an instant: the nanoseconds elapsed since the zero `Time`
(January 1, year 1, 00:00 UTC).  The monotonic clock reading and the location are left
out, and so is the bounded range of the representation. -/
structure time.Time where
  ns : Int
deriving DecidableEq, Repr

/-- The zero value `time.Time{}`. -/
def time.Time.zero : time.Time := ⟨0⟩

/-- Method `Add` of `time.Time`: the instant `t + d`. -/
def time.Time.Add (t : time.Time) (d : time.Duration) : time.Time := ⟨t.ns + d⟩

/-- Method `Sub` of `time.Time`: the duration `t - u`, held to the range of
`time.Duration` when it falls outside. -/
def time.Time.Sub (t u : time.Time) : time.Duration :=
  if MaxInt64 < t.ns - u.ns then MaxInt64
  else if t.ns - u.ns < MinInt64 then MinInt64
  else t.ns - u.ns

/-- Method `Round` of `time.Time`: `t` rounded to the nearest multiple of `d` since the
zero time, halfway values up; `t` itself when `d` is not positive. -/
def time.Time.Round (t : time.Time) (d : time.Duration) : time.Time :=
  if d ≤ 0 then t
  else if t.ns % d + t.ns % d < d then ⟨t.ns - t.ns % d⟩
  else ⟨t.ns + d - t.ns % d⟩

/-- Dynamic types of the values an `interface{}` can hold: `string`, `packedTime` of
time_ext.go, the struct `stored<Name>` of a generated cell, and the other types,
numbered. -/
inductive GoType where
  | string
  | other (n : Nat)
  | packedTime
  | stored (name : text)
deriving DecidableEq, Repr

/-- A non-nil value of Go's `interface{}`: a `string`, a `packedTime`, a struct
`stored<Name>` around a value of a nillable type (nil, or one of its non-nil values,
numbered), or a value of another dynamic type.  The nil interface is `none` of
`Option Any`. -/
inductive Any where
  | string (s : string)
  | other (typ : Nat) (val : Nat)
  | packedTime (Value : time.Time)
  | stored (name : text) (Value : Option Nat)
deriving DecidableEq, Repr

/-- Dynamic type of an interface value. -/
def Any.typ : Any → GoType
  | .string _ => .string
  | .other t _ => .other t
  | .packedTime _ => .packedTime
  | .stored name _ => .stored name

/-- The run-time panics: those of `Store` of sync/atomic, the failed type assertion, and
the panic of encoding/json on a string literal that its scanner accepts and
`unquoteBytes` does not read. -/
inductive Panic where
  | storeNil
  | storeInconsistentType
  | typeAssertion
  | decoderOutOfSync
deriving DecidableEq, Repr

/-- The type `atomic.Value` of sync/atomic: the interface value held, nil at first. -/
structure SyncValue where
  v : Option Any
deriving DecidableEq, Repr

/-- Method `Load` of sync/atomic's `Value`: nil when nothing was stored. -/
def SyncValue.Load (x : SyncValue) : Option Any := x.v

/-- Method `Store` of sync/atomic's `Value`: panics on nil and on a dynamic type other
than the one of the value held. -/
def SyncValue.Store (x : SyncValue) (val : Option Any) : Except Panic SyncValue :=
  match val with
  | none => .error .storeNil
  | some a =>
    match x.v with
    | none => .ok ⟨some a⟩
    | some old => if old.typ = a.typ then .ok ⟨some a⟩ else .error .storeInconsistentType

/-- The type `Value` of the package (atomic.go): sync/atomic's `Value` embedded. -/
structure Value where
  embedded : SyncValue
deriving DecidableEq, Repr

/-- Method `Load`, promoted from the embedded field. -/
def Value.Load (x : Value) : Option Any := x.embedded.Load

/-- Method `Store`, promoted from the embedded field. -/
def Value.Store (x : Value) (val : Option Any) : Except Panic Value :=
  (x.embedded.Store val).map fun y => ⟨y⟩

/-- The cell `String`: its field `v Value`. -/
structure String where
  v : Value
deriving DecidableEq, Repr

/-- The zero value `&String{}`: nothing stored. -/
def String.zero : String := ⟨⟨⟨none⟩⟩⟩

/-- Method `String.Store`: the string is converted to an interface value and stored. -/
def String.Store (s : String) (str : string) : Except Panic String :=
  (s.v.Store (some (Any.string str))).map fun y => ⟨y⟩

/-- Constructor `NewString`: stores only a non-empty string. -/
def NewString (str : string) : Except Panic String :=
  let s := String.zero
  if str ≠ [] then s.Store str else .ok s

/-- Method `String.Load`: the empty string for nil, else the type assertion `v.(string)`. -/
def String.Load (s : String) : Except Panic string :=
  match s.v.Load with
  | none => .ok []
  | some (Any.string x) => .ok x
  | some _ => .error .typeAssertion

/-- Method `String.MarshalText`: the bytes of the loaded string and a nil error. -/
def String.MarshalText (s : String) : Except Panic (Bytes × Option jsonError) :=
  s.Load.map fun x => (x, none)

/-- Method `String.UnmarshalText`: stores `string(b)` and returns a nil error. -/
def String.UnmarshalText (s : String) (b : Bytes) : Except Panic (Option jsonError × String) :=
  (s.Store b).map fun y => (none, y)

/-- Value of a hexadecimal digit, `none` for any other byte. -/
def hexVal (c : Nat) : Option Nat :=
  if 48 ≤ c ∧ c ≤ 57 then some (c - 48)
  else if 97 ≤ c ∧ c ≤ 102 then some (c - 97 + 10)
  else if 65 ≤ c ∧ c ≤ 70 then some (c - 65 + 10)
  else none

/-- Function `getu4` of encoding/json: the number of the escape `\uXXXX` at the head of
the bytes, `none` (the result -1) when there is none. -/
def getu4 (s : Bytes) : Option Nat :=
  match s with
  | 92 :: 117 :: h1 :: h2 :: h3 :: h4 :: _ =>
    (hexVal h1).bind fun a => (hexVal h2).bind fun b => (hexVal h3).bind fun c =>
      (hexVal h4).map fun d => ((a * 16 + b) * 16 + c) * 16 + d
  | _ => none

/-- The code point `unicode.ReplacementChar` (and `utf8.RuneError`), U+FFFD. -/
def runeError : Nat := 0xFFFD

/-- A continuation byte of UTF-8. -/
def isCont (b : Nat) : bool := decide (0x80 ≤ b) && decide (b ≤ 0xBF)

/-- Function `utf8.DecodeRune`: the code point at the head of the bytes and the number of
bytes it takes; U+FFFD and one byte when the bytes do not start with a well-formed
encoding, U+FFFD and no byte when there are none. -/
def decodeRune (s : Bytes) : Nat × Nat :=
  match s with
  | [] => (runeError, 0)
  | b0 :: r =>
    if b0 < 0x80 then (b0, 1)
    else if 0xC2 ≤ b0 ∧ b0 ≤ 0xDF then
      match r with
      | b1 :: _ => if isCont b1 then ((b0 - 0xC0) * 64 + (b1 - 0x80), 2) else (runeError, 1)
      | _ => (runeError, 1)
    else if 0xE0 ≤ b0 ∧ b0 ≤ 0xEF then
      match r with
      | b1 :: b2 :: _ =>
        if (if b0 = 0xE0 then 0xA0 else 0x80) ≤ b1 ∧ b1 ≤ (if b0 = 0xED then 0x9F else 0xBF) ∧
            isCont b2 then
          (((b0 - 0xE0) * 64 + (b1 - 0x80)) * 64 + (b2 - 0x80), 3)
        else (runeError, 1)
      | _ => (runeError, 1)
    else if 0xF0 ≤ b0 ∧ b0 ≤ 0xF4 then
      match r with
      | b1 :: b2 :: b3 :: _ =>
        if (if b0 = 0xF0 then 0x90 else 0x80) ≤ b1 ∧ b1 ≤ (if b0 = 0xF4 then 0x8F else 0xBF) ∧
            isCont b2 ∧ isCont b3 then
          ((((b0 - 0xF0) * 64 + (b1 - 0x80)) * 64 + (b2 - 0x80)) * 64 + (b3 - 0x80), 4)
        else (runeError, 1)
      | _ => (runeError, 1)
    else (runeError, 1)

/-- Function `utf8.EncodeRune`: the UTF-8 bytes of a code point, those of U+FFFD for a
surrogate half and for a number beyond U+10FFFF. -/
def encodeRune (r : Nat) : Bytes :=
  if r ≤ 0x7F then [r]
  else if r ≤ 0x7FF then [0xC0 + r / 64, 0x80 + r % 64]
  else if 0x10FFFF < r ∨ (0xD800 ≤ r ∧ r ≤ 0xDFFF) then [0xEF, 0xBF, 0xBD]
  else if r ≤ 0xFFFF then [0xE0 + r / 4096, 0x80 + r / 64 % 64, 0x80 + r % 64]
  else [0xF0 + r / 262144, 0x80 + r / 4096 % 64, 0x80 + r / 64 % 64, 0x80 + r % 64]

/-- Function `utf16.DecodeRune`: the code point of a surrogate pair, U+FFFD when the two
numbers are no such pair (`none` is the -1 of `getu4`). -/
def utf16DecodeRune (r1 : Nat) (r2 : Option Nat) : Nat :=
  match r2 with
  | some r2 =>
    if 0xD800 ≤ r1 ∧ r1 < 0xDC00 ∧ 0xDC00 ≤ r2 ∧ r2 < 0xE000 then
      (r1 - 0xD800) * 1024 + (r2 - 0xDC00) + 0x10000
    else runeError
  | none => runeError

/-- The first loop of `unquoteBytes`: the number of bytes at the head that need no
unquoting, up to the first backslash, quotation mark, control character or byte that is
not well-formed UTF-8. -/
def plainLen : Nat → Bytes → Nat
  | 0, _ => 0
  | _, [] => 0
  | fuel + 1, c :: r =>
    if c = 92 ∨ c = 34 ∨ c < 32 then 0
    else if c < 0x80 then 1 + plainLen fuel r
    else
      let d := decodeRune (c :: r)
      if d.1 = runeError ∧ d.2 = 1 then 0 else d.2 + plainLen fuel ((c :: r).drop d.2)

/-- The second loop of `unquoteBytes`: the bytes with the escapes replaced and with
U+FFFD for what is not well-formed UTF-8; `none` for a backslash before anything but an
escape, for a raw quotation mark and for a control character.  `fuel` bounds the number
of steps, each of which reads a byte at least. -/
def unquoteLoop : Nat → Bytes → Option Bytes
  | 0, _ => some []
  | _, [] => some []
  | fuel + 1, c :: r =>
    if c = 92 then
      match r with
      | [] => none
      | e :: r2 =>
        if e = 34 ∨ e = 92 ∨ e = 47 ∨ e = 39 then (unquoteLoop fuel r2).map fun t => e :: t
        else if e = 98 then (unquoteLoop fuel r2).map fun t => 8 :: t
        else if e = 102 then (unquoteLoop fuel r2).map fun t => 12 :: t
        else if e = 110 then (unquoteLoop fuel r2).map fun t => 10 :: t
        else if e = 114 then (unquoteLoop fuel r2).map fun t => 13 :: t
        else if e = 116 then (unquoteLoop fuel r2).map fun t => 9 :: t
        else if e = 117 then
          match getu4 (c :: r) with
          | none => none
          | some rr =>
            let r3 := r2.drop 4
            if 0xD800 ≤ rr ∧ rr < 0xE000 then
              let dec := utf16DecodeRune rr (getu4 r3)
              if dec ≠ runeError then
                (unquoteLoop fuel (r3.drop 6)).map fun t => encodeRune dec ++ t
              else (unquoteLoop fuel r3).map fun t => encodeRune runeError ++ t
            else (unquoteLoop fuel r3).map fun t => encodeRune rr ++ t
        else none
    else if c = 34 ∨ c < 32 then none
    else if c < 0x80 then (unquoteLoop fuel r).map fun t => c :: t
    else
      let d := decodeRune (c :: r)
      (unquoteLoop fuel ((c :: r).drop d.2)).map fun t => encodeRune d.1 ++ t

/-- Function `unquoteBytes` of encoding/json: the bytes a JSON string literal denotes.
The bytes between the quotation marks are returned as they are when the first loop reads
them all, and go through the second loop from where the first one stopped otherwise. -/
def unquoteBytes (s : Bytes) : Option Bytes :=
  match s with
  | 34 :: rest =>
    if rest.getLast? = some 34 then
      let body := rest.dropLast
      let n := plainLen body.length body
      if n = body.length then some body
      else (unquoteLoop body.length (body.drop n)).map fun t => body.take n ++ t
    else none
  | _ => none

/-- The bytes of the JSON string literal at the head of `d`, quotation marks included. -/
def stringItem (d : Bytes) : Bytes :=
  match d with
  | 34 :: r =>
    match scanString r with
    | some r2 => d.take (d.length - r2.length)
    | none => d
  | _ => d

/-- The call `json.Unmarshal(t, &s)` of encoding/json on a `String`, a target with an
`UnmarshalText` method.  Bytes that are not valid JSON are refused with a `SyntaxError`;
`null` leaves the target alone; a JSON string literal is unquoted and handed to
`UnmarshalText`; any other value, a number, a boolean, an array or an object, is refused
with an `UnmarshalTypeError` without a call of the method.  A string literal the scanner
accepts is one `unquoteBytes` reads; were it not, the decoder would panic. -/
def String.jsonUnmarshal (s : String) (t : Bytes) : Except Panic (Option jsonError × String) :=
  if checkValid t then
    match jsonKindOf (skipSpace t) with
    | jsonKind.null => .ok (none, s)
    | jsonKind.string =>
      match unquoteBytes (stringItem (skipSpace t)) with
      | some b => s.UnmarshalText b
      | none => .error .decoderOutOfSync
    | _ => .ok (some .typeMismatch, s)
  else .ok (some .malformed, s)

/-- The operations of a `String` that a caller can issue. -/
inductive StringOp where
  | Load
  | Store (s : string)
  | MarshalText
  | UnmarshalText (b : Bytes)
deriving DecidableEq, Repr

/-- The cell after one operation. -/
def String.step (s : String) : StringOp → Except Panic String
  | .Load => s.Load.map fun _ => s
  | .Store x => s.Store x
  | .MarshalText => s.MarshalText.map fun _ => s
  | .UnmarshalText b => (s.UnmarshalText b).map fun r => r.2

/-- The cell after a sequence of operations, first to last. -/
def String.run (s : String) : List StringOp → Except Panic String
  | [] => .ok s
  | op :: ops =>
    match s.step op with
    | .ok s1 => String.run s1 ops
    | .error p => .error p

/-- The string stored last by a sequence of operations, `x` when it stores none. -/
def lastStored (x : string) : List StringOp → string
  | [] => x
  | .Store y :: ops => lastStored y ops
  | .UnmarshalText b :: ops => lastStored b ops
  | _ :: ops => lastStored x ops

/-- Every `String` the package hands out holds nil or a `string`: the field is private
and the only `Store` on it is given a `string`. -/
def String.valid (s : String) : Prop :=
  match s.v.embedded.v with
  | none => True
  | some (Any.string _) => True
  | some _ => False

instance (s : String) : Decidable s.valid := by
  unfold String.valid; split <;> infer_instance

/-- The operations of a `Bool` that write. -/
inductive BoolOp where
  | Store (v : bool)
  | Swap (v : bool)
  | CAS (old new : bool)
  | Toggle
  | UnmarshalJSON (t : Bytes)
deriving DecidableEq, Repr

/-- The cell after one operation, `Toggle` with its loop bounded by `fuel` iterations and
`UnmarshalJSON` over the decoder `j`. -/
def Bool.step {ε : Type} (j : json ε bool) (fuel : Nat) (b : Bool) : BoolOp → Option Bool
  | .Store v => some (b.Store v)
  | .Swap v => some (b.Swap v).2
  | .CAS old new => some (b.CAS old new).2
  | .Toggle => (b.Toggle fuel).map fun r => r.2
  | .UnmarshalJSON t => some (b.UnmarshalJSON j t).2

/-- The cells reachable from the zero value or from `NewBool(x)` by the operations. -/
inductive Bool.Reachable {ε : Type} (j : json ε bool) : Bool → Prop where
  | zero : Bool.Reachable j ⟨0⟩
  | new (x : bool) : Bool.Reachable j (NewBool x)
  | step (b b2 : Bool) (fuel : Nat) (op : BoolOp) :
      Bool.Reachable j b → Bool.step j fuel b op = some b2 → Bool.Reachable j b2

/-! ## time_ext.go

The struct `packedTime` is the constructor `Any.packedTime` of the interface values. -/

/-- Function `packTime`: the struct `packedTime{t}` as an interface value. -/
def packTime (t : time.Time) : Option Any := some (Any.packedTime t)

/-- Function `unpackTime`: the field of a `packedTime`, the zero time for anything else. -/
def unpackTime (v : Option Any) : time.Time :=
  match v with
  | some (Any.packedTime t) => t
  | _ => time.Time.zero

/-- Modelled from the spec: the cell `Time` is generated into time.go, which is not among
the sources; by the `go:generate` line of time_ext.go (`-wrapped=Value`) it has the one
field `v Value`. -/
structure Time where
  v : Value
deriving DecidableEq, Repr

/-- Modelled from the spec: method `Time.Load` of the generated time.go, by the
`go:generate` line (`-unpack=unpackTime`): `unpackTime` of what the `Value` holds. -/
def Time.Load (x : Time) : time.Time := unpackTime x.v.Load

/-- Modelled from the spec: method `Time.Store` of the generated time.go, by the
`go:generate` line (`-pack=packTime`): the `Value` is given `packTime(val)`. -/
def Time.Store (x : Time) (val : time.Time) : Except Panic Time :=
  (x.v.Store (packTime val)).map fun y => ⟨y⟩

/-- Method `Time.Add` of time_ext.go: the value returned and the cell after the call. -/
def Time.Add (t : Time) (d : time.Duration) : time.Time × Time := (t.Load.Add d, t)

/-- Method `Time.Sub` of time_ext.go: the value returned and the cell after the call. -/
def Time.Sub (t : Time) (t2 : time.Time) : time.Duration × Time := (t.Load.Sub t2, t)

/-- Method `Time.Round` of time_ext.go: the value returned and the cell after the call. -/
def Time.Round (t : Time) (d : time.Duration) : time.Time × Time := (t.Load.Round d, t)

/-! ## The cell generated by gen-valuewrapper for a nillable type

The template `_tmpl` of internal/gen-valuewrapper, rendered with the zero literal `nil`,
declares a cell `<Name>` over `Value`, the struct `stored<Name>` and the functions
`wrap<Name>` and `unwrap<Name>`.  The declarations are embedded once, with the name as a
parameter; a value of the wrapped type is nil (`none`) or one of its non-nil values. -/

/-- The generated cell `<Name>`: its field `v Value`. -/
structure Nillable where
  v : Value
deriving DecidableEq, Repr

/-- The generated function `wrap<Name>`: the struct `stored<Name>{v}`. -/
def wrapNillable (name : text) (v : Option Nat) : Any := Any.stored name v

/-- The zero value `&<Name>{}`. -/
def Nillable.zero : Nillable := ⟨⟨⟨none⟩⟩⟩

/-- The generated method `Store`: the `Value` is given `wrap<Name>(v)`. -/
def Nillable.Store (name : text) (x : Nillable) (v : Option Nat) : Except Panic Nillable :=
  (x.v.Store (some (wrapNillable name v))).map fun y => ⟨y⟩

/-- The generated constructor `New<Name>`: stores only a value other than nil. -/
def NewNillable (name : text) (v : Option Nat) : Except Panic Nillable :=
  let x := Nillable.zero
  if v ≠ none then x.Store name v else .ok x

/-- The generated method `Load`: nil for a nil interface, else the type assertion
`v.(stored<Name>)` and `unwrap<Name>`, which returns the field. -/
def Nillable.Load (name : text) (x : Nillable) : Except Panic (Option Nat) :=
  match x.v.Load with
  | none => .ok none
  | some (Any.stored n v) => if n = name then .ok v else .error .typeAssertion
  | some _ => .error .typeAssertion

/-- Every cell `<Name>` the generated code hands out holds nil or a `stored<Name>`. -/
def Nillable.valid (name : text) (x : Nillable) : Prop :=
  match x.v.embedded.v with
  | none => True
  | some (Any.stored n _) => n = name
  | some _ => False

instance (name : text) (x : Nillable) : Decidable (x.valid name) := by
  unfold Nillable.valid; split <;> infer_instance

/-! ## Reachable `String` cells -/

/-- The cells reachable from the zero value or from `NewString(s)` by `Load`, `Store`,
`MarshalText` and `UnmarshalText`. -/
inductive String.Reachable : String → Prop where
  | zero : String.Reachable String.zero
  | new (x : string) (s : String) : NewString x = .ok s → String.Reachable s
  | step (s s2 : String) (op : StringOp) :
      String.Reachable s → s.step op = .ok s2 → String.Reachable s2

/-- The interface value `String.Store` hands to `Store` of the underlying `Value`. -/
def String.storeArg (str : string) : Option Any := some (Any.string str)

/-! ## Concurrent calls of `Bool.Toggle`

Each goroutine runs `Toggle`; the shared memory is the one `Bool`.  The atomic steps of a
goroutine are the `Load` and the `CAS` of the loop body, and a schedule picks which
goroutine takes the next step. -/

/-- Where a goroutine is in `Toggle`: before the `Load`, before the `CAS` with the value
loaded, or returned with that value. -/
inductive TogglePc where
  | load
  | cas (old : bool)
  | done (ret : bool)
deriving DecidableEq, Repr

/-- Whether a goroutine has returned. -/
def TogglePc.isDone : TogglePc → bool
  | .done _ => true
  | _ => false

/-- The shared cell, the goroutines, and the number of swaps that succeeded so far. -/
structure ToggleSys where
  cell : Bool
  threads : List TogglePc
  flips : Nat
deriving DecidableEq, Repr

/-- The system with `n` goroutines about to call `Toggle`. -/
def ToggleSys.init (b : Bool) (n : Nat) : ToggleSys :=
  { cell := b, threads := List.replicate n TogglePc.load, flips := 0 }

/-- One atomic step of goroutine `tid`; a goroutine that has returned, or an index that
names none, leaves the system as it is. -/
def ToggleSys.step (s : ToggleSys) (tid : Nat) : ToggleSys :=
  match s.threads.get? tid with
  | some TogglePc.load =>
    { s with threads := s.threads.set tid (TogglePc.cas s.cell.Load) }
  | some (TogglePc.cas old) =>
    let r := s.cell.CAS old (!old)
    if r.1 then
      { cell := r.2, threads := s.threads.set tid (TogglePc.done old), flips := s.flips + 1 }
    else
      { cell := r.2, threads := s.threads.set tid TogglePc.load, flips := s.flips }
  | _ => s

/-- The system after the steps of a schedule, first to last. -/
def ToggleSys.run (s : ToggleSys) (sched : List Nat) : ToggleSys :=
  sched.foldl ToggleSys.step s

/-- Every goroutine has returned. -/
def ToggleSys.allDone (s : ToggleSys) : bool := s.threads.all TogglePc.isDone

/-- Number of goroutines that have returned. -/
def ToggleSys.doneCount (s : ToggleSys) : Nat := s.threads.countP TogglePc.isDone

/-! ## The generators under internal/

A run of a generator is embedded as a function of the outcome of flag parsing and of the
world around the run (whether the output file can be created, whether a write succeeds,
the current year); it returns the error of `run` (`none` is nil) and the effects of the
run in order.  `format.Source` of go/format and, where the template is not among the
sources, the execution of the template are parameters. -/

/-- The errors `run` returns. -/
inductive GenError where
  | flag (msg : text)
  | config (msg : text)
  | create (file : text) (msg : text)
  | render (msg : text)
  | reformat (msg : text)
  | write (msg : text)
deriving DecidableEq, Repr

/-- The effects of a run: a call of `os.Create`, the execution of the template into the
buffer, a write to the output (`none` is the standard output). -/
inductive Effect where
  | create (file : text)
  | render
  | write (dest : Option text) (bs : text)
deriving DecidableEq, Repr

/-- The world around a run: the error of `os.Create` on a path and of a write to an
output (`none` is success), and the year `time.Now().Year()` gives. -/
structure GenEnv where
  create : text → Option text
  write : Option text → text → Option text
  year : Nat

/-! ### internal/gen-valuewrapper -/

/-- The struct `opts` of gen-valuewrapper; the field `Type` is written `Type_`. -/
structure valuewrapper.Opts where
  Name : text
  Type_ : text
  Zero : text
  File : text
deriving DecidableEq, Repr

/-- The struct `data` handed to the template of gen-valuewrapper; the field `Type` is
written `Type_`. -/
structure valuewrapper.Data where
  Name : text
  Type_ : text
  Zero : text
  Nillable : bool
deriving DecidableEq, Repr

/-- The value of `data` in `run`. -/
def valuewrapper.data (opts : valuewrapper.Opts) : valuewrapper.Data :=
  { Name := opts.Name, Type_ := opts.Type_, Zero := opts.Zero,
    Nillable := decide (opts.Zero = "nil") }

/-- The template variables `$stored`, `$wrap` and `$unwrap`: set to `.Type`, and set
again inside `if .Nillable`. -/
def valuewrapper.vars (d : valuewrapper.Data) : text × text × text :=
  if d.Nillable then ("stored" ++ d.Name, "wrap" ++ d.Name, "unwrap" ++ d.Name)
  else (d.Type_, d.Type_, d.Type_)

/-- The licence comment at the head of the template. -/
def valuewrapper.licence : text :=
  "// Copyright (c) 2020 Uber Technologies, Inc.\n" ++
  "//\n" ++
  "// Permission is hereby granted, free of charge, to any person obtaining a copy\n" ++
  "// of this software and associated documentation files (the \"Software\"), to deal\n" ++
  "// in the Software without restriction, including without limitation the rights\n" ++
  "// to use, copy, modify, merge, publish, distribute, sublicense, and/or sell\n" ++
  "// copies of the Software, and to permit persons to whom the Software is\n" ++
  "// furnished to do so, subject to the following conditions:\n" ++
  "//\n" ++
  "// The above copyright notice and this permission notice shall be included in\n" ++
  "// all copies or substantial portions of the Software.\n" ++
  "//\n" ++
  "// THE SOFTWARE IS PROVIDED \"AS IS\", WITHOUT WARRANTY OF ANY KIND, EXPRESS OR\n" ++
  "// IMPLIED, INCLUDING BUT NOT LIMITED TO THE WARRANTIES OF MERCHANTABILITY,\n" ++
  "// FITNESS FOR A PARTICULAR PURPOSE AND NONINFRINGEMENT. IN NO EVENT SHALL THE\n" ++
  "// AUTHORS OR COPYRIGHT HOLDERS BE LIABLE FOR ANY CLAIM, DAMAGES OR OTHER\n" ++
  "// LIABILITY, WHETHER IN AN ACTION OF CONTRACT, TORT OR OTHERWISE, ARISING FROM,\n" ++
  "// OUT OF OR IN CONNECTION WITH THE SOFTWARE OR THE USE OR OTHER DEALINGS IN\n" ++
  "// THE SOFTWARE.\n"

/-- The template up to the `if .Nillable` action: licence, package clause, the cell type,
and the line ends around the comment action and the three variable declarations. -/
def valuewrapper.tmplHead (d : valuewrapper.Data) : text :=
  valuewrapper.licence ++ "\npackage atomic\n\n// " ++ d.Name ++
  " is an atomic type-safe wrapper for " ++ d.Type_ ++ " values.\ntype " ++ d.Name ++
  " struct\x7b v Value \x7d\n\n\n\n\n\n"

/-- What the `if .Nillable` block of the template emits: the declarations of the struct
`$stored` and of the functions `$wrap` and `$unwrap` when `.Nillable` is set, nothing
otherwise.  The white space after `if` and before `end` is trimmed by the template. -/
def valuewrapper.tmplWrapper (d : valuewrapper.Data) : text :=
  if d.Nillable then
    "\n\t\n\t\n\n\ttype " ++ (valuewrapper.vars d).1 ++ " struct\x7b Value " ++ d.Type_ ++
    " \x7d\n\n\tfunc " ++ (valuewrapper.vars d).2.1 ++ "(v " ++ d.Type_ ++ ") " ++
    (valuewrapper.vars d).1 ++ " \x7b\n\t\treturn " ++ (valuewrapper.vars d).1 ++
    "\x7bv\x7d\n\t\x7d\n\n\tfunc " ++ (valuewrapper.vars d).2.2 ++ "(v " ++
    (valuewrapper.vars d).1 ++ ") " ++ d.Type_ ++ " \x7b\n\t\treturn v.Value\n\t\x7d"
  else ""

/-- The template after the `end` action: the constructor and the methods `Load` and
`Store`, which name the stored type `stored`, and the functions `wrap` and `unwrap`. -/
def valuewrapper.tmplTail (d : valuewrapper.Data) (stored wrap unwrap : text) : text :=
  "\n\n// New" ++ d.Name ++ " creates a new " ++ d.Name ++ ".\nfunc New" ++ d.Name ++
  "(v " ++ d.Type_ ++ ") *" ++ d.Name ++ " \x7b\n\tx := &" ++ d.Name ++
  "\x7b\x7d\n\tif v != " ++ d.Zero ++ " \x7b\n\t\tx.Store(v)\n\t\x7d\n\treturn x\n\x7d\n\n" ++
  "// Load atomically loads the wrapped " ++ d.Type_ ++ ".\nfunc (x *" ++ d.Name ++
  ") Load() " ++ d.Type_ ++ " \x7b\n\tv := x.v.Load()\n\tif v == nil \x7b\n\t\treturn " ++
  d.Zero ++ "\n\t\x7d\n\treturn " ++ unwrap ++ "(v.(" ++ stored ++ "))\n\x7d\n\n" ++
  "// Store atomically stores the passed " ++ d.Type_ ++
  ".\n//\n// NOTE: This will cause an allocation.\nfunc (x *" ++ d.Name ++ ") Store(v " ++
  d.Type_ ++ ") \x7b\n\tx.v.Store(" ++ wrap ++ "(v))\n\x7d\n"

/-- The text `_tmpl.Execute` writes into the buffer for `data`. -/
def valuewrapper.tmpl (d : valuewrapper.Data) : text :=
  valuewrapper.tmplHead d ++ valuewrapper.tmplWrapper d ++
  valuewrapper.tmplTail d (valuewrapper.vars d).1 (valuewrapper.vars d).2.1
    (valuewrapper.vars d).2.2

/-- The call `_tmpl.Execute(&buff, data)`: the buffer, or the error of the execution. -/
def valuewrapper.Execute (d : valuewrapper.Data) : Except text text :=
  .ok (valuewrapper.tmpl d)

/-- The function `run` of gen-valuewrapper. -/
def valuewrapper.run (format : text → Except text text) (env : GenEnv)
    (parsed : Except text valuewrapper.Opts) : Option GenError × List Effect :=
  match parsed with
  | .error e => (some (.flag e), [])
  | .ok opts =>
    if opts.Name.length = 0 ∨ opts.Type_.length = 0 ∨ opts.Zero.length = 0 then
      (some (.config "flags -name, -type, and -zero are required"), [])
    else
      let toFile := decide (0 < opts.File.length)
      let opened := if toFile then [Effect.create opts.File] else []
      match (if toFile then env.create opts.File else none) with
      | some e => (some (.create opts.File e), opened)
      | none =>
        let dest := if toFile then some opts.File else none
        match valuewrapper.Execute (valuewrapper.data opts) with
        | .error e => (some (.render e), opened ++ [Effect.render])
        | .ok buff =>
          match format buff with
          | .error e => (some (.reformat e), opened ++ [Effect.render])
          | .ok bs =>
            ((env.write dest bs).map GenError.write,
              opened ++ [Effect.render, Effect.write dest bs])

/-! ### internal/gen-atomicint-go119 -/

/-- The struct `opts` of gen-atomicint. -/
structure atomicint.Opts where
  Name : text
  Wrapped : text
  File : text
  Unsigned : bool
deriving DecidableEq, Repr

/-- The struct `data` handed to the template of gen-atomicint. -/
structure atomicint.Data where
  Name : text
  Wrapped : text
  Unsigned : bool
  ToYear : Nat
deriving DecidableEq, Repr

/-- The value of `data` in `run`, `year` being what `time.Now().Year()` returns. -/
def atomicint.data (opts : atomicint.Opts) (year : Nat) : atomicint.Data :=
  { Name := opts.Name, Wrapped := opts.Wrapped, Unsigned := opts.Unsigned, ToYear := year }

/-- The function `run` of gen-atomicint.  The template `wrapper.tmpl` is embedded from a
file that is not among the sources: `tmpl` is the outcome of
`_tmpl.ExecuteTemplate(&buff, "wrapper.tmpl", data)`. -/
def atomicint.run (tmpl : atomicint.Data → Except text text)
    (format : text → Except text text) (env : GenEnv)
    (parsed : Except text atomicint.Opts) : Option GenError × List Effect :=
  match parsed with
  | .error e => (some (.flag e), [])
  | .ok opts =>
    if opts.Name.length = 0 ∨ opts.Wrapped.length = 0 then
      (some (.config "flags -name and -wrapped are required"), [])
    else
      let toFile := decide (0 < opts.File.length)
      let opened := if toFile then [Effect.create opts.File] else []
      match (if toFile then env.create opts.File else none) with
      | some e => (some (.create opts.File e), opened)
      | none =>
        let dest := if toFile then some opts.File else none
        match tmpl (atomicint.data opts env.year) with
        | .error e => (some (.render e), opened ++ [Effect.render])
        | .ok buff =>
          match format buff with
          | .error e => (some (.reformat e), opened ++ [Effect.render])
          | .ok bs =>
            ((env.write dest bs).map GenError.write,
              opened ++ [Effect.render,
                Effect.write dest "// @generated Code generated by gen-atomicint.\n\n",
                Effect.write dest bs])

/-! ## Representation invariant of `Bool` -/

/-- The raw field of a `Bool` is 0 or 1.  The field is private and every
constructor and method writes `boolToInt` of a `bool`, so every cell the
package hands out satisfies it. -/
def Bool.valid (b : Bool) : Prop := b.v = 0 ∨ b.v = 1

instance (b : Bool) : Decidable b.valid := by
  unfold Bool.valid; infer_instance

/-- The invariant of the interleaved system started on a cell that loads `b0`. -/
def ToggleSys.inv (b0 : bool) (n : Nat) (s : ToggleSys) : Prop :=
  s.cell.valid ∧ s.threads.length = n ∧ s.flips = s.doneCount ∧
    s.cell.Load = xor b0 (decide (s.flips % 2 = 1))

/-! ## Basic facts -/

theorem truthy_boolToInt (b : bool) : truthy (boolToInt b) = b := by
  cases b <;> rfl

theorem boolToInt_injective {a b : bool} (h : boolToInt a = boolToInt b) : a = b := by
  cases a <;> cases b <;> first | rfl | (exact absurd h (by decide))

theorem Bool.valid_iff (b : Bool) : b.valid ↔ b = NewBool b.Load := by
  obtain ⟨v⟩ := b
  constructor
  · rintro (h | h) <;> (simp only at h; subst h; rfl)
  · intro h
    have hv : v = boolToInt (truthy v) := congrArg Bool.v h
    cases hb : truthy v <;> rw [hb] at hv
    · exact Or.inl hv
    · exact Or.inr hv

theorem Bool.valid_NewBool (x : bool) : (NewBool x).valid := by
  cases x
  · exact Or.inl rfl
  · exact Or.inr rfl

theorem Bool.raw_eq_of_valid {b : Bool} (h : b.valid) : b.v = boolToInt b.Load := by
  have := (Bool.valid_iff b).1 h
  exact congrArg Bool.v this

/-! ## Machine arithmetic -/

theorem wrapInt64_isInt64 (x : Int) : isInt64 (wrapInt64 x) := by
  unfold isInt64 wrapInt64
  norm_num
  omega

theorem wrapInt64_emod (x : Int) : wrapInt64 x % (2 : Int) ^ 64 = x % (2 : Int) ^ 64 := by
  unfold wrapInt64
  norm_num
  omega

theorem wrapInt64_of_isInt64 {x : Int} (h : isInt64 x) : wrapInt64 x = x := by
  unfold isInt64 at h
  unfold wrapInt64
  norm_num at h ⊢
  omega

theorem notUint_eq (w x : Nat) (h : x < 2 ^ w) : notUint w x = 2 ^ w - 1 - x := by
  have h1 : (~~~ (BitVec.ofNat w x)).toNat = 2 ^ w - 1 - x := by
    rw [BitVec.toNat_not, BitVec.toNat_ofNat, Nat.mod_eq_of_lt h]
  have h2 : (~~~ (BitVec.ofNat w x)).toNat = x ^^^ (2 ^ w - 1) := by
    rw [BitVec.not_def, BitVec.toNat_xor, BitVec.toNat_allOnes, BitVec.toNat_ofNat,
      Nat.mod_eq_of_lt h, Nat.xor_comm]
  unfold notUint
  rw [← h2, h1]

theorem subUint_one (w n : Nat) (hn : n < 2 ^ w) :
    subUint w n 1 = if n = 0 then 2 ^ w - 1 else n - 1 := by
  unfold subUint
  have hP : 0 < 2 ^ w := Nat.two_pow_pos w
  generalize 2 ^ w = P at hn hP ⊢
  by_cases h1 : P = 1
  · subst h1
    have : n = 0 := by omega
    subst this
    rfl
  · have hone : 1 % P = 1 := Nat.mod_eq_of_lt (by omega)
    rw [hone]
    by_cases h0 : n = 0
    · subst h0
      rw [if_pos rfl, Nat.zero_add]
      exact Nat.mod_eq_of_lt (by omega)
    · rw [if_neg h0]
      have : n + (P - 1) = (n - 1) + P := by omega
      rw [this, Nat.add_mod_right]
      exact Nat.mod_eq_of_lt (by omega)

theorem notUint_subUint_one (w n : Nat) (hn : n < 2 ^ w) :
    notUint w (subUint w n 1) = (2 ^ w - n) % 2 ^ w := by
  have hP : 0 < 2 ^ w := Nat.two_pow_pos w
  have hlt : subUint w n 1 < 2 ^ w := Nat.mod_lt _ hP
  rw [notUint_eq w _ hlt, subUint_one w n hn]
  by_cases h0 : n = 0
  · subst h0
    rw [if_pos rfl, Nat.sub_zero, Nat.mod_self]
    omega
  · rw [if_neg h0, Nat.mod_eq_of_lt (by omega)]
    omega

theorem addUint_sub_add (w cur n : Nat) (hn : n < 2 ^ w) :
    (addUint w cur ((2 ^ w - n) % 2 ^ w) + n) % 2 ^ w = cur % 2 ^ w := by
  unfold addUint
  generalize 2 ^ w = P at hn ⊢
  rw [Nat.mod_add_mod, Nat.add_assoc, Nat.add_mod]
  have : ((P - n) % P + n) % P = 0 := by
    rw [Nat.mod_add_mod, Nat.sub_add_cancel (Nat.le_of_lt hn), Nat.mod_self]
  rw [this, Nat.add_zero, Nat.mod_mod]

theorem addUint_sub_of_le (w cur n : Nat) (hc : cur < 2 ^ w) (hle : n ≤ cur) :
    addUint w cur ((2 ^ w - n) % 2 ^ w) = cur - n := by
  unfold addUint
  generalize 2 ^ w = P at hc ⊢
  by_cases h0 : n = 0
  · subst h0
    rw [Nat.sub_zero, Nat.mod_self, Nat.add_zero, Nat.sub_zero]
    exact Nat.mod_eq_of_lt hc
  · rw [Nat.mod_eq_of_lt (by omega : P - n < P)]
    have : cur + (P - n) = (cur - n) + P := by omega
    rw [this, Nat.add_mod_right]
    exact Nat.mod_eq_of_lt (by omega)

theorem addUint_sub_of_lt (w cur n : Nat) (hn : n < 2 ^ w) (hlt : cur < n) :
    addUint w cur ((2 ^ w - n) % 2 ^ w) = cur + 2 ^ w - n := by
  unfold addUint
  generalize 2 ^ w = P at hn ⊢
  rw [Nat.mod_eq_of_lt (by omega : P - n < P)]
  have : cur + (P - n) = cur + P - n := by omega
  rw [this]
  exact Nat.mod_eq_of_lt (by omega)

theorem Bool.Toggle_of_valid (b : Bool) (fuel : Nat) (h : b.valid) :
    b.Toggle (fuel + 1) = some (b.Load, NewBool (!b.Load)) := by
  have hraw := Bool.raw_eq_of_valid h
  have hc : CompareAndSwapUint32 b.v (boolToInt b.Load) (boolToInt (!b.Load)) =
      (true, boolToInt (!b.Load)) := by
    unfold CompareAndSwapUint32
    rw [if_pos hraw]
  simp only [Bool.Toggle, Bool.CAS, hc]
  rfl

theorem wrapInt64_add_neg (a n : Int) :
    wrapInt64 (a + wrapInt64 (-n)) % (2 : Int) ^ 64 = (a - n) % (2 : Int) ^ 64 := by
  unfold wrapInt64
  norm_num
  omega

theorem wrapInt64_add_neg_of_isInt64 (a n : Int) (h : isInt64 (a - n)) :
    wrapInt64 (a + wrapInt64 (-n)) = a - n := by
  unfold isInt64 at h
  unfold wrapInt64
  norm_num at h ⊢
  omega

theorem addUint_lt (w x y : Nat) : addUint w x y < 2 ^ w :=
  Nat.mod_lt _ (Nat.two_pow_pos w)

theorem Uint32_Sub_eq (i : Uint32) (n : uint32) (hn : n < 2 ^ 32) :
    i.Sub n = (addUint 32 i.v ((2 ^ 32 - n) % 2 ^ 32),
      Uint32.mk (addUint 32 i.v ((2 ^ 32 - n) % 2 ^ 32))) := by
  have hk : notUint 32 (subUint 32 n 1) = (2 ^ 32 - n) % 2 ^ 32 := notUint_subUint_one 32 n hn
  unfold Uint32.Sub AddUint32
  rw [hk]

theorem Uintptr_Sub_eq (w : Nat) (i : Uintptr) (n : uintptr) (hn : n < 2 ^ w) :
    i.Sub w n = (addUint w i.v.word ((2 ^ w - n) % 2 ^ w),
      Uintptr.mk (SyncUintptr.mk (addUint w i.v.word ((2 ^ w - n) % 2 ^ w)))) := by
  have hk : notUint w (subUint w n 1) = (2 ^ w - n) % 2 ^ w := notUint_subUint_one w n hn
  unfold Uintptr.Sub SyncUintptr.Add
  rw [hk]

/-! ## Bit patterns of `float64` -/

theorem bits_lt_aux (s : bool) (e m : Nat) (he : e < 2 ^ 11) (hm : m < 2 ^ 52) :
    (if s = true then 2 ^ 63 else 0) + e * 2 ^ 52 + m < 2 ^ 64 := by
  cases s <;> simp only [if_true, if_false, Bool.false_eq_true] <;>
    norm_num at he hm ⊢ <;> omega

theorem bits_fields_aux (s : bool) (e m : Nat) (he : e < 2 ^ 11) (hm : m < 2 ^ 52) :
    (((if s = true then 2 ^ 63 else 0) + e * 2 ^ 52 + m) / 2 ^ 63 % 2 == 1) = s ∧
    ((if s = true then 2 ^ 63 else 0) + e * 2 ^ 52 + m) / 2 ^ 52 % 2 ^ 11 = e ∧
    ((if s = true then 2 ^ 63 else 0) + e * 2 ^ 52 + m) % 2 ^ 52 = m := by
  cases s
  · have h1 : (0 + e * 2 ^ 52 + m) / 2 ^ 63 % 2 = 0 := by
      norm_num at he hm ⊢
      omega
    have h2 : (0 + e * 2 ^ 52 + m) / 2 ^ 52 % 2 ^ 11 = e := by
      norm_num at he hm ⊢
      omega
    have h3 : (0 + e * 2 ^ 52 + m) % 2 ^ 52 = m := by
      norm_num at he hm ⊢
      omega
    simp only [Bool.false_eq_true, if_false, h1, h2, h3]
    exact ⟨rfl, trivial, trivial⟩
  · have h1 : (2 ^ 63 + e * 2 ^ 52 + m) / 2 ^ 63 % 2 = 1 := by
      norm_num at he hm ⊢
      omega
    have h2 : (2 ^ 63 + e * 2 ^ 52 + m) / 2 ^ 52 % 2 ^ 11 = e := by
      norm_num at he hm ⊢
      omega
    have h3 : (2 ^ 63 + e * 2 ^ 52 + m) % 2 ^ 52 = m := by
      norm_num at he hm ⊢
      omega
    simp only [if_true, h1, h2, h3]
    exact ⟨rfl, trivial, trivial⟩

theorem frombits_aux (p : Nat) (h : p < 2 ^ 64) :
    (if (p / 2 ^ 63 % 2 == 1) = true then 2 ^ 63 else 0) + p / 2 ^ 52 % 2 ^ 11 * 2 ^ 52 +
      p % 2 ^ 52 = p := by
  have hs : p / 2 ^ 63 % 2 = 0 ∨ p / 2 ^ 63 % 2 = 1 := by omega
  rcases hs with hs | hs
  · have : (p / 2 ^ 63 % 2 == 1) = false := by rw [hs]; rfl
    simp only [this, Bool.false_eq_true, if_false]
    norm_num at h hs ⊢
    omega
  · have : (p / 2 ^ 63 % 2 == 1) = true := by rw [hs]; rfl
    simp only [this, if_true]
    norm_num at h hs ⊢
    omega

theorem math.Float64bits_lt (f : float64) : math.Float64bits f < 2 ^ 64 :=
  bits_lt_aux f.sign f.exp f.frac f.exp_lt f.frac_lt

theorem math.Float64bits_frombits (p : uint64) (h : p < 2 ^ 64) :
    math.Float64bits (math.Float64frombits p) = p :=
  frombits_aux p h

theorem math.Float64frombits_bits (f : float64) :
    math.Float64frombits (math.Float64bits f) = f := by
  obtain ⟨s, e, m, he, hm⟩ := f
  obtain ⟨h1, h2, h3⟩ := bits_fields_aux s e m he hm
  simp only [math.Float64frombits, math.Float64bits, float64.mk.injEq]
  exact ⟨h1, h2, h3⟩

theorem math.Float64bits_injective {x y : float64}
    (h : math.Float64bits x = math.Float64bits y) : x = y := by
  rw [← math.Float64frombits_bits x, ← math.Float64frombits_bits y, h]

theorem Float64.Load_NewFloat64 (s : float64) : (NewFloat64 s).Load = s :=
  math.Float64frombits_bits s

/-! ## The retry loop of `Float64.Add` -/

theorem Float64.CAS_self (f : Float64) (hv : f.v < 2 ^ 64) (new : float64) :
    f.CAS f.Load new = (true, NewFloat64 new) := by
  have hb : math.Float64bits f.Load = f.v := math.Float64bits_frombits f.v hv
  simp only [Float64.CAS, CompareAndSwapUint64, if_pos hb.symm]
  rfl

theorem Float64.Add_of_word (f : Float64) (fuel : Nat) (s : float64) (hv : f.v < 2 ^ 64) :
    f.Add (fuel + 1) s = some (f.Load.add s, NewFloat64 (f.Load.add s)) := by
  simp only [Float64.Add, Float64.CAS_self f hv, if_true]

/-! ## The `String` cell -/

theorem String.Store_of_valid (c : String) (s : string) (h : c.valid) :
    c.Store s = .ok ⟨⟨⟨some (Any.string s)⟩⟩⟩ := by
  obtain ⟨⟨⟨v⟩⟩⟩ := c
  cases v with
  | none => rfl
  | some a =>
    cases a with
    | string x => rfl
    | other t n => exact absurd h (by simp [String.valid])
    | packedTime t => exact absurd h (by simp [String.valid])
    | stored name x => exact absurd h (by simp [String.valid])

theorem String.Load_stored (s : string) :
    String.Load ⟨⟨⟨some (Any.string s)⟩⟩⟩ = .ok s := rfl

theorem String.valid_stored (s : string) : String.valid ⟨⟨⟨some (Any.string s)⟩⟩⟩ :=
  trivial

theorem String.valid_zero : String.zero.valid := trivial

theorem NewString_eq (s : string) :
    NewString s = .ok (if s = [] then String.zero else ⟨⟨⟨some (Any.string s)⟩⟩⟩) := by
  unfold NewString
  by_cases h : s = []
  · simp [h]
  · simp only [ne_eq, h, not_false_eq_true, if_true, if_false]
    exact String.Store_of_valid _ s String.valid_zero

theorem String.step_stored (x : string) (op : StringOp) :
    String.step ⟨⟨⟨some (Any.string x)⟩⟩⟩ op =
      .ok ⟨⟨⟨some (Any.string (lastStored x [op]))⟩⟩⟩ := by
  cases op with
  | Load => rfl
  | Store y => exact String.Store_of_valid _ y (String.valid_stored x)
  | MarshalText => rfl
  | UnmarshalText b =>
    simp only [String.step, String.UnmarshalText,
      String.Store_of_valid _ b (String.valid_stored x)]
    rfl

theorem lastStored_cons (x : string) (op : StringOp) (ops : List StringOp) :
    lastStored x (op :: ops) = lastStored (lastStored x [op]) ops := by
  cases op <;> rfl

theorem String.run_stored (ops : List StringOp) (x : string) :
    String.run ⟨⟨⟨some (Any.string x)⟩⟩⟩ ops =
      .ok ⟨⟨⟨some (Any.string (lastStored x ops))⟩⟩⟩ := by
  induction ops generalizing x with
  | nil => rfl
  | cons op ops ih =>
    rw [String.run, String.step_stored x op]
    simp only
    rw [ih, ← lastStored_cons]

/-! ## Add and Sub undo each other -/

theorem wrapInt64_add_neg_eq (a n : Int) :
    wrapInt64 (a + wrapInt64 (-n)) = wrapInt64 (a - n) := by
  unfold wrapInt64
  norm_num
  omega

theorem wrapInt64_add_sub_cancel (a n : Int) (h : isInt64 a) :
    wrapInt64 (wrapInt64 (a + n) + wrapInt64 (-n)) = a := by
  unfold isInt64 at h
  unfold wrapInt64
  norm_num at h ⊢
  omega

theorem wrapInt64_sub_add_cancel (a n : Int) (h : isInt64 a) :
    wrapInt64 (wrapInt64 (a + wrapInt64 (-n)) + n) = a := by
  unfold isInt64 at h
  unfold wrapInt64
  norm_num at h ⊢
  omega

theorem addUint_add_sub_cancel (w a n : Nat) (ha : a < 2 ^ w) (hn : n < 2 ^ w) :
    addUint w (addUint w a n) ((2 ^ w - n) % 2 ^ w) = a := by
  unfold addUint
  generalize 2 ^ w = P at ha hn ⊢
  rw [Nat.mod_add_mod, Nat.add_mod_mod, Nat.add_assoc,
    Nat.add_sub_cancel' (Nat.le_of_lt hn), Nat.add_mod_right]
  exact Nat.mod_eq_of_lt ha

theorem addUint_sub_add_cancel (w a n : Nat) (ha : a < 2 ^ w) (hn : n < 2 ^ w) :
    addUint w (addUint w a ((2 ^ w - n) % 2 ^ w)) n = a := by
  have h := addUint_sub_add w a n hn
  rw [Nat.mod_eq_of_lt ha] at h
  exact h

/-! ## Reachable `Bool` cells -/

theorem Bool.valid_step {ε : Type} (j : json ε bool) (fuel : Nat) (b b2 : Bool) (op : BoolOp)
    (hb : b.valid) (h : Bool.step j fuel b op = some b2) : b2.valid := by
  cases op with
  | Store v =>
    have : b2 = NewBool v := (Option.some.inj h).symm
    rw [this]; exact Bool.valid_NewBool v
  | Swap v =>
    have : b2 = NewBool v := (Option.some.inj h).symm
    rw [this]; exact Bool.valid_NewBool v
  | CAS old new =>
    have h2 : b2 = (b.CAS old new).2 := (Option.some.inj h).symm
    by_cases hc : b.v = boolToInt old
    · have : (b.CAS old new).2 = NewBool new := by
        simp only [Bool.CAS, CompareAndSwapUint32, if_pos hc]
        rfl
      rw [h2, this]; exact Bool.valid_NewBool new
    · have : (b.CAS old new).2 = b := by
        simp only [Bool.CAS, CompareAndSwapUint32, if_neg hc]
      rw [h2, this]; exact hb
  | Toggle =>
    cases fuel with
    | zero => exact absurd h (by simp [Bool.step, Bool.Toggle])
    | succ k =>
      have h3 : Bool.step j (k + 1) b BoolOp.Toggle = some (NewBool (!b.Load)) := by
        simp only [Bool.step, Bool.Toggle_of_valid b k hb, Option.map_some']
      rw [h3] at h
      rw [← Option.some.inj h]; exact Bool.valid_NewBool _
  | UnmarshalJSON t =>
    have h2 : b2 = (b.UnmarshalJSON j t).2 := (Option.some.inj h).symm
    rw [h2]
    unfold Bool.UnmarshalJSON
    cases j.Unmarshal t with
    | error e => exact hb
    | ok v => exact Bool.valid_NewBool v

theorem Bool.valid_of_Reachable {ε : Type} (j : json ε bool) (b : Bool)
    (h : Bool.Reachable j b) : b.valid := by
  induction h with
  | zero => exact Or.inl rfl
  | new x => exact Bool.valid_NewBool x
  | step b b2 fuel op _ hs ih => exact Bool.valid_step j fuel b b2 op ih hs

theorem Bool.eq_zero_of_valid (b : Bool) (hb : b.valid) (hl : b.Load = false) : b = ⟨0⟩ := by
  have := (Bool.valid_iff b).1 hb
  rw [hl] at this
  exact this

/-! ## Interleaved calls of `Bool.Toggle` -/

theorem countP_set_of_get (f : TogglePc → bool) (l : List TogglePc) (tid : Nat)
    (p q : TogglePc) (h : l.get? tid = some p) :
    (l.set tid q).countP f + (if f p then 1 else 0) =
      l.countP f + (if f q then 1 else 0) := by
  induction l generalizing tid with
  | nil => simp at h
  | cons a l ih =>
    cases tid with
    | zero =>
      have ha : a = p := by simpa using h
      subst ha
      simp only [List.set_cons_zero, List.countP_cons]
      omega
    | succ k =>
      have hk : l.get? k = some p := by simpa using h
      have := ih k hk
      simp only [List.set_cons_succ, List.countP_cons]
      omega

theorem ToggleSys.inv_init (b : Bool) (n : Nat) (hb : b.valid) :
    (ToggleSys.init b n).inv b.Load n := by
  refine ⟨hb, by simp [ToggleSys.init], ?_, ?_⟩
  · simp [ToggleSys.init, ToggleSys.doneCount, List.countP_replicate, TogglePc.isDone]
  · simp [ToggleSys.init]

theorem ToggleSys.inv_step (b0 : bool) (n : Nat) (s : ToggleSys) (tid : Nat)
    (h : s.inv b0 n) : (s.step tid).inv b0 n := by
  obtain ⟨hv, hlen, hfl, hld⟩ := h
  unfold ToggleSys.step
  cases hg : s.threads.get? tid with
  | none => exact ⟨hv, hlen, hfl, hld⟩
  | some pc =>
    cases pc with
    | done r => exact ⟨hv, hlen, hfl, hld⟩
    | load =>
      have hc := countP_set_of_get TogglePc.isDone s.threads tid TogglePc.load
        (TogglePc.cas s.cell.Load) hg
      simp only [TogglePc.isDone, Bool.false_eq_true, if_false, Nat.add_zero] at hc
      refine ⟨hv, by simpa using hlen, ?_, hld⟩
      show s.flips = (s.threads.set tid (TogglePc.cas s.cell.Load)).countP TogglePc.isDone
      rw [hc]; exact hfl
    | cas old =>
      have hraw := Bool.raw_eq_of_valid hv
      by_cases heq : s.cell.v = boolToInt old
      · have hr : s.cell.CAS old (!old) = (true, NewBool (!old)) := by
          simp only [Bool.CAS, CompareAndSwapUint32, if_pos heq]
          rfl
        have hold : s.cell.Load = old := by
          rw [hraw] at heq
          exact boolToInt_injective heq
        have hc := countP_set_of_get TogglePc.isDone s.threads tid (TogglePc.cas old)
          (TogglePc.done old) hg
        simp only [TogglePc.isDone, Bool.false_eq_true, if_false, if_true, Nat.add_zero] at hc
        simp only [hr, if_true]
        refine ⟨Bool.valid_NewBool _, by simpa using hlen, ?_, ?_⟩
        · show s.flips + 1 = (s.threads.set tid (TogglePc.done old)).countP TogglePc.isDone
          rw [hc]
          exact congrArg (· + 1) hfl
        · show (NewBool (!old)).Load = xor b0 (decide ((s.flips + 1) % 2 = 1))
          rw [show (NewBool (!old)).Load = !old from truthy_boolToInt _, ← hold, hld]
          rcases Nat.mod_two_eq_zero_or_one s.flips with h0 | h1
          · have : (s.flips + 1) % 2 = 1 := by omega
            simp [h0, this]
          · have : (s.flips + 1) % 2 = 0 := by omega
            simp [h1, this]
      · have hr : s.cell.CAS old (!old) = (false, s.cell) := by
          simp only [Bool.CAS, CompareAndSwapUint32, if_neg heq]
        have hc := countP_set_of_get TogglePc.isDone s.threads tid (TogglePc.cas old)
          TogglePc.load hg
        simp only [TogglePc.isDone, Bool.false_eq_true, if_false, Nat.add_zero] at hc
        simp only [hr, Bool.false_eq_true, if_false]
        refine ⟨hv, by simpa using hlen, ?_, hld⟩
        show s.flips = (s.threads.set tid TogglePc.load).countP TogglePc.isDone
        rw [hc]; exact hfl

theorem ToggleSys.inv_run (b0 : bool) (n : Nat) (sched : List Nat) (s : ToggleSys)
    (h : s.inv b0 n) : (s.run sched).inv b0 n := by
  induction sched generalizing s with
  | nil => exact h
  | cons tid rest ih => exact ih (s.step tid) (ToggleSys.inv_step b0 n s tid h)

theorem ToggleSys.doneCount_of_allDone (s : ToggleSys) (h : s.allDone = true) :
    s.doneCount = s.threads.length := by
  unfold ToggleSys.allDone at h
  unfold ToggleSys.doneCount
  rw [List.countP_eq_length]
  intro a ha
  exact (List.all_eq_true.1 h) a ha

/-! ## Successful runs of the generators -/

theorem valuewrapper_run_ok (format : text → Except text text) (env : GenEnv)
    (opts : valuewrapper.Opts) (h : (valuewrapper.run format env (.ok opts)).1 = none) :
    ∃ bs, format (valuewrapper.tmpl (valuewrapper.data opts)) = .ok bs ∧
      (valuewrapper.run format env (.ok opts)).2 =
        (if decide (0 < opts.File.length) then [Effect.create opts.File] else []) ++
          [Effect.render,
            Effect.write (if decide (0 < opts.File.length) then some opts.File else none) bs] := by
  by_cases hc : opts.Name.length = 0 ∨ opts.Type_.length = 0 ∨ opts.Zero.length = 0
  · simp [valuewrapper.run, hc] at h
  · simp only [valuewrapper.run, valuewrapper.Execute, if_neg hc] at h ⊢
    generalize (if decide (0 < opts.File.length) = true then env.create opts.File else none) =
      cr at h ⊢
    cases cr with
    | some e => simp at h
    | none =>
      simp only at h ⊢
      cases hf : format (valuewrapper.tmpl (valuewrapper.data opts)) with
      | error e => rw [hf] at h; simp at h
      | ok bs => exact ⟨bs, rfl, rfl⟩

theorem atomicint_run_ok (tmpl : atomicint.Data → Except text text)
    (format : text → Except text text) (env : GenEnv)
    (opts : atomicint.Opts) (h : (atomicint.run tmpl format env (.ok opts)).1 = none) :
    ∃ buff bs, tmpl (atomicint.data opts env.year) = .ok buff ∧ format buff = .ok bs ∧
      (atomicint.run tmpl format env (.ok opts)).2 =
        (if decide (0 < opts.File.length) then [Effect.create opts.File] else []) ++
          [Effect.render,
            Effect.write (if decide (0 < opts.File.length) then some opts.File else none)
              "// @generated Code generated by gen-atomicint.\n\n",
            Effect.write (if decide (0 < opts.File.length) then some opts.File else none) bs] := by
  by_cases hc : opts.Name.length = 0 ∨ opts.Wrapped.length = 0
  · simp [atomicint.run, hc] at h
  · simp only [atomicint.run, if_neg hc] at h ⊢
    generalize (if decide (0 < opts.File.length) = true then env.create opts.File else none) =
      cr at h ⊢
    cases cr with
    | some e => simp at h
    | none =>
      simp only at h ⊢
      cases ht : tmpl (atomicint.data opts env.year) with
      | error e => rw [ht] at h; simp at h
      | ok buff =>
        rw [ht] at h
        simp only at h ⊢
        cases hf : format buff with
        | error e => rw [hf] at h; simp at h
        | ok bs => exact ⟨buff, bs, rfl, hf, rfl⟩

/-! ## Loops that never spin, cells that keep their type -/

theorem Bool.Toggle_raw_two (fuel : Nat) : Bool.Toggle fuel ⟨2⟩ = none := by
  induction fuel with
  | zero => rfl
  | succ k ih =>
    have hc : (Bool.mk 2).CAS (Bool.mk 2).Load (!(Bool.mk 2).Load) = (false, ⟨2⟩) := by decide
    simp only [Bool.Toggle, hc, Bool.false_eq_true, if_false]
    exact ih

theorem Nillable_Store_of_valid (name : text) (x : Nillable) (v : Option Nat)
    (h : x.valid name) : x.Store name v = .ok ⟨⟨⟨some (Any.stored name v)⟩⟩⟩ := by
  obtain ⟨⟨⟨s⟩⟩⟩ := x
  cases s with
  | none => rfl
  | some a =>
    cases a with
    | stored n w =>
      have hn : n = name := h
      subst hn
      simp [Nillable.Store, wrapNillable, Value.Store, SyncValue.Store, Any.typ, Except.map]
    | string s => exact absurd h (by simp [Nillable.valid])
    | other t n => exact absurd h (by simp [Nillable.valid])
    | packedTime t => exact absurd h (by simp [Nillable.valid])

theorem Nillable_Load_stored (name : text) (v : Option Nat) :
    Nillable.Load name ⟨⟨⟨some (Any.stored name v)⟩⟩⟩ = .ok v := by
  simp [Nillable.Load, Value.Load, SyncValue.Load]

theorem String.Load_of_valid (s : String) (h : s.valid) : ∃ x, s.Load = .ok x := by
  obtain ⟨⟨⟨v⟩⟩⟩ := s
  cases v with
  | none => exact ⟨[], rfl⟩
  | some a =>
    cases a with
    | string x => exact ⟨x, rfl⟩
    | other t n => exact absurd h (by simp [String.valid])
    | packedTime t => exact absurd h (by simp [String.valid])
    | stored name x => exact absurd h (by simp [String.valid])

theorem String.step_of_valid (s : String) (op : StringOp) (h : s.valid) :
    ∃ s2, s.step op = .ok s2 ∧ s2.valid := by
  obtain ⟨x, hx⟩ := String.Load_of_valid s h
  cases op with
  | Load => exact ⟨s, by simp [String.step, hx, Except.map], h⟩
  | MarshalText => exact ⟨s, by simp [String.step, String.MarshalText, hx, Except.map], h⟩
  | Store y => exact ⟨_, String.Store_of_valid s y h, String.valid_stored y⟩
  | UnmarshalText b =>
    exact ⟨_, by simp [String.step, String.UnmarshalText, String.Store_of_valid s b h,
      Except.map], String.valid_stored b⟩

theorem String_valid_of_Reachable (s : String) (h : String.Reachable s) : s.valid := by
  induction h with
  | zero => exact String.valid_zero
  | new x s hs =>
    rw [NewString_eq] at hs
    have : s = if x = [] then String.zero else ⟨⟨⟨some (Any.string x)⟩⟩⟩ :=
      (Except.ok.inj hs).symm
    rw [this]
    split
    · exact String.valid_zero
    · exact String.valid_stored x
  | step s s2 op _ hs ih =>
    obtain ⟨s3, h3, hv⟩ := String.step_of_valid s op ih
    rw [h3] at hs
    rw [← Except.ok.inj hs]
    exact hv

/-! ## Decimal text of integers -/

theorem isDigit_not_space {c : Nat} (h : isDigit c = true) : isSpace c = false := by
  simp only [isDigit, Bool.and_eq_true, decide_eq_true_eq] at h
  simp only [isSpace, Bool.or_eq_false_iff, beq_eq_false_iff_ne, ne_eq]
  omega

theorem digitsVal_foldl (ds : Bytes) (a : Nat) :
    ds.foldl (fun a d => a * 10 + (d - 48)) a = a * 10 ^ ds.length + digitsVal ds := by
  unfold digitsVal
  induction ds generalizing a with
  | nil => simp
  | cons d ds ih =>
    simp only [List.foldl_cons, List.length_cons]
    rw [ih (a * 10 + (d - 48)), ih (0 * 10 + (d - 48))]
    ring

theorem digitsVal_append_single (ds : Bytes) (d : Nat) :
    digitsVal (ds ++ [d]) = digitsVal ds * 10 + (d - 48) := by
  simp [digitsVal, List.foldl_append]

/-- The digits `formatUintAux` puts in front of the accumulator: not empty, decimal
digits only, starting with `0` only for the number 0, and denoting `n`. -/
theorem formatUintAux_spec (fuel n : Nat) (acc : Bytes) (h : n < fuel) :
    ∃ ds, formatUintAux fuel n acc = ds ++ acc ∧ ds ≠ [] ∧
      (∀ d ∈ ds, isDigit d = true) ∧ (ds.head? = some 48 → ds = [48] ∧ n = 0) ∧
      digitsVal ds = n := by
  induction fuel generalizing n acc with
  | zero => omega
  | succ fuel ih =>
    by_cases h0 : n / 10 = 0
    · have hn : n < 10 := by omega
      refine ⟨[48 + n % 10], ?_, by simp, ?_, ?_, ?_⟩
      · simp [formatUintAux, h0]
      · intro d hd
        have : d = 48 + n % 10 := by simpa using hd
        subst this
        simp only [isDigit, Bool.and_eq_true, decide_eq_true_eq]
        omega
      · intro hh
        have : 48 + n % 10 = 48 := by simpa using hh
        have hz : n = 0 := by omega
        subst hz
        exact ⟨rfl, rfl⟩
      · simp only [digitsVal, List.foldl_cons, List.foldl_nil]
        omega
    · have hlt : n / 10 < fuel := by omega
      obtain ⟨ds, he, hne, hdig, hhead, hval⟩ := ih (n / 10) ((48 + n % 10) :: acc) hlt
      refine ⟨ds ++ [48 + n % 10], ?_, by simp, ?_, ?_, ?_⟩
      · simp [formatUintAux, h0, he]
      · intro d hd
        rcases List.mem_append.1 hd with hd | hd
        · exact hdig d hd
        · have : d = 48 + n % 10 := by simpa using hd
          subst this
          simp only [isDigit, Bool.and_eq_true, decide_eq_true_eq]
          omega
      · intro hh
        have hds : ds.head? = some 48 := by
          cases ds with
          | nil => exact absurd rfl hne
          | cons a l => simpa using hh
        exact absurd (hhead hds).2 h0
      · rw [digitsVal_append_single, hval]
        omega

theorem formatUint_spec (n : Nat) :
    formatUint n ≠ [] ∧ (∀ d ∈ formatUint n, isDigit d = true) ∧
      ((formatUint n).head? = some 48 → formatUint n = [48] ∧ n = 0) ∧
      digitsVal (formatUint n) = n := by
  obtain ⟨ds, he, hne, hdig, hhead, hval⟩ := formatUintAux_spec (n + 1) n [] (Nat.lt_succ_self n)
  have : formatUint n = ds := by
    unfold formatUint
    rw [he, List.append_nil]
  rw [this]
  exact ⟨hne, hdig, hhead, hval⟩

/-- A text of decimal digits without a superfluous leading zero is lexed as the integer
part of a number with nothing after it. -/
theorem lexNumber_digits (ds : Bytes) (hne : ds ≠ []) (hdig : ∀ d ∈ ds, isDigit d = true)
    (hhead : ds.head? = some 48 → ds = [48]) :
    lexNumber ds = some (⟨false, ds, [], false, []⟩, []) := by
  cases ds with
  | nil => exact absurd rfl hne
  | cons c r =>
    have hc : isDigit c = true := hdig c (List.mem_cons_self c r)
    have hr : ∀ d ∈ r, isDigit d = true := fun d hd => hdig d (List.mem_cons_of_mem c hd)
    have h45 : c ≠ 45 := by
      simp only [isDigit, Bool.and_eq_true, decide_eq_true_eq] at hc
      omega
    have hneg : decide ((c :: r).head? = some 45) = false := by simp [h45]
    have hint : lexInt (c :: r) = some (c :: r, []) := by
      by_cases h48 : c = 48
      · have := hhead (by simp [h48])
        have hr0 : r = [] := (by simpa using this : c = 48 ∧ r = []).2
        subst hr0
        subst h48
        rfl
      · have htake : r.takeWhile isDigit = r := List.takeWhile_eq_self_iff.2 hr
        have hdrop : r.dropWhile isDigit = [] := List.dropWhile_eq_nil_iff.2 hr
        simp [lexInt, h48, hc, htake, hdrop]
    simp only [lexNumber, hneg, Bool.false_eq_true, if_false, hint, lexFrac, lexExp]

theorem lexNumber_neg_digits (ds : Bytes) (hne : ds ≠ []) (hdig : ∀ d ∈ ds, isDigit d = true)
    (hhead : ds.head? = some 48 → ds = [48]) :
    lexNumber (45 :: ds) = some (⟨true, ds, [], false, []⟩, []) := by
  have h := lexNumber_digits ds hne hdig hhead
  cases ds with
  | nil => exact absurd rfl hne
  | cons c r =>
    have hc : isDigit c = true := hdig c (List.mem_cons_self c r)
    have h45 : c ≠ 45 := by
      simp only [isDigit, Bool.and_eq_true, decide_eq_true_eq] at hc
      omega
    have hneg : decide ((c :: r).head? = some 45) = false := by simp [h45]
    simp only [lexNumber, hneg, Bool.false_eq_true, if_false] at h
    simp only [lexNumber, List.head?_cons, decide_True, if_true, List.tail_cons]
    cases hi : lexInt (c :: r) with
    | none => rw [hi] at h; simp at h
    | some p =>
      rw [hi] at h
      obtain ⟨ip, t2⟩ := p
      simp only at h ⊢
      cases hf : lexFrac t2 with
      | none => rw [hf] at h; simp at h
      | some q =>
        rw [hf] at h
        obtain ⟨fp, t3⟩ := q
        simp only at h ⊢
        cases hx : lexExp t3 with
        | none => rw [hx] at h; simp at h
        | some u =>
          rw [hx] at h
          obtain ⟨en, ep, t4⟩ := u
          simp only [Option.some.injEq, Prod.mk.injEq, NumLit.mk.injEq] at h ⊢
          obtain ⟨⟨_, h2, h3, h4, h5⟩, h6⟩ := h
          exact ⟨⟨trivial, h2, h3, h4, h5⟩, h6⟩

/-- A text that is one number literal, starting with a digit or a minus sign, is valid
JSON of the kind number. -/
theorem checkValid_number (c : Nat) (r : Bytes) (lit : NumLit)
    (hc : isDigit c = true ∨ c = 45) (hl : lexNumber (c :: r) = some (lit, [])) :
    checkValid (c :: r) = true ∧ skipSpace (c :: r) = c :: r ∧
      jsonKindOf (c :: r) = jsonKind.number := by
  have hb : 48 ≤ c ∧ c ≤ 57 ∨ c = 45 := by
    rcases hc with hc | hc
    · simp only [isDigit, Bool.and_eq_true, decide_eq_true_eq] at hc
      exact Or.inl hc
    · exact Or.inr hc
  have hsp : isSpace c = false := by
    simp only [isSpace, Bool.or_eq_false_iff, beq_eq_false_iff_ne, ne_eq]
    omega
  have hskip : skipSpace (c :: r) = c :: r := by
    simp [skipSpace, List.dropWhile, hsp]
  have h34 : c ≠ 34 := by omega
  have h91 : c ≠ 91 := by omega
  have h123 : c ≠ 123 := by omega
  have h110 : c ≠ 110 := by omega
  have h116 : c ≠ 116 := by omega
  have h102 : c ≠ 102 := by omega
  refine ⟨?_, hskip, ?_⟩
  · have hfuel : 2 * (c :: r).length + 2 = (2 * r.length + 2) + 1 + 1 := by
      simp only [List.length_cons]; omega
    unfold checkValid
    rw [hfuel]
    show scanStep (scan (2 * r.length + 2 + 1)) [] Expect.value (c :: r) = true
    simp only [scanStep, hskip, h34, h91, h123, h110, h116, h102, if_false, hl]
    rfl
  · simp [jsonKindOf, h110, h116, h102, h34, h91, h123]

theorem jsonUint_round_trip (w n : Nat) (h : n < 2 ^ w) :
    (jsonUint w).Unmarshal (formatUint n) = .ok n := by
  obtain ⟨hne, hdig, hhead, hval⟩ := formatUint_spec n
  have hlex := lexNumber_digits (formatUint n) hne hdig (fun hh => (hhead hh).1)
  cases hf : formatUint n with
  | nil => exact absurd hf hne
  | cons c r =>
    rw [hf] at hlex hdig hval
    have hc : isDigit c = true := hdig c (List.mem_cons_self c r)
    obtain ⟨hv, hs, hk⟩ := checkValid_number c r _ (Or.inl hc) hlex
    simp only [jsonUint, hv, hs, hk, if_true, hlex, Option.some_bind, parseUintLit, and_self,
      hval]
    simp [isUint, h]

theorem jsonInt64_round_trip (x : Int) (h : isInt64 x) :
    jsonInt64.Unmarshal (formatInt x) = .ok x := by
  obtain ⟨hne, hdig, hhead, hval⟩ := formatUint_spec x.natAbs
  by_cases hx : x < 0
  · have hlex := lexNumber_neg_digits (formatUint x.natAbs) hne hdig (fun hh => (hhead hh).1)
    have hfmt : formatInt x = 45 :: formatUint x.natAbs := by simp [formatInt, hx]
    obtain ⟨hv, hs, hk⟩ := checkValid_number 45 _ _ (Or.inr rfl) hlex
    rw [hfmt]
    have hxv : -((x.natAbs : Nat) : Int) = x := by omega
    simp only [jsonInt64, hv, hs, hk, if_true, hlex, Option.some_bind, parseIntLit, and_self,
      hval, hxv]
    simp [h]
  · have hlex := lexNumber_digits (formatUint x.natAbs) hne hdig (fun hh => (hhead hh).1)
    have hfmt : formatInt x = formatUint x.natAbs := by simp [formatInt, hx]
    rw [hfmt]
    cases hf : formatUint x.natAbs with
    | nil => exact absurd hf hne
    | cons c r =>
      rw [hf] at hlex hdig hval
      have hc : isDigit c = true := hdig c (List.mem_cons_self c r)
      obtain ⟨hv, hs, hk⟩ := checkValid_number c r _ (Or.inl hc) hlex
      have hxv : ((x.natAbs : Nat) : Int) = x := by omega
      simp only [jsonInt64, hv, hs, hk, if_true, hlex, Option.some_bind, parseIntLit, and_self,
        hval, hxv]
      simp [h]

theorem jsonBool_round_trip (b : bool) :
    jsonBool.Unmarshal (if b then litTrue else litFalse) = .ok b := by
  cases b <;> decide
/-! ## Rounding a decimal to a `float64` -/

theorem bitLenAux_spec (fuel n : Nat) (h : n ≤ fuel) (hn : n ≠ 0) :
    ∃ k, bitLenAux fuel n = k + 1 ∧ 2 ^ k ≤ n ∧ n < 2 ^ (k + 1) := by
  induction fuel generalizing n with
  | zero => omega
  | succ fuel ih =>
    by_cases h2 : n / 2 = 0
    · refine ⟨0, ?_, ?_, ?_⟩
      · have : bitLenAux fuel (n / 2) = 0 := by
          rw [h2]
          cases fuel <;> simp [bitLenAux]
        simp [bitLenAux, hn, this]
      · simp; omega
      · simp; omega
    · obtain ⟨k, hk, hlo, hhi⟩ := ih (n / 2) (by omega) h2
      refine ⟨k + 1, ?_, ?_, ?_⟩
      · simp [bitLenAux, hn, hk]; omega
      · rw [pow_succ]; omega
      · rw [pow_succ]; omega

theorem bitLen_spec (n : Nat) (hn : n ≠ 0) :
    ∃ k, bitLen n = k + 1 ∧ 2 ^ k ≤ n ∧ n < 2 ^ (k + 1) :=
  bitLenAux_spec n n (Nat.le_refl n) hn

theorem bitLen_eq (n k : Nat) (hlo : 2 ^ k ≤ n) (hhi : n < 2 ^ (k + 1)) : bitLen n = k + 1 := by
  have hn : n ≠ 0 := by
    have : 0 < 2 ^ k := Nat.two_pow_pos k
    omega
  obtain ⟨j, hj, hjlo, hjhi⟩ := bitLen_spec n hn
  have h1 : j < k + 1 := by
    by_contra hc
    have : 2 ^ (k + 1) ≤ 2 ^ j := Nat.pow_le_pow_right (by decide) (by omega)
    omega
  have h2 : k < j + 1 := by
    by_contra hc
    have : 2 ^ (j + 1) ≤ 2 ^ k := Nat.pow_le_pow_right (by decide) (by omega)
    omega
  omega

theorem bitLen_le (n k : Nat) (hhi : n < 2 ^ k) : bitLen n ≤ k := by
  by_cases hn : n = 0
  · subst hn
    have : bitLen 0 = 0 := rfl
    omega
  · obtain ⟨j, hj, hjlo, _⟩ := bitLen_spec n hn
    by_contra hc
    have : 2 ^ k ≤ 2 ^ j := Nat.pow_le_pow_right (by decide) (by omega)
    omega

/-- The fields of a finite `float64` are what rounding its own magnitude gives. -/
theorem roundMag_sig_scale (x : float64) (hfin : x.exp ≠ 2047) :
    roundMag x.sig x.scale = (x.exp, x.frac) := by
  have hf := x.frac_lt
  have he := x.exp_lt
  by_cases h0 : x.exp = 0
  · have hs : x.sig = x.frac := by simp [float64.sig, h0]
    have hsc : x.scale = 0 := by simp [float64.scale, h0]
    have hl : bitLen x.frac ≤ 52 := bitLen_le _ _ hf
    rw [hs, hsc, h0]
    have h1 : x.frac / 2 ^ 52 = 0 := Nat.div_eq_of_lt hf
    have h2 : x.frac % 2 ^ 52 = x.frac := Nat.mod_eq_of_lt hf
    simp only [roundMag, Nat.add_zero, pow_zero, Nat.mul_one, h1, h2]
    rw [if_pos (by omega)]
  · have hs : x.sig = 2 ^ 52 + x.frac := by simp [float64.sig, h0]
    have hl : bitLen x.sig = 53 := by
      rw [hs]
      exact bitLen_eq _ 52 (by omega) (by norm_num at hf ⊢; omega)
    by_cases h1 : x.exp = 1
    · have hsc : x.scale = 0 := by simp [float64.scale, h1]
      have h2 : (2 ^ 52 + x.frac) / 2 ^ 52 = 1 := by norm_num at hf ⊢; omega
      have h3 : (2 ^ 52 + x.frac) % 2 ^ 52 = x.frac := by norm_num at hf ⊢; omega
      simp only [roundMag, hl, hsc, Nat.add_zero, pow_zero, Nat.mul_one, Nat.le_refl, if_true]
      rw [hs, h2, h3, h1]
    · have hsc : x.scale = x.exp - 1 := rfl
      have hne : ¬ (53 + x.scale ≤ 53) := by omega
      have h2047 : ¬ (2047 ≤ 53 + x.scale - 52) := by
        norm_num at he
        omega
      simp only [roundMag, hl, hne, if_false, Nat.le_refl, if_true, h2047, Nat.sub_self,
        pow_zero, Nat.mul_one]
      have e1 : 53 + x.scale - 52 = x.exp := by omega
      have e2 : 2 ^ 52 + x.frac - 2 ^ 52 = x.frac := Nat.add_sub_cancel_left _ _
      rw [hs, e1, e2]

theorem float64.sig_lt (x : float64) : x.sig < 2 ^ 53 := by
  have hf := x.frac_lt
  unfold float64.sig
  split <;> norm_num at hf ⊢ <;> omega

/-- Rounding to the nearest whole number, ties to even: when `m` is within half of
`Q / D`, and strictly so when `m` is odd, it is what the rounding gives. -/
theorem round_half_even (Q D keep R m : Nat) (hD : 0 < D) (hQ : Q = keep * D + R)
    (hR : R < D) (hlo : 2 * (m * D) ≤ 2 * Q + D) (hhi : 2 * Q ≤ 2 * (m * D) + D)
    (hodd : m % 2 = 1 → 2 * (m * D) < 2 * Q + D ∧ 2 * Q < 2 * (m * D) + D) :
    (if D < 2 * R ∨ (2 * R = D ∧ keep % 2 = 1) then keep + 1 else keep) = m := by
  have h1 : keep ≤ m := by
    by_contra hc
    have : (m + 1) * D ≤ keep * D := Nat.mul_le_mul_right D (by omega)
    rw [Nat.add_mul, Nat.one_mul] at this
    omega
  have h2 : m ≤ keep + 1 := by
    by_contra hc
    have : (keep + 2) * D ≤ m * D := Nat.mul_le_mul_right D (by omega)
    rw [Nat.add_mul] at this
    omega
  rcases Nat.lt_or_ge keep m with h | h
  · have hm : m = keep + 1 := by omega
    subst hm
    rw [Nat.add_mul, Nat.one_mul] at hlo hhi hodd
    have hDR : D ≤ 2 * R := by omega
    by_cases hlt : D < 2 * R
    · simp [hlt]
    · have heq : 2 * R = D := by omega
      have hk : keep % 2 = 1 := by
        by_contra hk
        have := hodd (by omega)
        omega
      simp [heq, hk]
  · have hm : m = keep := by omega
    subst hm
    have hDR : 2 * R ≤ D := by omega
    by_cases heq : 2 * R = D
    · have hk : ¬ m % 2 = 1 := by
        intro hk
        have := hodd hk
        omega
      have hlt : ¬ D < 2 * R := by omega
      simp [hlt, hk]
    · have hlt : ¬ D < 2 * R := by omega
      simp [hlt, heq]

/-- The rounding of `roundShift` is rounding to the nearest whole number, ties to even, of
the fraction `Q / (den * 2^sh)` whose quotient by `den` is `q`. -/
theorem roundShift_eq (Q den sh m : Nat) (hden : 0 < den) (hsh : 1 ≤ sh)
    (hlo : 2 * (m * (den * 2 ^ sh)) ≤ 2 * Q + den * 2 ^ sh)
    (hhi : 2 * Q ≤ 2 * (m * (den * 2 ^ sh)) + den * 2 ^ sh)
    (hodd : m % 2 = 1 → 2 * (m * (den * 2 ^ sh)) < 2 * Q + den * 2 ^ sh ∧
      2 * Q < 2 * (m * (den * 2 ^ sh)) + den * 2 ^ sh) :
    roundShift (Q / den) (decide (Q % den ≠ 0)) sh = m := by
  obtain ⟨half, hhalf⟩ : ∃ half, half = 2 ^ (sh - 1) := ⟨_, rfl⟩
  have hpow : 2 ^ sh = 2 * half := by
    rw [hhalf, ← pow_succ']
    congr 1
    omega
  have hhalfpos : 0 < half := by rw [hhalf]; exact Nat.two_pow_pos _
  obtain ⟨q, hq⟩ : ∃ q, q = Q / den := ⟨_, rfl⟩
  obtain ⟨r0, hr0⟩ : ∃ r0, r0 = Q % den := ⟨_, rfl⟩
  have hr0lt : r0 < den := by rw [hr0]; exact Nat.mod_lt _ hden
  have hQq : Q = q * den + r0 := by
    rw [hq, hr0, Nat.mul_comm]
    exact (Nat.div_add_mod Q den).symm
  obtain ⟨keep, hkeep⟩ : ∃ keep, keep = q / (2 * half) := ⟨_, rfl⟩
  obtain ⟨rem, hrem⟩ : ∃ rem, rem = q % (2 * half) := ⟨_, rfl⟩
  have hremlt : rem < 2 * half := by rw [hrem]; exact Nat.mod_lt _ (by omega)
  have hqk : q = keep * (2 * half) + rem := by
    rw [hkeep, hrem, Nat.mul_comm]
    exact (Nat.div_add_mod q (2 * half)).symm
  -- the fraction as a quotient by `den * 2^sh` and what is left
  obtain ⟨D, hDdef⟩ : ∃ D, D = den * (2 * half) := ⟨_, rfl⟩
  obtain ⟨hd, hhd⟩ : ∃ hd, hd = half * den := ⟨_, rfl⟩
  have hD2 : D = 2 * hd := by rw [hDdef, hhd]; ring
  have hQD : Q = keep * D + (rem * den + r0) := by
    rw [hQq, hqk, hDdef]; ring
  have hRlt : rem * den + r0 < D := by
    have : (rem + 1) * den ≤ (2 * half) * den := Nat.mul_le_mul_right den (by omega)
    rw [Nat.add_mul, Nat.one_mul] at this
    rw [hDdef, Nat.mul_comm den]
    omega
  have hDpos : 0 < D := by
    rw [hDdef]
    exact Nat.mul_pos hden (by omega)
  rw [hpow, ← hDdef] at hlo hhi hodd
  have key := round_half_even Q D keep (rem * den + r0) m hDpos hQD hRlt hlo hhi hodd
  -- the test of `roundShift` is the test of the rounding
  have htest : (decide (half < rem) || (decide (rem = half) &&
      (decide (r0 ≠ 0) || decide (keep % 2 = 1)))) = true ↔
      (D < 2 * (rem * den + r0) ∨ (2 * (rem * den + r0) = D ∧ keep % 2 = 1)) := by
    rcases Nat.lt_trichotomy rem half with h | h | h
    · have : (rem + 1) * den ≤ half * den := Nat.mul_le_mul_right den (by omega)
      rw [Nat.add_mul, Nat.one_mul, ← hhd] at this
      have h1 : ¬ half < rem := by omega
      have h2 : ¬ rem = half := by omega
      simp only [h1, h2, decide_False, Bool.false_and, Bool.or_self, Bool.false_eq_true,
        false_iff]
      omega
    · subst h
      rw [← hhd]
      have h1 : ¬ rem < rem := by omega
      simp only [h1, decide_False, decide_True, Bool.true_and, Bool.false_or,
        Bool.or_eq_true, decide_eq_true_eq]
      omega
    · have : (half + 1) * den ≤ rem * den := Nat.mul_le_mul_right den (by omega)
      rw [Nat.add_mul, Nat.one_mul, ← hhd] at this
      simp only [h, decide_True, Bool.true_or, true_iff]
      left
      omega
  unfold roundShift
  simp only [← hq, ← hr0, hpow, ← hkeep, ← hrem]
  have hh : 2 ^ (sh - 1) = half := hhalf.symm
  simp only [hh]
  by_cases hc : (D < 2 * (rem * den + r0) ∨ (2 * (rem * den + r0) = D ∧ keep % 2 = 1))
  · rw [if_pos hc] at key
    rw [if_pos (htest.2 hc)]
    exact key
  · rw [if_neg hc] at key
    rw [if_neg (fun h => hc (htest.1 h))]
    exact key

/-- Two comparisons of fractions with powers of two that differ by a common power. -/
theorem pow_rescale (P R a b x y : Nat) (h : a + y = b + x) :
    P * 2 ^ a ≤ R * 2 ^ b ↔ P * 2 ^ x ≤ R * 2 ^ y := by
  have hb : 0 < 2 ^ b := Nat.two_pow_pos b
  have hy : 0 < 2 ^ y := Nat.two_pow_pos y
  have e0 : 2 ^ x * 2 ^ b = 2 ^ a * 2 ^ y := by
    rw [← pow_add, ← pow_add]; congr 1; omega
  have e1 : P * 2 ^ x * 2 ^ b = P * 2 ^ a * 2 ^ y := by
    rw [Nat.mul_assoc, e0, Nat.mul_assoc]
  have e2 : R * 2 ^ y * 2 ^ b = R * 2 ^ b * 2 ^ y := by ring
  constructor
  · intro h1
    have := Nat.mul_le_mul_right (2 ^ y) h1
    rw [← e1, ← e2] at this
    exact Nat.le_of_mul_le_mul_right this hb
  · intro h1
    have := Nat.mul_le_mul_right (2 ^ b) h1
    rw [e1, e2] at this
    exact Nat.le_of_mul_le_mul_right this hy

theorem pow_rescale_lt (P R a b x y : Nat) (h : a + y = b + x) :
    P * 2 ^ a < R * 2 ^ b ↔ P * 2 ^ x < R * 2 ^ y := by
  have := pow_rescale R P b a y x (by omega)
  constructor
  · intro h1
    by_contra hc
    exact absurd (this.2 (by omega)) (by omega)
  · intro h1
    by_contra hc
    exact absurd (this.1 (by omega)) (by omega)

theorem two_pow_lt_cancel (m n : Nat) (h : 2 ^ m < 2 ^ n) : m < n := by
  by_contra hc
  have : 2 ^ n ≤ 2 ^ m := Nat.pow_le_pow_right (by decide) (by omega)
  omega

/-- What `float64.rounds` tests, in quarters of the last place of `x`. -/
theorem float64.rounds_iff (x : float64) (num den : Nat) :
    x.rounds num den = true ↔
      (x.below4 * 2 ^ (x.scale - 1074) * den ≤ 4 * num * 2 ^ (1074 - x.scale) ∧
        4 * num * 2 ^ (1074 - x.scale) ≤ (4 * x.sig + 2) * 2 ^ (x.scale - 1074) * den ∧
        (x.sig % 2 = 1 →
          x.below4 * 2 ^ (x.scale - 1074) * den < 4 * num * 2 ^ (1074 - x.scale) ∧
          4 * num * 2 ^ (1074 - x.scale) <
            (4 * x.sig + 2) * 2 ^ (x.scale - 1074) * den)) := by
  unfold float64.rounds
  by_cases hs : x.sig % 2 = 0
  · have h1 : ¬ x.sig % 2 = 1 := by omega
    simp only []
    rw [if_pos hs, decide_eq_true_eq]
    constructor
    · intro h
      exact ⟨h.1, h.2, fun h2 => absurd h2 h1⟩
    · intro h
      exact ⟨h.1, h.2.1⟩
  · have h1 : x.sig % 2 = 1 := by omega
    simp only []
    rw [if_neg hs, decide_eq_true_eq]
    constructor
    · intro h
      exact ⟨Nat.le_of_lt h.1, Nat.le_of_lt h.2, fun _ => h⟩
    · intro h
      exact h.2.2 h1

theorem roundMag_two_pow_53 (e0 : Nat) (h : e0 + 2 < 2047) :
    roundMag (2 ^ 53) e0 = (e0 + 2, 0) := by
  have hl : bitLen (2 ^ 53) = 54 := bitLen_eq _ 53 (Nat.le_refl _) (by norm_num)
  have h1 : ¬ (54 + e0 ≤ 53) := by omega
  have h2 : ¬ (54 ≤ 53) := by omega
  have a1 : (2 : Nat) ^ 53 % 2 ^ (54 - 53) = 0 := by norm_num
  have a2 : (2 : Nat) ^ 53 / 2 ^ (54 - 53) = 2 ^ 52 := by norm_num
  have a3 : (2 : Nat) ^ (54 - 53 - 1) = 1 := by norm_num
  have a4 : ¬ (1 < 0 ∨ (0 = 1 ∧ 2 ^ 52 % 2 = 1)) := by omega
  have a5 : ¬ ((2 : Nat) ^ 52 = 2 ^ 53) := by norm_num
  have a6 : ¬ (2047 ≤ e0 + 2) := by omega
  have a7 : 54 - 53 + e0 + 1 = e0 + 2 := by omega
  simp only [roundMag, hl, h1, h2, if_false, a1, a2, a3, a4, a5, a6, a7, Nat.sub_self]

/-- The quotient `ofRat` takes has 56 binary digits at least, and the grid it rounds to
is the one of a significand of 53 binary digits, or the grid of the denormals. -/
theorem ofRat_quotient (num den s Q sh e0 D : Nat) (hnum : num ≠ 0) (hden : 0 < den)
    (hs : s = 56 + bitLen den - bitLen num) (hQ : Q = num * 2 ^ s)
    (hsh : sh = max (bitLen (Q / den) - 53) (s - 1074)) (he0 : e0 = sh + 1074 - s)
    (hD : D = den * 2 ^ sh) :
    3 ≤ sh ∧ e0 + s = sh + 1074 ∧ 0 < D ∧ Q < 2 ^ 53 * D ∧
      (2 ^ 52 * D ≤ Q ∨ (e0 = 0 ∧ Q < 2 ^ 52 * D)) := by
  obtain ⟨kn, hkn, hnlo, _⟩ := bitLen_spec num hnum
  obtain ⟨kd, hkd, _, hdhi⟩ := bitLen_spec den (by omega)
  have hskn : 56 + kd ≤ kn + s := by omega
  have hA : 2 ^ 55 * den < Q := by
    calc 2 ^ 55 * den < 2 ^ 55 * 2 ^ (kd + 1) :=
          Nat.mul_lt_mul_of_pos_left hdhi (Nat.two_pow_pos 55)
      _ = 2 ^ (56 + kd) := by rw [← pow_add]; congr 1; omega
      _ ≤ 2 ^ (kn + s) := Nat.pow_le_pow_right (by decide) hskn
      _ = 2 ^ kn * 2 ^ s := pow_add 2 kn s
      _ ≤ num * 2 ^ s := Nat.mul_le_mul_right _ hnlo
      _ = Q := hQ.symm
  obtain ⟨q, hq⟩ : ∃ q, q = Q / den := ⟨_, rfl⟩
  have hq55 : 2 ^ 55 ≤ q := by
    rw [hq]
    exact (Nat.le_div_iff_mul_le hden).2 (Nat.le_of_lt hA)
  have hqlo : q * den ≤ Q := by
    rw [hq]; exact Nat.div_mul_le_self Q den
  have hqhi : Q < (q + 1) * den := by
    rw [hq, Nat.mul_comm]; exact Nat.lt_mul_div_succ Q hden
  obtain ⟨kq, hkq, hqlo2, hqhi2⟩ := bitLen_spec q (by
    have : 0 < 2 ^ 55 := Nat.two_pow_pos 55
    omega)
  have hkq55 : 55 ≤ kq := by
    by_contra hc
    have : 2 ^ (kq + 1) ≤ 2 ^ 55 := Nat.pow_le_pow_right (by decide) (by omega)
    omega
  have hQlo : 2 ^ kq * den ≤ Q := Nat.le_trans (Nat.mul_le_mul_right den hqlo2) hqlo
  have hQhi : Q < 2 ^ (kq + 1) * den :=
    Nat.lt_of_lt_of_le hqhi (Nat.mul_le_mul_right den (by omega))
  have hsh1 : kq - 52 ≤ sh ∧ s - 1074 ≤ sh ∧ (sh = kq - 52 ∨ sh = s - 1074) := by
    rw [hsh, ← hq, hkq]
    have e : kq + 1 - 53 = kq - 52 := by omega
    rw [e]
    refine ⟨le_max_left _ _, le_max_right _ _, ?_⟩
    rcases le_total (kq - 52) (s - 1074) with hle | hle
    · right; exact max_eq_right hle
    · left; exact max_eq_left hle
  clear hsh hq hkq hkn hkd hs hA hq55 hqlo hqhi hqlo2 hqhi2 hnlo hdhi hskn
  refine ⟨by omega, by omega, ?_, ?_, ?_⟩
  · rw [hD]; exact Nat.mul_pos hden (Nat.two_pow_pos sh)
  · have : 2 ^ (kq + 1) ≤ 2 ^ 53 * 2 ^ sh := by
      rw [← pow_add]; exact Nat.pow_le_pow_right (by decide) (by omega)
    calc Q < 2 ^ (kq + 1) * den := hQhi
      _ ≤ 2 ^ 53 * 2 ^ sh * den := Nat.mul_le_mul_right den this
      _ = 2 ^ 53 * D := by rw [hD]; ring
  · rcases Nat.lt_or_ge (kq - 52) (s - 1074) with hlt | hge
    · right
      refine ⟨by omega, ?_⟩
      have : 2 ^ (kq + 1) ≤ 2 ^ 52 * 2 ^ sh := by
        rw [← pow_add]; exact Nat.pow_le_pow_right (by decide) (by omega)
      calc Q < 2 ^ (kq + 1) * den := hQhi
        _ ≤ 2 ^ 52 * 2 ^ sh * den := Nat.mul_le_mul_right den this
        _ = 2 ^ 52 * D := by rw [hD]; ring
    · left
      have hshk : sh = kq - 52 := by omega
      have : 2 ^ 52 * 2 ^ sh = 2 ^ kq := by
        rw [← pow_add]; congr 1; omega
      calc 2 ^ 52 * D = 2 ^ 52 * 2 ^ sh * den := by rw [hD]; ring
        _ = 2 ^ kq * den := by rw [this]
        _ ≤ Q := hQlo

/-- The rounding interval of `x` in units of the grid `ofRat` rounds to. -/
theorem rounds_rescaled (x : float64) (num den s sh e0 Q D : Nat)
    (h : x.rounds num den = true) (he0 : e0 + s = sh + 1074) (hQ : Q = num * 2 ^ s)
    (hD : D = den * 2 ^ sh) :
    x.below4 * 2 ^ x.scale * D ≤ 4 * Q * 2 ^ e0 ∧
      4 * Q * 2 ^ e0 ≤ (4 * x.sig + 2) * 2 ^ x.scale * D ∧
      (x.sig % 2 = 1 → x.below4 * 2 ^ x.scale * D < 4 * Q * 2 ^ e0 ∧
        4 * Q * 2 ^ e0 < (4 * x.sig + 2) * 2 ^ x.scale * D) := by
  obtain ⟨hLO, hHI, hstrict⟩ := (x.rounds_iff num den).1 h
  obtain ⟨a, ha⟩ : ∃ a, a = x.scale - 1074 := ⟨_, rfl⟩
  obtain ⟨b, hb⟩ : ∃ b, b = 1074 - x.scale := ⟨_, rfl⟩
  rw [← ha, ← hb] at hLO hHI hstrict
  have hexp : a + (s + e0) = b + (x.scale + sh) := by omega
  have hexp2 : b + (x.scale + sh) = a + (s + e0) := hexp.symm
  have eL : ∀ c : Nat, c * 2 ^ a * den = c * den * 2 ^ a := fun c => by ring
  have eL2 : ∀ c : Nat, c * den * 2 ^ (x.scale + sh) = c * 2 ^ x.scale * D := fun c => by
    rw [hD, pow_add]; ring
  have eR2 : 4 * num * 2 ^ (s + e0) = 4 * Q * 2 ^ e0 := by
    rw [hQ, pow_add]; ring
  refine ⟨?_, ?_, ?_⟩
  · rw [eL] at hLO
    have := (pow_rescale _ _ a b (x.scale + sh) (s + e0) hexp).1 hLO
    rwa [eL2, eR2] at this
  · rw [eL] at hHI
    have := (pow_rescale _ _ b a (s + e0) (x.scale + sh) hexp2).1 hHI
    rwa [eL2, eR2] at this
  · intro hodd
    obtain ⟨h1, h2⟩ := hstrict hodd
    rw [eL] at h1 h2
    have h3 := (pow_rescale_lt _ _ a b (x.scale + sh) (s + e0) hexp).1 h1
    have h4 := (pow_rescale_lt _ _ b a (s + e0) (x.scale + sh) hexp2).1 h2
    rw [eL2, eR2] at h3 h4
    exact ⟨h3, h4⟩

/-- The grid `ofRat` rounds to is the last place of `x`, or half of it when `x` is a power
of two and the fraction lies below it. -/
theorem rounds_grid (sig lo4 scale e0 Q D : Nat) (hD : 0 < D) (hsig : sig < 2 ^ 53)
    (hlo : 4 * sig - 2 ≤ lo4) (hden : sig < 2 ^ 52 → scale = 0)
    (I1 : lo4 * 2 ^ scale * D ≤ 4 * Q * 2 ^ e0)
    (I2 : 4 * Q * 2 ^ e0 ≤ (4 * sig + 2) * 2 ^ scale * D)
    (hQD53 : Q < 2 ^ 53 * D) (hreg : 2 ^ 52 * D ≤ Q ∨ (e0 = 0 ∧ Q < 2 ^ 52 * D)) :
    e0 ≤ scale ∧ scale ≤ e0 + 1 ∧ (scale = e0 + 1 → sig = 2 ^ 52) := by
  have hpe0 : 0 < 2 ^ e0 := Nat.two_pow_pos e0
  have hpsc : 0 < 2 ^ scale := Nat.two_pow_pos scale
  rcases hreg with hn | ⟨hd0, hdQ⟩
  · have h1 : 2 ^ 54 * 2 ^ e0 * D ≤ (4 * sig + 2) * 2 ^ scale * D := by
      calc 2 ^ 54 * 2 ^ e0 * D = 4 * (2 ^ 52 * D) * 2 ^ e0 := by ring
        _ ≤ 4 * Q * 2 ^ e0 :=
          Nat.mul_le_mul_right _ (Nat.mul_le_mul_left 4 hn)
        _ ≤ _ := I2
    have h2 := Nat.le_of_mul_le_mul_right h1 hD
    have h3 : (4 * sig + 2) * 2 ^ scale < 2 ^ 55 * 2 ^ scale :=
      Nat.mul_lt_mul_of_pos_right (by omega) hpsc
    have h4 : 2 ^ (54 + e0) < 2 ^ (55 + scale) := by
      rw [pow_add, pow_add]; omega
    have h5 := two_pow_lt_cancel _ _ h4
    have hs52 : 2 ^ 52 ≤ sig := by
      by_contra hc
      have hs0 : scale = 0 := hden (by omega)
      rw [hs0, pow_zero, Nat.mul_one] at h2
      have : 2 ^ 54 * 1 ≤ 2 ^ 54 * 2 ^ e0 := Nat.mul_le_mul_left _ hpe0
      omega
    have h6 : lo4 * 2 ^ scale * D < 2 ^ 55 * 2 ^ e0 * D := by
      calc lo4 * 2 ^ scale * D ≤ 4 * Q * 2 ^ e0 := I1
        _ < 4 * (2 ^ 53 * D) * 2 ^ e0 :=
          Nat.mul_lt_mul_of_pos_right (Nat.mul_lt_mul_of_pos_left hQD53 (by decide)) hpe0
        _ = 2 ^ 55 * 2 ^ e0 * D := by ring
    have h7 := Nat.lt_of_mul_lt_mul_right h6
    have h8 : 2 ^ 53 * 2 ^ scale ≤ lo4 * 2 ^ scale :=
      Nat.mul_le_mul_right _ (by omega)
    have h9 : 2 ^ (53 + scale) < 2 ^ (55 + e0) := by
      rw [pow_add, pow_add]; omega
    have h10 := two_pow_lt_cancel _ _ h9
    refine ⟨by omega, by omega, ?_⟩
    intro hse
    rw [hse, pow_succ] at h7
    have h11 : lo4 * 2 * 2 ^ e0 < 2 ^ 55 * 2 ^ e0 := by
      calc lo4 * 2 * 2 ^ e0 = lo4 * (2 ^ e0 * 2) := by ring
        _ < _ := h7
    have h12 := Nat.lt_of_mul_lt_mul_right h11
    omega
  · have hs0 : scale = 0 := by
      by_contra hc
      have hs52 : 2 ^ 52 ≤ sig := by
        by_contra hc2
        exact hc (hden (by omega))
      rw [hd0, pow_zero, Nat.mul_one] at I1
      have h1 : lo4 * 2 ^ scale * D < 2 ^ 54 * D := by
        calc lo4 * 2 ^ scale * D ≤ 4 * Q := I1
          _ < 4 * (2 ^ 52 * D) := Nat.mul_lt_mul_of_pos_left hdQ (by decide)
          _ = 2 ^ 54 * D := by ring
      have h2 := Nat.lt_of_mul_lt_mul_right h1
      have h3 : 2 ≤ 2 ^ scale := by
        calc 2 = 2 ^ 1 := rfl
          _ ≤ 2 ^ scale := Nat.pow_le_pow_right (by decide) (by omega)
      have h4 : lo4 * 2 ≤ lo4 * 2 ^ scale := Nat.mul_le_mul_left _ h3
      omega
    exact ⟨by omega, by omega, fun hh => by omega⟩

/-- The fraction is within half a grid step of the significand, the grid being the last
place of `x`. -/
theorem rounds_same_grid (sig lo4 e Q D : Nat) (hs1 : 1 ≤ sig) (hlo : 4 * sig - 2 ≤ lo4) :
    (lo4 * 2 ^ e * D ≤ 4 * Q * 2 ^ e → 2 * (sig * D) ≤ 2 * Q + D) ∧
    (4 * Q * 2 ^ e ≤ (4 * sig + 2) * 2 ^ e * D → 2 * Q ≤ 2 * (sig * D) + D) ∧
    (lo4 * 2 ^ e * D < 4 * Q * 2 ^ e → 2 * (sig * D) < 2 * Q + D) ∧
    (4 * Q * 2 ^ e < (4 * sig + 2) * 2 ^ e * D → 2 * Q < 2 * (sig * D) + D) := by
  have hpe : 0 < 2 ^ e := Nat.two_pow_pos e
  have hSD : D ≤ sig * D := Nat.le_mul_of_pos_left D hs1
  have e4 : (4 * sig + 2) * 2 ^ e * D = (4 * (sig * D) + 2 * D) * 2 ^ e := by ring
  have e5 : lo4 * 2 ^ e * D = lo4 * D * 2 ^ e := by ring
  have e6 : (4 * sig - 2) * D = 4 * (sig * D) - 2 * D := by
    rw [Nat.sub_mul]; congr 1; ring
  have hloD : (4 * sig - 2) * D ≤ lo4 * D := Nat.mul_le_mul_right D hlo
  rw [e4, e5]
  refine ⟨?_, ?_, ?_, ?_⟩
  · intro h
    have h2 := Nat.le_of_mul_le_mul_right h hpe
    omega
  · intro h
    have h2 := Nat.le_of_mul_le_mul_right h hpe
    omega
  · intro h
    have h2 := Nat.lt_of_mul_lt_mul_right h
    omega
  · intro h
    have h2 := Nat.lt_of_mul_lt_mul_right h
    omega

/-- The fraction is within half a grid step of `2^53`, the grid being half the last place
of the power of two `x`. -/
theorem rounds_half_grid (e0 Q D : Nat)
    (I1 : (2 ^ 54 - 1) * 2 ^ (e0 + 1) * D ≤ 4 * Q * 2 ^ e0) (hQ : Q < 2 ^ 53 * D) :
    2 * (2 ^ 53 * D) ≤ 2 * Q + D ∧ 2 * Q ≤ 2 * (2 ^ 53 * D) + D := by
  have hpe0 : 0 < 2 ^ e0 := Nat.two_pow_pos e0
  have h1 : (2 ^ 54 - 1) * 2 * D * 2 ^ e0 ≤ 4 * Q * 2 ^ e0 := by
    calc (2 ^ 54 - 1) * 2 * D * 2 ^ e0 = (2 ^ 54 - 1) * 2 ^ (e0 + 1) * D := by
          rw [pow_succ]; ring
      _ ≤ _ := I1
  have h2 := Nat.le_of_mul_le_mul_right h1 hpe0
  have h3 : (2 ^ 54 - 1) * 2 * D = 2 ^ 55 * D - 2 * D := by
    rw [Nat.mul_assoc, Nat.sub_mul]
    congr 1
    · ring
    · ring
  rw [h3] at h2
  constructor
  · omega
  · omega

theorem float64.below4_spec (x : float64) :
    4 * x.sig - 2 ≤ x.below4 ∧
      (x.sig = 2 ^ 52 → 2 ≤ x.exp → x.below4 = 2 ^ 54 - 1) := by
  have hsigdef : x.sig = if x.exp = 0 then x.frac else 2 ^ 52 + x.frac := rfl
  unfold float64.below4
  constructor
  · split <;> omega
  · intro h52 h2
    have hexp0 : ¬ x.exp = 0 := by omega
    rw [hsigdef, if_neg hexp0] at h52
    have hf : x.frac = 0 := by omega
    rw [if_pos ⟨hf, h2⟩, hsigdef, if_neg hexp0, hf]
    norm_num

theorem float64.denormal_scale (x : float64) : x.sig < 2 ^ 52 → x.scale = 0 := by
  have hsigdef : x.sig = if x.exp = 0 then x.frac else 2 ^ 52 + x.frac := rfl
  have hscale : x.scale = x.exp - 1 := rfl
  intro h
  by_cases h0 : x.exp = 0
  · omega
  · rw [hsigdef, if_neg h0] at h
    omega

/-- A fraction in the rounding interval of a finite `float64` other than zero rounds to
that `float64`. -/
theorem float64.ofRat_of_rounds (x : float64) (num den : Nat) (hfin : x.exp ≠ 2047)
    (hnz : x.sig ≠ 0) (hden : 0 < den) (h : x.rounds num den = true) :
    float64.ofRat x.sign num den = some x := by
  have hsig := x.sig_lt
  have hround := roundMag_sig_scale x hfin
  have hexplt := x.exp_lt
  obtain ⟨hb1, hb2⟩ := x.below4_spec
  have hnum : num ≠ 0 := by
    intro h0
    obtain ⟨hLO, _, _⟩ := (x.rounds_iff num den).1 h
    rw [h0, Nat.mul_zero, Nat.zero_mul] at hLO
    have : 0 < x.below4 * 2 ^ (x.scale - 1074) * den :=
      Nat.mul_pos (Nat.mul_pos (by omega) (Nat.two_pow_pos _)) hden
    omega
  obtain ⟨s, hs⟩ : ∃ s, s = 56 + bitLen den - bitLen num := ⟨_, rfl⟩
  obtain ⟨Q, hQ⟩ : ∃ Q, Q = num * 2 ^ s := ⟨_, rfl⟩
  obtain ⟨sh, hsh⟩ : ∃ sh, sh = max (bitLen (Q / den) - 53) (s - 1074) := ⟨_, rfl⟩
  obtain ⟨e0, he0⟩ : ∃ e0, e0 = sh + 1074 - s := ⟨_, rfl⟩
  obtain ⟨D, hD⟩ : ∃ D, D = den * 2 ^ sh := ⟨_, rfl⟩
  obtain ⟨hsh3, he0s, hDpos, hQD53, hreg⟩ :=
    ofRat_quotient num den s Q sh e0 D hnum hden hs hQ hsh he0 hD
  obtain ⟨I1, I2, I3⟩ := rounds_rescaled x num den s sh e0 Q D h he0s hQ hD
  obtain ⟨hK1, hK2, hK3⟩ := rounds_grid x.sig x.below4 x.scale e0 Q D hDpos hsig hb1
    x.denormal_scale I1 I2 hQD53 hreg
  have hscale : x.scale = x.exp - 1 := rfl
  have hmain : roundMag (roundShift (Q / den) (decide (Q % den ≠ 0)) sh) e0 =
      (x.exp, x.frac) := by
    rcases Nat.lt_or_ge e0 x.scale with hlt | hge
    · -- `x` is a power of two and the fraction lies just below it
      have hse : x.scale = e0 + 1 := by omega
      have hsig52 := hK3 hse
      have hlo54 := hb2 hsig52 (by omega)
      rw [hse, hlo54] at I1
      obtain ⟨g1, g2⟩ := rounds_half_grid e0 Q D I1 hQD53
      have hm : roundShift (Q / den) (decide (Q % den ≠ 0)) sh = 2 ^ 53 := by
        apply roundShift_eq Q den sh (2 ^ 53) hden (by omega)
        · rw [← hD]; exact g1
        · rw [← hD]; exact g2
        · intro hodd
          norm_num at hodd
      have hsigdef : x.sig = if x.exp = 0 then x.frac else 2 ^ 52 + x.frac := rfl
      have hfrac0 : x.frac = 0 := by
        have hexp0 : ¬ x.exp = 0 := by omega
        rw [hsigdef, if_neg hexp0] at hsig52
        omega
      have hexp : e0 + 2 = x.exp := by omega
      rw [hm, roundMag_two_pow_53 e0 (by omega), hfrac0, hexp]
    · have hse : x.scale = e0 := by omega
      have hs1 : 1 ≤ x.sig := Nat.pos_of_ne_zero hnz
      obtain ⟨g1, g2, g3, g4⟩ := rounds_same_grid x.sig x.below4 e0 Q D hs1 hb1
      rw [hse] at I1 I2 I3
      have hm : roundShift (Q / den) (decide (Q % den ≠ 0)) sh = x.sig := by
        apply roundShift_eq Q den sh x.sig hden (by omega)
        · rw [← hD]; exact g1 I1
        · rw [← hD]; exact g2 I2
        · intro hodd
          rw [← hD]
          exact ⟨g3 (I3 hodd).1, g4 (I3 hodd).2⟩
      rw [hm, ← hse, hround]
  have hbits : math.Float64frombits ((if x.sign = true then 2 ^ 63 else 0) + x.exp * 2 ^ 52 +
      x.frac) = x := math.Float64frombits_bits x
  simp only [float64.ofRat, hnum, if_false, ← hs, ← hQ, ← hsh, ← he0, hmain, hfin, hbits]

/-! ## The shortest decimal of a `float64` -/

theorem cross_compare (C V V2 den den2 : Nat) (hden : 0 < den) (hden2 : 0 < den2)
    (e : V2 * den = V * den2) :
    (C * den ≤ V → C * den2 ≤ V2) ∧ (V ≤ C * den → V2 ≤ C * den2) ∧
    (C * den < V → C * den2 < V2) ∧ (V < C * den → V2 < C * den2) := by
  have e1 : C * den2 * den = C * den * den2 := by ring
  refine ⟨?_, ?_, ?_, ?_⟩
  · intro h
    apply Nat.le_of_mul_le_mul_right _ hden
    rw [e1, e]
    exact Nat.mul_le_mul_right _ h
  · intro h
    apply Nat.le_of_mul_le_mul_right _ hden
    rw [e1, e]
    exact Nat.mul_le_mul_right _ h
  · intro h
    apply Nat.lt_of_mul_lt_mul_right (a := den)
    rw [e1, e]
    exact Nat.mul_lt_mul_of_pos_right h hden2
  · intro h
    apply Nat.lt_of_mul_lt_mul_right (a := den)
    rw [e1, e]
    exact Nat.mul_lt_mul_of_pos_right h hden2

/-- Whether a fraction is read as `x` depends on the fraction, not on how it is written. -/
theorem float64.rounds_congr (x : float64) (num den num2 den2 : Nat) (hden : 0 < den)
    (hden2 : 0 < den2) (heq : num * den2 = num2 * den) (h : x.rounds num den = true) :
    x.rounds num2 den2 = true := by
  obtain ⟨h1, h2, h3⟩ := (x.rounds_iff num den).1 h
  have e2 : 4 * num2 * 2 ^ (1074 - x.scale) * den = 4 * num * 2 ^ (1074 - x.scale) * den2 := by
    calc 4 * num2 * 2 ^ (1074 - x.scale) * den = 4 * 2 ^ (1074 - x.scale) * (num2 * den) := by
          ring
      _ = 4 * 2 ^ (1074 - x.scale) * (num * den2) := by rw [heq]
      _ = 4 * num * 2 ^ (1074 - x.scale) * den2 := by ring
  obtain ⟨a1, _, a3, _⟩ := cross_compare (x.below4 * 2 ^ (x.scale - 1074)) _ _ den den2 hden
    hden2 e2
  obtain ⟨_, b2, _, b4⟩ := cross_compare ((4 * x.sig + 2) * 2 ^ (x.scale - 1074)) _ _ den den2
    hden hden2 e2
  exact (x.rounds_iff num2 den2).2 ⟨a1 h1, b2 h2, fun hodd => ⟨a3 (h3 hodd).1, b4 (h3 hodd).2⟩⟩

theorem float64.rounds_num_ne_zero (x : float64) (num den : Nat) (hnz : x.sig ≠ 0)
    (hden : 0 < den) (h : x.rounds num den = true) : num ≠ 0 := by
  intro h0
  obtain ⟨hLO, _, _⟩ := (x.rounds_iff num den).1 h
  obtain ⟨hb1, _⟩ := x.below4_spec
  rw [h0, Nat.mul_zero, Nat.zero_mul] at hLO
  have : 0 < x.below4 * 2 ^ (x.scale - 1074) * den :=
    Nat.mul_pos (Nat.mul_pos (by omega) (Nat.two_pow_pos _)) hden
  omega

theorem pow10_rescale (P R a b x y : Nat) (h : a + y = b + x) :
    P * 10 ^ a ≤ R * 10 ^ b → P * 10 ^ x ≤ R * 10 ^ y := by
  have hb : 0 < 10 ^ b := Nat.pos_pow_of_pos _ (by decide)
  have e0 : 10 ^ x * 10 ^ b = 10 ^ a * 10 ^ y := by
    rw [← pow_add, ← pow_add]; congr 1; omega
  have e1 : P * 10 ^ x * 10 ^ b = P * 10 ^ a * 10 ^ y := by
    rw [Nat.mul_assoc, e0, Nat.mul_assoc]
  have e2 : R * 10 ^ y * 10 ^ b = R * 10 ^ b * 10 ^ y := by ring
  intro h1
  have := Nat.mul_le_mul_right (10 ^ y) h1
  rw [← e1, ← e2] at this
  exact Nat.le_of_mul_le_mul_right this hb

theorem expUp_spec (fuel a b k : Nat) (h : b * 10 ^ k ≤ a) :
    b * 10 ^ expUp fuel a b k ≤ a := by
  induction fuel generalizing k with
  | zero => exact h
  | succ fuel ih =>
    unfold expUp
    split
    · next h2 => exact ih (k + 1) h2
    · exact h

theorem expDown_spec (fuel a b k : Nat) (h : b ≤ a * 10 ^ (k + fuel)) :
    b ≤ a * 10 ^ expDown fuel a b k := by
  induction fuel generalizing k with
  | zero => exact h
  | succ fuel ih =>
    unfold expDown
    split
    · next h2 => exact h2
    · apply ih (k + 1)
      have : k + 1 + fuel = k + (fuel + 1) := by omega
      rw [this]
      exact h

/-- The decimal exponent is not above the fraction: `10^e ≤ a / b`. -/
theorem decimalExp_le (a b : Nat) (ha : 0 < a) (hb : b ≤ 10 ^ 401) :
    b * 10 ^ (decimalExp a b).toNat ≤ a * 10 ^ (-(decimalExp a b)).toNat := by
  unfold decimalExp
  by_cases hab : b ≤ a
  · rw [if_pos hab]
    have h1 := expUp_spec 400 a b 0 (by rw [pow_zero, Nat.mul_one]; exact hab)
    have e1 : ((expUp 400 a b 0 : Nat) : Int).toNat = expUp 400 a b 0 := Int.toNat_natCast _
    have e2 : (-((expUp 400 a b 0 : Nat) : Int)).toNat = 0 := by omega
    rw [e1, e2, pow_zero, Nat.mul_one]
    exact h1
  · rw [if_neg hab]
    have h0 : b ≤ a * 10 ^ (1 + 400) := by
      calc b ≤ 10 ^ 401 := hb
        _ = 1 * 10 ^ (1 + 400) := by rw [Nat.one_mul]
        _ ≤ a * 10 ^ (1 + 400) := Nat.mul_le_mul_right _ ha
    have h1 := expDown_spec 400 a b 1 h0
    have e1 : (-((expDown 400 a b 1 : Nat) : Int)).toNat = 0 := by omega
    have e2 : (- -((expDown 400 a b 1 : Nat) : Int)).toNat = expDown 400 a b 1 := by
      rw [neg_neg]; exact Int.toNat_natCast _
    rw [e1, e2, pow_zero, Nat.mul_one]
    exact h1

/-- A decimal within half a step of 17 digits of the magnitude of `x` lies in the
rounding interval of `x`. -/
theorem near_in_interval (sig lo4 U b2 MB : Nat) (hs1 : 1 ≤ sig) (hsig : sig < 2 ^ 53)
    (hb2 : 0 < b2) (h16 : 10 ^ 16 * b2 ≤ sig * U)
    (hlo : lo4 = 4 * sig - 2 ∨ (lo4 = 4 * sig - 1 ∧ sig = 2 ^ 52))
    (hn1 : 2 * MB ≤ 2 * (sig * U) + b2) (hn2 : 2 * (sig * U) ≤ 2 * MB + b2) :
    lo4 * U < 4 * MB ∧ 4 * MB < (4 * sig + 2) * U := by
  have e1 : (4 * sig + 2) * U = 4 * (sig * U) + 2 * U := by ring
  have hSU : U ≤ sig * U := Nat.le_mul_of_pos_left U hs1
  have hU : b2 < U := by
    by_contra hc
    have h1 : sig * U ≤ sig * b2 := Nat.mul_le_mul_left sig (by omega)
    have h2 : sig * b2 ≤ 2 ^ 53 * b2 := Nat.mul_le_mul_right b2 (by omega)
    omega
  rw [e1]
  rcases hlo with hlo | ⟨hlo, h52⟩
  · have e2 : lo4 * U = 4 * (sig * U) - 2 * U := by
      rw [hlo, Nat.sub_mul]; congr 1; ring
    rw [e2]
    omega
  · have e2 : lo4 * U = 4 * (sig * U) - U := by
      rw [hlo, Nat.sub_mul, Nat.one_mul]; congr 1; ring
    rw [e2]
    rw [h52] at h16 hn1 hn2 ⊢
    omega

theorem float64.below4_cases (x : float64) :
    x.below4 = 4 * x.sig - 2 ∨ (x.below4 = 4 * x.sig - 1 ∧ x.sig = 2 ^ 52) := by
  have hsigdef : x.sig = if x.exp = 0 then x.frac else 2 ^ 52 + x.frac := rfl
  unfold float64.below4
  by_cases h : x.frac = 0 ∧ 2 ≤ x.exp
  · right
    rw [if_pos h]
    refine ⟨rfl, ?_⟩
    have hexp0 : ¬ x.exp = 0 := by omega
    rw [hsigdef, if_neg hexp0, h.1]
    exact Nat.add_zero _
  · left
    rw [if_neg h]

theorem two_pow_le_ten_pow (B k : Nat) (h : B ≤ 3 * k) : 2 ^ B ≤ 10 ^ k := by
  calc 2 ^ B ≤ 2 ^ (3 * k) := Nat.pow_le_pow_right (by decide) h
    _ = (2 ^ 3) ^ k := pow_mul 2 3 k
    _ ≤ 10 ^ k := Nat.pow_le_pow_left (by decide) k

/-- The nearer of the two decimals of 17 digits next to a fraction is within half a step
of it. -/
theorem neighbours_head (a b : Nat) (e10 : Int) (p : Nat) (c : Nat × Int) (hb : 0 < b)
    (hc : (neighbours a b e10 p).head? = some c) :
    c.2 = -((p : Int) - 1 - e10) ∧
      2 * (c.1 * (b * 10 ^ (-((p : Int) - 1 - e10)).toNat)) ≤
        2 * (a * 10 ^ ((p : Int) - 1 - e10).toNat) +
          b * 10 ^ (-((p : Int) - 1 - e10)).toNat ∧
      2 * (a * 10 ^ ((p : Int) - 1 - e10).toNat) ≤
        2 * (c.1 * (b * 10 ^ (-((p : Int) - 1 - e10)).toNat)) +
          b * 10 ^ (-((p : Int) - 1 - e10)).toNat := by
  obtain ⟨j, hj⟩ : ∃ j : Int, j = (p : Int) - 1 - e10 := ⟨_, rfl⟩
  obtain ⟨a2, ha2⟩ : ∃ a2, a2 = a * 10 ^ j.toNat := ⟨_, rfl⟩
  obtain ⟨b2, hb2⟩ : ∃ b2, b2 = b * 10 ^ (-j).toNat := ⟨_, rfl⟩
  have hb2pos : 0 < b2 := by
    rw [hb2]; exact Nat.mul_pos hb (Nat.pos_pow_of_pos _ (by decide))
  have hdm := Nat.div_add_mod a2 b2
  have hmlt := Nat.mod_lt a2 hb2pos
  obtain ⟨n, hn⟩ : ∃ n, n = a2 / b2 := ⟨_, rfl⟩
  obtain ⟨r, hr⟩ : ∃ r, r = a2 % b2 := ⟨_, rfl⟩
  rw [← hn, ← hr] at hdm
  rw [← hr] at hmlt
  have hnb : n * b2 = b2 * n := Nat.mul_comm _ _
  unfold neighbours at hc
  simp only [← hj, ← ha2, ← hb2, ← hn, ← hr] at hc ⊢
  by_cases h0 : r = 0
  · rw [if_pos h0] at hc
    simp only [List.head?_cons, Option.some.injEq] at hc
    subst hc
    simp only
    refine ⟨trivial, ?_, ?_⟩ <;> omega
  · rw [if_neg h0] at hc
    by_cases h1 : 2 * r < b2 ∨ (2 * r = b2 ∧ n % 2 = 0)
    · rw [if_pos h1] at hc
      simp only [List.head?_cons, Option.some.injEq] at hc
      subst hc
      simp only
      refine ⟨trivial, ?_, ?_⟩ <;> omega
    · rw [if_neg h1] at hc
      simp only [List.head?_cons, Option.some.injEq] at hc
      subst hc
      simp only
      have e : (n + 1) * b2 = n * b2 + b2 := by ring
      rw [e]
      refine ⟨trivial, ?_, ?_⟩ <;> omega

/-- Seventeen digits always do: the nearest decimal of 17 digits is read as `x`. -/
theorem neighbours_17_rounds (x : float64) (hnz : x.sig ≠ 0) (c : Nat × Int)
    (hc : (neighbours (x.sig * 2 ^ (x.scale - 1074)) (2 ^ (1074 - x.scale))
      (decimalExp (x.sig * 2 ^ (x.scale - 1074)) (2 ^ (1074 - x.scale))) 17).head? = some c) :
    x.rounds (c.1 * 10 ^ c.2.toNat) (10 ^ (-c.2).toNat) = true := by
  have hsig := x.sig_lt
  have hs1 : 1 ≤ x.sig := Nat.pos_of_ne_zero hnz
  obtain ⟨a, ha⟩ : ∃ a, a = x.sig * 2 ^ (x.scale - 1074) := ⟨_, rfl⟩
  obtain ⟨b, hb⟩ : ∃ b, b = 2 ^ (1074 - x.scale) := ⟨_, rfl⟩
  rw [← ha, ← hb] at hc
  have hapos : 0 < a := by
    rw [ha]; exact Nat.mul_pos hs1 (Nat.two_pow_pos _)
  have hbpos : 0 < b := by
    rw [hb]; exact Nat.two_pow_pos _
  have hb401 : b ≤ 10 ^ 401 := by
    rw [hb]; exact two_pow_le_ten_pow _ 401 (by omega)
  have hdec := decimalExp_le a b hapos hb401
  obtain ⟨e10, he10⟩ : ∃ e10, e10 = decimalExp a b := ⟨_, rfl⟩
  rw [← he10] at hc hdec
  obtain ⟨hc2, hn1, hn2⟩ := neighbours_head a b e10 17 c hbpos hc
  obtain ⟨j, hj⟩ : ∃ j : Int, j = ((17 : Nat) : Int) - 1 - e10 := ⟨_, rfl⟩
  rw [← hj] at hc2 hn1 hn2
  obtain ⟨jp, hjp⟩ : ∃ jp, jp = j.toNat := ⟨_, rfl⟩
  obtain ⟨jn, hjn⟩ : ∃ jn, jn = (-j).toNat := ⟨_, rfl⟩
  rw [← hjp, ← hjn] at hn1 hn2
  have hc2a : c.2.toNat = jn := by rw [hc2, hjn]
  have hc2b : (-c.2).toNat = jp := by rw [hc2, neg_neg, hjp]
  rw [hc2a, hc2b]
  -- the fraction has 17 digits before the point when scaled
  have key1 : 10 ^ 16 * (b * 10 ^ jn) ≤ a * 10 ^ jp := by
    have := pow10_rescale b a e10.toNat (-e10).toNat (16 + jn) jp (by omega) hdec
    calc 10 ^ 16 * (b * 10 ^ jn) = b * 10 ^ (16 + jn) := by rw [pow_add]; ring
      _ ≤ _ := this
  obtain ⟨U, hU⟩ : ∃ U, U = 2 ^ (x.scale - 1074) * 10 ^ jp := ⟨_, rfl⟩
  have eaU : a * 10 ^ jp = x.sig * U := by rw [ha, hU]; ring
  rw [eaU] at key1 hn1 hn2
  obtain ⟨g1, g2⟩ := near_in_interval x.sig x.below4 U (b * 10 ^ jn) (c.1 * (b * 10 ^ jn)) hs1
    hsig (Nat.mul_pos hbpos (Nat.pos_pow_of_pos _ (by decide))) key1 x.below4_cases hn1 hn2
  have e1 : x.below4 * 2 ^ (x.scale - 1074) * 10 ^ jp = x.below4 * U := by
    rw [hU]; ring
  have e2 : 4 * (c.1 * 10 ^ jn) * 2 ^ (1074 - x.scale) = 4 * (c.1 * (b * 10 ^ jn)) := by
    rw [hb]; ring
  have e3 : (4 * x.sig + 2) * 2 ^ (x.scale - 1074) * 10 ^ jp = (4 * x.sig + 2) * U := by
    rw [hU]; ring
  apply (x.rounds_iff _ _).2
  rw [e1, e2, e3]
  exact ⟨Nat.le_of_lt g1, Nat.le_of_lt g2, fun _ => ⟨g1, g2⟩⟩

theorem isDigit_ne_45 {c : Nat} (h : isDigit c = true) : c ≠ 45 := by
  simp only [isDigit, Bool.and_eq_true, decide_eq_true_eq] at h
  omega

/-- A number literal starts with a digit or with a minus sign. -/
theorem lexNumber_head (t : Bytes) (p : NumLit × Bytes) (h : lexNumber t = some p) :
    ∃ c r, t = c :: r ∧ (isDigit c = true ∨ c = 45) := by
  cases t with
  | nil => simp [lexNumber, lexInt] at h
  | cons c r =>
    refine ⟨c, r, rfl, ?_⟩
    by_cases h45 : c = 45
    · exact Or.inr h45
    · left
      by_cases hd : isDigit c = true
      · exact hd
      · have h48 : c ≠ 48 := by
          intro hc
          subst hc
          exact hd (by decide)
        simp [lexNumber, h45, lexInt, h48, hd] at h

/-- A minus sign in front of a number literal only sets the sign. -/
theorem lexNumber_neg (c : Nat) (r : Bytes) (hc : isDigit c = true) :
    lexNumber (45 :: c :: r) =
      (lexNumber (c :: r)).map fun p => (⟨true, p.1.int, p.1.frac, p.1.expNeg, p.1.exp⟩, p.2) := by
  have h45 := isDigit_ne_45 hc
  have hneg : decide (some c = some 45) = false := by simp [h45]
  simp only [lexNumber, List.head?_cons, decide_True, if_true, List.tail_cons, hneg,
    Bool.false_eq_true, if_false]
  cases lexInt (c :: r) with
  | none => rfl
  | some p =>
    obtain ⟨ip, t2⟩ := p
    simp only
    cases lexFrac t2 with
    | none => rfl
    | some q =>
      obtain ⟨fp, t3⟩ := q
      simp only
      cases lexExp t3 with
      | none => rfl
      | some u => rfl

theorem lexDigits_all (ks : Bytes) (hne : ks ≠ []) (hdig : ∀ d ∈ ks, isDigit d = true) :
    lexDigits ks = some (ks, []) := by
  cases ks with
  | nil => exact absurd rfl hne
  | cons k kr =>
    have hk : isDigit k = true := hdig k (List.mem_cons_self k kr)
    have hr : ∀ d ∈ kr, isDigit d = true := fun d hd => hdig d (List.mem_cons_of_mem k hd)
    have htake : kr.takeWhile isDigit = kr := List.takeWhile_eq_self_iff.2 hr
    have hdrop : kr.dropWhile isDigit = [] := List.dropWhile_eq_nil_iff.2 hr
    simp [lexDigits, hk, htake, hdrop]


/-- What `parseFloat` reads, `json.Unmarshal` at `float64` reads too. -/
theorem jsonFloat64_of_parseFloat (t : Bytes) (x : float64) (h : parseFloat t = some x) :
    jsonFloat64.Unmarshal t = .ok x := by
  unfold parseFloat at h
  cases hl : lexNumber t with
  | none => simp [hl] at h
  | some p =>
    obtain ⟨lit, rest⟩ := p
    cases rest with
    | cons y ys => simp [hl] at h
    | nil =>
      simp only [hl] at h
      obtain ⟨c, r, ht, hc⟩ := lexNumber_head t _ hl
      subst ht
      obtain ⟨hv, hs, hk⟩ := checkValid_number c r lit hc hl
      simp only [jsonFloat64, hv, hs, hk, if_true, hl, Option.some_bind, h]

/-! ## The text of a decimal and what the lexer makes of it -/

theorem takeWhile_digits_append (r rest : Bytes) (hr : ∀ d ∈ r, isDigit d = true)
    (hrest : ∀ c t, rest = c :: t → isDigit c = false) :
    (r ++ rest).takeWhile isDigit = r ∧ (r ++ rest).dropWhile isDigit = rest := by
  have h1 : rest.takeWhile isDigit = [] := by
    cases rest with
    | nil => rfl
    | cons c t => exact List.takeWhile_cons_of_neg (by simp [hrest c t rfl])
  have h2 : rest.dropWhile isDigit = rest := by
    cases rest with
    | nil => rfl
    | cons c t => exact List.dropWhile_cons_of_neg (by simp [hrest c t rfl])
  constructor
  · rw [List.takeWhile_append_of_pos hr, h1, List.append_nil]
  · rw [List.dropWhile_append_of_pos hr, h2]

theorem lexInt_append (ip rest : Bytes) (hne : ip ≠ []) (hdig : ∀ d ∈ ip, isDigit d = true)
    (hhead : ip.head? = some 48 → ip = [48])
    (hrest : ∀ c t, rest = c :: t → isDigit c = false) :
    lexInt (ip ++ rest) = some (ip, rest) := by
  cases ip with
  | nil => exact absurd rfl hne
  | cons c r =>
    have hc : isDigit c = true := hdig c (List.mem_cons_self c r)
    have hr : ∀ d ∈ r, isDigit d = true := fun d hd => hdig d (List.mem_cons_of_mem c hd)
    by_cases h48 : c = 48
    · have := hhead (by simp [h48])
      have hr0 : r = [] := (by simpa using this : c = 48 ∧ r = []).2
      subst hr0
      subst h48
      rfl
    · obtain ⟨ht, hd⟩ := takeWhile_digits_append r rest hr hrest
      simp [lexInt, h48, hc, ht, hd]

theorem lexDigits_append (fp rest : Bytes) (hne : fp ≠ [])
    (hdig : ∀ d ∈ fp, isDigit d = true) (hrest : ∀ c t, rest = c :: t → isDigit c = false) :
    lexDigits (fp ++ rest) = some (fp, rest) := by
  cases fp with
  | nil => exact absurd rfl hne
  | cons c r =>
    have hc : isDigit c = true := hdig c (List.mem_cons_self c r)
    have hr : ∀ d ∈ r, isDigit d = true := fun d hd => hdig d (List.mem_cons_of_mem c hd)
    obtain ⟨ht, hd⟩ := takeWhile_digits_append r rest hr hrest
    simp [lexDigits, hc, ht, hd]

theorem lexFrac_part (fp rest : Bytes) (hdig : ∀ d ∈ fp, isDigit d = true)
    (hrest : ∀ c t, rest = c :: t → isDigit c = false ∧ c ≠ 46) :
    lexFrac ((if fp = [] then [] else 46 :: fp) ++ rest) = some (fp, rest) := by
  by_cases hf : fp = []
  · subst hf
    rw [if_pos rfl, List.nil_append]
    cases rest with
    | nil => rfl
    | cons c t =>
      have := (hrest c t rfl).2
      unfold lexFrac
      split
      · next r heq =>
        have : c = 46 := (List.cons.inj heq).1
        contradiction
      · rfl
  · rw [if_neg hf, List.cons_append]
    show lexDigits (fp ++ rest) = some (fp, rest)
    exact lexDigits_append fp rest hf hdig (fun c t h => (hrest c t h).1)

theorem lexExp_part (ep : Bytes) (sg : Nat) (hdig : ∀ d ∈ ep, isDigit d = true)
    (hsg : sg = 45 ∨ sg = 43) :
    lexExp (if ep = [] then [] else 101 :: sg :: ep) =
      some (decide (ep ≠ [] ∧ sg = 45), ep, []) := by
  by_cases he : ep = []
  · subst he
    simp [lexExp]
  · rw [if_neg he]
    have hl := lexDigits_all ep he hdig
    rcases hsg with h | h
    · subst h
      simp [lexExp, hl, he]
    · subst h
      simp [lexExp, hl, he]

/-- A text made of an integer part, a fraction and an exponent is lexed into these
parts. -/
theorem lexNumber_parts (ip fp ep : Bytes) (sg : Nat) (hne : ip ≠ [])
    (hdig : ∀ d ∈ ip, isDigit d = true) (hhead : ip.head? = some 48 → ip = [48])
    (hfdig : ∀ d ∈ fp, isDigit d = true) (hedig : ∀ d ∈ ep, isDigit d = true)
    (hsg : sg = 45 ∨ sg = 43) :
    lexNumber (ip ++ ((if fp = [] then [] else 46 :: fp) ++
        (if ep = [] then [] else 101 :: sg :: ep))) =
      some (⟨false, ip, fp, decide (ep ≠ [] ∧ sg = 45), ep⟩, []) := by
  have hexp : ∀ c t, (if ep = [] then [] else 101 :: sg :: ep) = c :: t →
      isDigit c = false ∧ c ≠ 46 := by
    intro c t h
    by_cases he : ep = []
    · rw [if_pos he] at h; cases h
    · rw [if_neg he] at h
      have : c = 101 := (List.cons.inj h).1.symm
      subst this
      exact ⟨by decide, by decide⟩
  have hrest : ∀ c t, (if fp = [] then [] else 46 :: fp) ++
      (if ep = [] then [] else 101 :: sg :: ep) = c :: t → isDigit c = false := by
    intro c t h
    by_cases hf : fp = []
    · rw [if_pos hf, List.nil_append] at h
      exact (hexp c t h).1
    · rw [if_neg hf, List.cons_append] at h
      have : c = 46 := (List.cons.inj h).1.symm
      subst this
      decide
  have hint := lexInt_append ip _ hne hdig hhead hrest
  have hfrac := lexFrac_part fp _ hfdig hexp
  have hex := lexExp_part ep sg hedig hsg
  cases ip with
  | nil => exact absurd rfl hne
  | cons c r =>
    have hc : isDigit c = true := hdig c (List.mem_cons_self c r)
    have h45 := isDigit_ne_45 hc
    have hneg : decide ((c :: r ++ ((if fp = [] then [] else 46 :: fp) ++
        (if ep = [] then [] else 101 :: sg :: ep))).head? = some 45) = false := by
      simp [h45]
    simp only [lexNumber, hneg, Bool.false_eq_true, if_false, hint, hfrac, hex]

theorem digitsVal_append (xs ys : Bytes) :
    digitsVal (xs ++ ys) = digitsVal xs * 10 ^ ys.length + digitsVal ys := by
  unfold digitsVal
  rw [List.foldl_append, digitsVal_foldl]
  rfl

theorem digitsVal_zeros (k : Nat) : digitsVal (List.replicate k 48) = 0 := by
  induction k with
  | zero => rfl
  | succ k ih =>
    have : List.replicate (k + 1) 48 = [48] ++ List.replicate k 48 := by
      simp [List.replicate_succ]
    have h48 : digitsVal [48] = 0 := rfl
    rw [this, digitsVal_append, ih, h48, Nat.zero_mul]

theorem digitsVal_append_zeros (xs : Bytes) (k : Nat) :
    digitsVal (xs ++ List.replicate k 48) = digitsVal xs * 10 ^ k := by
  rw [digitsVal_append, digitsVal_zeros, List.length_replicate, Nat.add_zero]

theorem digitsVal_zeros_append (xs : Bytes) (k : Nat) :
    digitsVal (List.replicate k 48 ++ xs) = digitsVal xs := by
  rw [digitsVal_append, digitsVal_zeros, Nat.zero_mul, Nat.zero_add]

theorem isDigit_zeros (k : Nat) : ∀ d ∈ List.replicate k 48, isDigit d = true := by
  intro d hd
  have : d = 48 := (List.mem_replicate.1 hd).2
  subst this
  decide

/-- The digits without the zeros at their end, and how many zeros there were. -/
theorem stripZeros_spec (ds : Bytes) (hne : ds ≠ []) (hhead : ds.head? ≠ some 48) :
    ∃ z, ds = stripZeros ds ++ List.replicate z 48 ∧ stripZeros ds ≠ [] ∧
      (stripZeros ds).head? = ds.head? := by
  obtain ⟨tk, htk⟩ : ∃ tk, tk = ds.reverse.takeWhile fun c => c == 48 := ⟨_, rfl⟩
  have hsplit : ds.reverse = tk ++ ds.reverse.dropWhile fun c => c == 48 := by
    rw [htk]; exact (List.takeWhile_append_dropWhile _ _).symm
  have htk48 : ∀ c ∈ tk, c = 48 := by
    intro c hc
    rw [htk] at hc
    have := List.mem_takeWhile_imp hc
    simpa using this
  have htkrep : tk.reverse = List.replicate tk.length 48 :=
    List.eq_replicate_iff.2 ⟨List.length_reverse tk, fun c hc => htk48 c (List.mem_reverse.1 hc)⟩
  have hds : ds = stripZeros ds ++ List.replicate tk.length 48 := by
    have := congrArg List.reverse hsplit
    rw [List.reverse_reverse, List.reverse_append, htkrep] at this
    exact this
  have hsne : stripZeros ds ≠ [] := by
    intro h0
    rw [h0, List.nil_append] at hds
    cases ds with
    | nil => exact hne rfl
    | cons c t =>
      apply hhead
      have hc : c ∈ List.replicate tk.length 48 := by
        rw [← hds]; exact List.mem_cons_self c t
      have : c = 48 := (List.mem_replicate.1 hc).2
      simp [this]
  refine ⟨tk.length, hds, hsne, ?_⟩
  cases hs : stripZeros ds with
  | nil => exact absurd hs hsne
  | cons c t =>
    rw [hs] at hds
    rw [hds]
    rfl

/-- The digits strconv writes for a number that is not zero: those of the number without
the zeros at the end. -/
theorem decimal_digits (n : Nat) (hn : n ≠ 0) :
    ∃ z, (formatUint n).length = (stripZeros (formatUint n)).length + z ∧
      digitsVal (stripZeros (formatUint n)) * 10 ^ z = n ∧
      stripZeros (formatUint n) ≠ [] ∧
      (∀ d ∈ stripZeros (formatUint n), isDigit d = true) ∧
      (stripZeros (formatUint n)).head? ≠ some 48 := by
  obtain ⟨hne, hdig, hhead, hval⟩ := formatUint_spec n
  have hh : (formatUint n).head? ≠ some 48 := fun h => hn (hhead h).2
  obtain ⟨z, hz, hsne, hsh⟩ := stripZeros_spec (formatUint n) hne hh
  refine ⟨z, ?_, ?_, hsne, ?_, ?_⟩
  · have := congrArg List.length hz
    rw [List.length_append, List.length_replicate] at this
    exact this
  · rw [← digitsVal_append_zeros, ← hz, hval]
  · intro d hd
    apply hdig d
    rw [hz]
    exact List.mem_append_left _ hd
  · rw [hsh]; exact hh

/-- The fraction a number literal denotes is its digits times a power of ten. -/
theorem NumLit.value (lit : NumLit) :
    0 < lit.den ∧
      lit.num * 10 ^ (-((if lit.expNeg then -(digitsVal lit.exp : Int)
          else (digitsVal lit.exp : Int)) - lit.frac.length)).toNat =
        digitsVal (lit.int ++ lit.frac) *
          10 ^ ((if lit.expNeg then -(digitsVal lit.exp : Int)
            else (digitsVal lit.exp : Int)) - lit.frac.length).toNat * lit.den := by
  have hp : ∀ k : Nat, 0 < 10 ^ k := fun k => Nat.pos_pow_of_pos _ (by decide)
  unfold NumLit.num NumLit.den
  cases hneg : lit.expNeg with
  | true =>
    simp only [if_true, Bool.true_eq_false, false_and, if_false]
    have e1 : (-(-(digitsVal lit.exp : Int) - (lit.frac.length : Int))).toNat =
        digitsVal lit.exp + lit.frac.length := by omega
    have e2 : (-(digitsVal lit.exp : Int) - (lit.frac.length : Int)).toNat = 0 := by omega
    rw [e1, e2, pow_zero, Nat.mul_one]
    exact ⟨hp _, rfl⟩
  | false =>
    simp only [Bool.false_eq_true, if_false, true_and]
    by_cases hle : lit.frac.length ≤ digitsVal lit.exp
    · rw [if_pos hle, if_pos hle]
      have e1 : (-((digitsVal lit.exp : Int) - (lit.frac.length : Int))).toNat = 0 := by omega
      have e2 : ((digitsVal lit.exp : Int) - (lit.frac.length : Int)).toNat =
          digitsVal lit.exp - lit.frac.length := by omega
      rw [e1, e2, pow_zero, Nat.mul_one]
      exact ⟨by decide, rfl⟩
    · rw [if_neg hle, if_neg hle]
      have e1 : (-((digitsVal lit.exp : Int) - (lit.frac.length : Int))).toNat =
          lit.frac.length - digitsVal lit.exp := by omega
      have e2 : ((digitsVal lit.exp : Int) - (lit.frac.length : Int)).toNat = 0 := by omega
      rw [e1, e2, pow_zero, Nat.mul_one]
      exact ⟨hp _, rfl⟩

/-- Two decimals with the same digits up to zeros at the end and matching exponents are
equal. -/
theorem decimal_eq (D z pad : Nat) (e k : Int) (h : (z : Int) + e = pad + k) :
    D * 10 ^ z * 10 ^ e.toNat * 10 ^ (-k).toNat =
      D * 10 ^ pad * 10 ^ k.toNat * 10 ^ (-e).toNat := by
  have : z + e.toNat + (-k).toNat = pad + k.toNat + (-e).toNat := by omega
  calc D * 10 ^ z * 10 ^ e.toNat * 10 ^ (-k).toNat
      = D * 10 ^ (z + e.toNat + (-k).toNat) := by rw [pow_add, pow_add]; ring
    _ = D * 10 ^ (pad + k.toNat + (-e).toNat) := by rw [this]
    _ = D * 10 ^ pad * 10 ^ k.toNat * 10 ^ (-e).toNat := by rw [pow_add, pow_add]; ring

/-- The fraction of a literal that denotes the decimal `n * 10^e`. -/
theorem literal_cross (n d : Nat) (e k : Int) (num den : Nat)
    (hval : num * 10 ^ (-k).toNat = d * 10 ^ k.toNat * den)
    (hdec : n * 10 ^ e.toNat * 10 ^ (-k).toNat = d * 10 ^ k.toNat * 10 ^ (-e).toNat) :
    n * 10 ^ e.toNat * den = num * 10 ^ (-e).toNat := by
  have hp : 0 < 10 ^ (-k).toNat := Nat.pos_pow_of_pos _ (by decide)
  apply Nat.eq_of_mul_eq_mul_right hp
  calc n * 10 ^ e.toNat * den * 10 ^ (-k).toNat
      = n * 10 ^ e.toNat * 10 ^ (-k).toNat * den := by ring
    _ = d * 10 ^ k.toNat * 10 ^ (-e).toNat * den := by rw [hdec]
    _ = d * 10 ^ k.toNat * den * 10 ^ (-e).toNat := by ring
    _ = num * 10 ^ (-k).toNat * 10 ^ (-e).toNat := by rw [hval]
    _ = num * 10 ^ (-e).toNat * 10 ^ (-k).toNat := by ring

/-- The format `e` of a decimal is lexed into the first digit, the other digits and the
exponent. -/
theorem fmtE_lex (ds : Bytes) (dp : Int) (hne : ds ≠ [])
    (hdig : ∀ d ∈ ds, isDigit d = true) (hhead : ds.head? ≠ some 48) :
    ∃ (lit : NumLit) (pad : Nat), lexNumber (fmtE false ds dp) = some (lit, []) ∧ lit.neg = false ∧
      digitsVal (lit.int ++ lit.frac) = digitsVal ds * 10 ^ pad ∧
      ((pad : Nat) : Int) + ((if lit.expNeg then -(digitsVal lit.exp : Int)
        else (digitsVal lit.exp : Int)) - lit.frac.length) = dp - ds.length := by
  obtain ⟨sg, hsg⟩ : ∃ sg, sg = if dp - 1 < 0 then 45 else 43 := ⟨_, rfl⟩
  obtain ⟨hene, hedig, _, heval⟩ := formatUint_spec (dp - 1).natAbs
  have hsg2 : sg = 45 ∨ sg = 43 := by
    rw [hsg]; split
    · left; rfl
    · right; rfl
  have hlen : 0 < ds.length := List.length_pos.2 hne
  have htake : ds.take 1 ≠ [] := by
    cases ds with
    | nil => exact absurd rfl hne
    | cons c t => simp
  have htdig : ∀ d ∈ ds.take 1, isDigit d = true :=
    fun d hd => hdig d (List.mem_of_mem_take hd)
  have hthead : (ds.take 1).head? = some 48 → ds.take 1 = [48] := by
    intro h
    exfalso
    apply hhead
    cases ds with
    | nil => exact absurd rfl hne
    | cons c t => simpa using h
  have hddig : ∀ d ∈ ds.drop 1, isDigit d = true :=
    fun d hd => hdig d (List.mem_of_mem_drop hd)
  have hshape : fmtE false ds dp = ds.take 1 ++ ((if ds.drop 1 = [] then [] else 46 :: ds.drop 1) ++
      (if formatUint (dp - 1).natAbs = [] then [] else 101 :: sg :: formatUint (dp - 1).natAbs)) := by
    unfold fmtE
    rw [if_neg hene, ← hsg]
    have h1 : (if 1 < ds.length then 46 :: ds.drop 1 else []) =
        (if ds.drop 1 = [] then [] else 46 :: ds.drop 1) := by
      by_cases h : 1 < ds.length
      · have : ds.drop 1 ≠ [] := by
          intro h0
          have := List.drop_eq_nil_iff.1 h0
          omega
        rw [if_pos h, if_neg this]
      · have : ds.drop 1 = [] := List.drop_eq_nil_iff.2 (by omega)
        rw [if_neg h, if_pos this]
    rw [h1]
    simp only [Bool.false_eq_true, if_false, List.nil_append, List.append_assoc]
  have hlex := lexNumber_parts (ds.take 1) (ds.drop 1) (formatUint (dp - 1).natAbs) sg htake
    htdig hthead hddig hedig hsg2
  rw [← hshape] at hlex
  refine ⟨_, 0, hlex, rfl, ?_, ?_⟩
  · simp only [List.take_append_drop, pow_zero, Nat.mul_one]
  · simp only [heval, List.length_drop]
    by_cases hneg : dp - 1 < 0
    · have hs45 : sg = 45 := by rw [hsg, if_pos hneg]
      have : decide (formatUint (dp - 1).natAbs ≠ [] ∧ sg = 45) = true := by
        simp [hene, hs45]
      rw [this]
      simp only [if_true]
      omega
    · have hs43 : sg = 43 := by rw [hsg, if_neg hneg]
      have : decide (formatUint (dp - 1).natAbs ≠ [] ∧ sg = 45) = false := by
        simp [hs43]
      rw [this]
      simp only [Bool.false_eq_true, if_false]
      omega

/-- The format `f` of a decimal is lexed into an integer part and a fraction. -/
theorem fmtF_lex (ds : Bytes) (dp : Int) (hne : ds ≠ [])
    (hdig : ∀ d ∈ ds, isDigit d = true) (hhead : ds.head? ≠ some 48) :
    ∃ (lit : NumLit) (pad : Nat), lexNumber (fmtF false ds dp) = some (lit, []) ∧ lit.neg = false ∧
      digitsVal (lit.int ++ lit.frac) = digitsVal ds * 10 ^ pad ∧
      ((pad : Nat) : Int) + ((if lit.expNeg then -(digitsVal lit.exp : Int)
        else (digitsVal lit.exp : Int)) - lit.frac.length) = dp - ds.length := by
  have hlen : 0 < ds.length := List.length_pos.2 hne
  have hnoexp : decide (([] : Bytes) ≠ [] ∧ (43 : Nat) = 45) = false := by decide
  have hnil : ∀ d ∈ ([] : Bytes), isDigit d = true := fun d hd => by cases hd
  have hE : digitsVal ([] : Bytes) = 0 := rfl
  by_cases h1 : dp ≤ 0
  · -- `0.` and zeros before the digits
    obtain ⟨fp, hfp⟩ : ∃ fp, fp = List.replicate (-dp).toNat 48 ++ ds := ⟨_, rfl⟩
    have hfne : fp ≠ [] := by
      rw [hfp]; intro h
      exact hne (List.append_eq_nil.1 h).2
    have hfdig : ∀ d ∈ fp, isDigit d = true := by
      intro d hd
      rw [hfp] at hd
      rcases List.mem_append.1 hd with h | h
      · exact isDigit_zeros _ d h
      · exact hdig d h
    have hshape : fmtF false ds dp = [48] ++ ((if fp = [] then [] else 46 :: fp) ++
        (if ([] : Bytes) = [] then [] else 101 :: 43 :: [])) := by
      unfold fmtF
      rw [if_pos h1, if_neg hfne, if_pos rfl, ← hfp]
      simp
    have hlex := lexNumber_parts [48] fp [] 43 (by simp) (by simp; decide) (fun _ => rfl)
      hfdig hnil (Or.inr rfl)
    rw [← hshape, hnoexp] at hlex
    refine ⟨_, 0, hlex, rfl, ?_, ?_⟩
    · simp only [pow_zero, Nat.mul_one]
      have h48 : digitsVal [48] = 0 := rfl
      rw [digitsVal_append, h48, Nat.zero_mul, Nat.zero_add, hfp, digitsVal_zeros_append]
    · simp only [Bool.false_eq_true, if_false, hE, hfp, List.length_append,
        List.length_replicate]
      omega
  · rw [show fmtF false ds dp = (if ds.length ≤ dp.toNat then
        ds ++ List.replicate (dp.toNat - ds.length) 48
        else ds.take dp.toNat ++ 46 :: ds.drop dp.toNat) from by
      unfold fmtF
      rw [if_neg h1]
      simp]
    by_cases h2 : ds.length ≤ dp.toNat
    · -- a whole number, with zeros after the digits
      rw [if_pos h2]
      obtain ⟨ip, hip⟩ : ∃ ip, ip = ds ++ List.replicate (dp.toNat - ds.length) 48 := ⟨_, rfl⟩
      have hipne : ip ≠ [] := by
        rw [hip]; intro h
        exact hne (List.append_eq_nil.1 h).1
      have hipdig : ∀ d ∈ ip, isDigit d = true := by
        intro d hd
        rw [hip] at hd
        rcases List.mem_append.1 hd with h | h
        · exact hdig d h
        · exact isDigit_zeros _ d h
      have hiphead : ip.head? = some 48 → ip = [48] := by
        intro h
        exfalso
        apply hhead
        cases ds with
        | nil => exact absurd rfl hne
        | cons c t =>
          rw [hip] at h
          simpa using h
      have hshape : ip = ip ++ ((if ([] : Bytes) = [] then [] else 46 :: []) ++
          (if ([] : Bytes) = [] then [] else 101 :: 43 :: [])) := by simp
      have hlex := lexNumber_parts ip [] [] 43 hipne hipdig hiphead hnil hnil (Or.inr rfl)
      rw [← hshape, hnoexp] at hlex
      rw [← hip]
      refine ⟨_, dp.toNat - ds.length, hlex, rfl, ?_, ?_⟩
      · simp only [List.append_nil]
        rw [hip, digitsVal_append_zeros]
      · simp only [Bool.false_eq_true, if_false, hE, List.length_nil]
        omega
    · -- the point inside the digits
      rw [if_neg h2]
      have h3 : 0 < dp.toNat := by omega
      have htake : ds.take dp.toNat ≠ [] := by
        cases ds with
        | nil => exact absurd rfl hne
        | cons c t =>
          cases hd : dp.toNat with
          | zero => omega
          | succ m => simp
      have htdig : ∀ d ∈ ds.take dp.toNat, isDigit d = true :=
        fun d hd => hdig d (List.mem_of_mem_take hd)
      have hthead : (ds.take dp.toNat).head? = some 48 → ds.take dp.toNat = [48] := by
        intro h
        exfalso
        apply hhead
        cases ds with
        | nil => exact absurd rfl hne
        | cons c t =>
          cases hd : dp.toNat with
          | zero => omega
          | succ m =>
            rw [hd] at h
            simpa using h
      have hddig : ∀ d ∈ ds.drop dp.toNat, isDigit d = true :=
        fun d hd => hdig d (List.mem_of_mem_drop hd)
      have hdne : ds.drop dp.toNat ≠ [] := by
        intro h0
        have := List.drop_eq_nil_iff.1 h0
        omega
      have hshape : ds.take dp.toNat ++ 46 :: ds.drop dp.toNat = ds.take dp.toNat ++
          ((if ds.drop dp.toNat = [] then [] else 46 :: ds.drop dp.toNat) ++
          (if ([] : Bytes) = [] then [] else 101 :: 43 :: [])) := by
        rw [if_neg hdne, if_pos rfl, List.append_nil]
      have hlex := lexNumber_parts (ds.take dp.toNat) (ds.drop dp.toNat) [] 43 htake htdig
        hthead hddig hnil (Or.inr rfl)
      rw [← hshape, hnoexp] at hlex
      refine ⟨_, 0, hlex, rfl, ?_, ?_⟩
      · simp only [List.take_append_drop, pow_zero, Nat.mul_one]
      · simp only [Bool.false_eq_true, if_false, hE, List.length_drop]
        omega

theorem lexNumber_neg_field (t : Bytes) (lit : NumLit) (rest : Bytes)
    (h : lexNumber t = some (lit, rest)) : lit.neg = decide (t.head? = some 45) := by
  unfold lexNumber at h
  simp only at h
  cases hi : lexInt (if decide (t.head? = some 45) = true then t.tail else t) with
  | none => rw [hi] at h; simp at h
  | some p =>
    rw [hi] at h
    obtain ⟨ip, t2⟩ := p
    simp only at h
    cases hf : lexFrac t2 with
    | none => rw [hf] at h; simp at h
    | some q =>
      rw [hf] at h
      obtain ⟨fp, t3⟩ := q
      simp only at h
      cases hx : lexExp t3 with
      | none => rw [hx] at h; simp at h
      | some u =>
        rw [hx] at h
        obtain ⟨en, ep, t4⟩ := u
        simp only [Option.some.injEq, Prod.mk.injEq] at h
        rw [← h.1]

theorem fmtE_sign (neg : bool) (ds : Bytes) (dp : Int) :
    fmtE neg ds dp = (if neg then [45] else []) ++ fmtE false ds dp := by
  unfold fmtE
  simp only [Bool.false_eq_true, if_false, List.nil_append, List.append_assoc]

theorem fmtF_sign (neg : bool) (ds : Bytes) (dp : Int) :
    fmtF neg ds dp = (if neg then [45] else []) ++ fmtF false ds dp := by
  unfold fmtF
  simp only [Bool.false_eq_true, if_false, List.nil_append]

theorem decimalText_sign (fmt : Nat) (neg : bool) (n : Nat) (e : Int) :
    decimalText fmt neg n e = (if neg then [45] else []) ++ decimalText fmt false n e := by
  unfold decimalText
  simp only
  split
  · exact fmtE_sign _ _ _
  · exact fmtF_sign _ _ _

/-- The text of the decimal `n * 10^e` is a JSON number that denotes `n * 10^e`. -/
theorem decimalText_lex (fmt : Nat) (neg : bool) (n : Nat) (e : Int) (hn : n ≠ 0) :
    ∃ lit, lexNumber (decimalText fmt neg n e) = some (lit, []) ∧ lit.neg = neg ∧
      0 < lit.den ∧ n * 10 ^ e.toNat * lit.den = lit.num * 10 ^ (-e).toNat := by
  obtain ⟨z, hzlen, hzval, hsne, hsdig, hshead⟩ := decimal_digits n hn
  -- the text without its sign
  have hbody : ∃ (lit : NumLit) (pad : Nat),
      lexNumber (decimalText fmt false n e) = some (lit, []) ∧ lit.neg = false ∧
      digitsVal (lit.int ++ lit.frac) = digitsVal (stripZeros (formatUint n)) * 10 ^ pad ∧
      ((pad : Nat) : Int) + ((if lit.expNeg then -(digitsVal lit.exp : Int)
        else (digitsVal lit.exp : Int)) - lit.frac.length) =
        ((formatUint n).length : Int) + e - (stripZeros (formatUint n)).length := by
    unfold decimalText
    simp only
    split
    · exact fmtE_lex _ _ hsne hsdig hshead
    · exact fmtF_lex _ _ hsne hsdig hshead
  obtain ⟨lit, pad, hlex, hneg, hd, hk⟩ := hbody
  obtain ⟨k, hkdef⟩ : ∃ k : Int, k = (if lit.expNeg then -(digitsVal lit.exp : Int)
      else (digitsVal lit.exp : Int)) - lit.frac.length := ⟨_, rfl⟩
  obtain ⟨hden, hval⟩ := lit.value
  rw [← hkdef] at hval hk
  rw [hd] at hval
  have hzk : (z : Int) + e = pad + k := by omega
  have hdec := decimal_eq (digitsVal (stripZeros (formatUint n))) z pad e k hzk
  rw [hzval] at hdec
  have hcross := literal_cross n _ e k lit.num lit.den hval hdec
  cases neg with
  | false => exact ⟨lit, hlex, hneg, hden, hcross⟩
  | true =>
    rw [decimalText_sign]
    simp only [if_true, List.singleton_append]
    obtain ⟨c, r, hcr, hc⟩ := lexNumber_head _ _ hlex
    have h45 : c ≠ 45 := by
      intro h45
      have := lexNumber_neg_field _ _ _ hlex
      rw [hneg, hcr, h45] at this
      simp at this
    have hcd : isDigit c = true := by
      rcases hc with hc | hc
      · exact hc
      · exact absurd hc h45
    rw [hcr] at hlex ⊢
    rw [lexNumber_neg c r hcd, hlex]
    exact ⟨_, rfl, rfl, hden, hcross⟩

/-- A decimal in the rounding interval of `x`, written in either format, is read back as
`x`. -/
theorem parseFloat_decimalText (x : float64) (fmt n : Nat) (e : Int) (hfin : x.exp ≠ 2047)
    (hnz : x.sig ≠ 0) (h : x.rounds (n * 10 ^ e.toNat) (10 ^ (-e).toNat) = true) :
    parseFloat (decimalText fmt x.sign n e) = some x := by
  have hp : 0 < 10 ^ (-e).toNat := Nat.pos_pow_of_pos _ (by decide)
  have hn : n ≠ 0 := by
    intro h0
    apply x.rounds_num_ne_zero _ _ hnz hp h
    rw [h0, Nat.zero_mul]
  obtain ⟨lit, hlex, hneg, hden, hcross⟩ := decimalText_lex fmt x.sign n e hn
  have hr := x.rounds_congr _ _ lit.num lit.den hp hden hcross h
  have := x.ofRat_of_rounds lit.num lit.den hfin hnz hden hr
  unfold parseFloat
  rw [hlex]
  simp only [parseFloatLit, hneg, this]

/-- The digits chosen for `x` denote a decimal that is read back as `x`. -/
theorem shortestDecimal_rounds (x : float64) (hnz : x.sig ≠ 0) :
    x.rounds ((shortestDecimal x).1 * 10 ^ (shortestDecimal x).2.toNat)
      (10 ^ (-(shortestDecimal x).2).toNat) = true := by
  unfold shortestDecimal
  simp only
  split
  · next c hfind =>
    have := List.find?_some hfind
    exact this
  · next hfind =>
    cases hh : (neighbours (x.sig * 2 ^ (x.scale - 1074)) (2 ^ (1074 - x.scale))
        (decimalExp (x.sig * 2 ^ (x.scale - 1074)) (2 ^ (1074 - x.scale))) 17).head? with
    | none =>
      exfalso
      unfold neighbours at hh
      simp only at hh
      split at hh
      · simp at hh
      · split at hh <;> simp at hh
    | some c =>
      have hc := neighbours_17_rounds x hnz c hh
      have hd : (neighbours (x.sig * 2 ^ (x.scale - 1074)) (2 ^ (1074 - x.scale))
          (decimalExp (x.sig * 2 ^ (x.scale - 1074)) (2 ^ (1074 - x.scale))) 17).headD (0, 0) =
          c := by
        rw [List.headD_eq_head?_getD, hh]
        rfl
      rw [hd]
      exact hc

theorem float64.finite_exp (x : float64) (hinf : x.isInf = false) (hnan : x.isNaN = false) :
    x.exp ≠ 2047 := by
  intro h
  by_cases hf : x.frac = 0
  · simp [float64.isInf, h, hf] at hinf
  · simp [float64.isNaN, h, hf] at hnan

theorem float64.sig_ne_zero (x : float64) (hz : x.isZero = false) : x.sig ≠ 0 := by
  unfold float64.sig
  by_cases h0 : x.exp = 0
  · have : x.frac ≠ 0 := by
      intro hf
      simp [float64.isZero, h0, hf] at hz
    simpa [h0] using this
  · simp only [h0, if_false]
    have : 0 < 2 ^ 52 := Nat.two_pow_pos 52
    omega

/-- The text the encoder writes for a finite `float64` is read back by the decoder as the
same `float64`. -/
theorem jsonFloat64_round_trip (x : float64) (hinf : x.isInf = false) (hnan : x.isNaN = false) :
    ∃ bs, floatEncoder x = .ok bs ∧ jsonFloat64.Unmarshal bs = .ok x := by
  have hfin := x.finite_exp hinf hnan
  have hnot : (x.isInf || x.isNaN) = false := by simp [hinf, hnan]
  by_cases hz : x.isZero = true
  · obtain ⟨s, e, m, he, hm⟩ := x
    have hem : e = 0 ∧ m = 0 := by simpa [float64.isZero] using hz
    obtain ⟨h1, h2⟩ := hem
    subst h1
    subst h2
    cases s
    · refine ⟨[48], ?_, ?_⟩
      · simp only [floatEncoder, hnot, hz, Bool.false_eq_true, if_false, if_true]
      · have : jsonFloat64.Unmarshal [48] = .ok posZero := by decide
        rw [this]
        rfl
    · refine ⟨[45, 48], ?_, ?_⟩
      · simp only [floatEncoder, hnot, hz, Bool.false_eq_true, if_false, if_true]
      · have : jsonFloat64.Unmarshal [45, 48] = .ok negZero := by decide
        rw [this]
        rfl
  · have hz2 : x.isZero = false := by simpa using hz
    have hnz := x.sig_ne_zero hz2
    refine ⟨decimalText (floatFmt x) x.sign (shortestDecimal x).1 (shortestDecimal x).2, ?_, ?_⟩
    · simp only [floatEncoder, hnot, hz2, Bool.false_eq_true, if_false]
    · exact jsonFloat64_of_parseFloat _ x
        (parseFloat_decimalText x _ _ _ hfin hnz (shortestDecimal_rounds x hnz))

/-! ## C1: Load after New and after Store -/

/-- C1: for Bool, Int64, Uint32, Uintptr and Duration, `NewX(v).Load()` is `v`,
and from every cell state `Store(v)` followed by `Load()` gives `v`. -/
theorem C1_load_after_new_and_store :
    (∀ v : bool, (NewBool v).Load = v) ∧
    (∀ (b : Bool) (v : bool), (b.Store v).Load = v) ∧
    (∀ v : int64, (NewInt64 v).Load = v) ∧
    (∀ (i : Int64) (v : int64), (i.Store v).Load = v) ∧
    (∀ v : uint32, (NewUint32 v).Load = v) ∧
    (∀ (i : Uint32) (v : uint32), (i.Store v).Load = v) ∧
    (∀ v : uintptr, (NewUintptr v).Load = v) ∧
    (∀ (i : Uintptr) (v : uintptr), (i.Store v).Load = v) ∧
    (∀ v : time.Duration, (NewDuration v).Load = v) ∧
    (∀ (d : Duration) (v : time.Duration), (d.Store v).Load = v) := by
  refine ⟨?_, ?_, ?_, ?_, ?_, ?_, ?_, ?_, ?_, ?_⟩
  · intro v; exact truthy_boolToInt v
  · intro b v; exact truthy_boolToInt v
  all_goals intros; rfl

/-! ## C2: compare-and-swap -/

/-- C2: for Bool, Int64, Uint32, Uintptr and Duration, `CAS(old, new)` on a cell
holding `cur` returns true exactly when `cur = old`; when it does the cell holds
`new` afterwards, and otherwise the cell is unchanged.  In particular
`CAS(x, x)` on a cell holding `x` returns true and the cell still holds `x`. -/
theorem C2_cas :
    (∀ (b : Bool) (old new : bool), b.valid →
      ((b.CAS old new).1 = true ↔ b.Load = old) ∧
      (b.Load = old → (b.CAS old new).1 = true ∧ (b.CAS old new).2.Load = new) ∧
      (b.Load ≠ old → (b.CAS old new).1 = false ∧ (b.CAS old new).2 = b) ∧
      ((b.CAS b.Load b.Load).1 = true ∧ (b.CAS b.Load b.Load).2.Load = b.Load)) ∧
    (∀ (i : Int64) (old new : int64),
      ((i.CAS old new).1 = true ↔ i.Load = old) ∧
      (i.Load = old → (i.CAS old new).1 = true ∧ (i.CAS old new).2.Load = new) ∧
      (i.Load ≠ old → (i.CAS old new).1 = false ∧ (i.CAS old new).2 = i) ∧
      ((i.CAS i.Load i.Load).1 = true ∧ (i.CAS i.Load i.Load).2.Load = i.Load)) ∧
    (∀ (i : Uint32) (old new : uint32),
      ((i.CAS old new).1 = true ↔ i.Load = old) ∧
      (i.Load = old → (i.CAS old new).1 = true ∧ (i.CAS old new).2.Load = new) ∧
      (i.Load ≠ old → (i.CAS old new).1 = false ∧ (i.CAS old new).2 = i) ∧
      ((i.CAS i.Load i.Load).1 = true ∧ (i.CAS i.Load i.Load).2.Load = i.Load)) ∧
    (∀ (i : Uintptr) (old new : uintptr),
      ((i.CAS old new).1 = true ↔ i.Load = old) ∧
      (i.Load = old → (i.CAS old new).1 = true ∧ (i.CAS old new).2.Load = new) ∧
      (i.Load ≠ old → (i.CAS old new).1 = false ∧ (i.CAS old new).2 = i) ∧
      ((i.CAS i.Load i.Load).1 = true ∧ (i.CAS i.Load i.Load).2.Load = i.Load)) ∧
    (∀ (d : Duration) (old new : time.Duration),
      ((d.CAS old new).1 = true ↔ d.Load = old) ∧
      (d.Load = old → (d.CAS old new).1 = true ∧ (d.CAS old new).2.Load = new) ∧
      (d.Load ≠ old → (d.CAS old new).1 = false ∧ (d.CAS old new).2 = d) ∧
      ((d.CAS d.Load d.Load).1 = true ∧ (d.CAS d.Load d.Load).2.Load = d.Load)) := by
  refine ⟨?_, ?_, ?_, ?_, ?_⟩
  · intro b old new hb
    have hraw := Bool.raw_eq_of_valid hb
    have key : ∀ o n : bool, b.Load = o →
        (b.CAS o n).1 = true ∧ (b.CAS o n).2.Load = n := by
      intro o n ho
      have : b.v = boolToInt o := by rw [hraw, ho]
      simp [Bool.CAS, CompareAndSwapUint32, this, Bool.Load, LoadUint32, truthy_boolToInt]
    have key2 : b.Load ≠ old → (b.CAS old new).1 = false ∧ (b.CAS old new).2 = b := by
      intro hne
      have : b.v ≠ boolToInt old := by
        intro h
        rw [hraw] at h
        exact hne (boolToInt_injective h)
      simp [Bool.CAS, CompareAndSwapUint32, this]
    refine ⟨⟨?_, fun h => (key old new h).1⟩, key old new, key2, key _ _ rfl⟩
    intro h
    by_contra hne
    rw [(key2 hne).1] at h
    exact absurd h (by decide)
  · intro i old new
    obtain ⟨v⟩ := i
    simp only [Int64.CAS, CompareAndSwapInt64, Int64.Load, LoadInt64]
    by_cases h : v = old <;> simp [h]
  · intro i old new
    obtain ⟨v⟩ := i
    simp only [Uint32.CAS, CompareAndSwapUint32, Uint32.Load, LoadUint32]
    by_cases h : v = old <;> simp [h]
  · intro i old new
    obtain ⟨⟨v⟩⟩ := i
    simp only [Uintptr.CAS, Uintptr.CompareAndSwap, SyncUintptr.CompareAndSwap, Uintptr.Load,
      SyncUintptr.Load]
    by_cases h : v = old <;> simp [h]
  · intro d old new
    obtain ⟨⟨v⟩⟩ := d
    simp only [Duration.CAS, Int64.CAS, CompareAndSwapInt64, Duration.Load, Int64.Load,
      LoadInt64, time.Duration.toInt64, time.Duration.ofInt64]
    by_cases h : v = old <;> simp [h]

/-- Witness of C2 on a `Bool` holding true: the raw field is 1, `CAS(true, false)`
swaps and `CAS(false, true)` does not. -/
theorem C2_cas_witness :
    (NewBool true).valid ∧
    (((NewBool true).CAS true false).1 = true ∧ ((NewBool true).CAS true false).2.Load = false) ∧
    (((NewBool true).CAS false true).1 = false ∧
      ((NewBool true).CAS false true).2 = NewBool true) :=
  ⟨by decide,
   (C2_cas.1 (NewBool true) true false (by decide)).2.1 (by decide),
   (C2_cas.1 (NewBool true) false true (by decide)).2.2.1 (by decide)⟩

/-! ## C3: Swap -/

/-- C3: for Bool, Int64, Uint32, Uintptr and Duration, `Swap(v)` returns what
`Load()` returned just before the call and the next `Load()` returns `v`, also
when `v` is the value held. -/
theorem C3_swap :
    (∀ (b : Bool) (v : bool), (b.Swap v).1 = b.Load ∧ (b.Swap v).2.Load = v) ∧
    (∀ (i : Int64) (v : int64), (i.Swap v).1 = i.Load ∧ (i.Swap v).2.Load = v) ∧
    (∀ (i : Uint32) (v : uint32), (i.Swap v).1 = i.Load ∧ (i.Swap v).2.Load = v) ∧
    (∀ (i : Uintptr) (v : uintptr), (i.Swap v).1 = i.Load ∧ (i.Swap v).2.Load = v) ∧
    (∀ (d : Duration) (v : time.Duration), (d.Swap v).1 = d.Load ∧ (d.Swap v).2.Load = v) := by
  refine ⟨?_, ?_, ?_, ?_, ?_⟩
  · intro b v; exact ⟨rfl, truthy_boolToInt v⟩
  all_goals intros; exact ⟨rfl, rfl⟩

/-! ## C4: Toggle -/

/-- C4: on a Bool holding `b`, with no interleaved writer, `Toggle()` returns `b`
and the next `Load()` returns `!b`, whatever bound of at least one iteration is put on
the retry loop.  From `NewBool(false)` three calls return false, true, false and
`Load()` is then true; two consecutive calls restore the cell. -/
theorem C4_toggle :
    (∀ (b : Bool) (fuel : Nat), b.valid →
      b.Toggle (fuel + 1) = some (b.Load, NewBool (!b.Load)) ∧
      (NewBool (!b.Load)).Load = !b.Load) ∧
    (∀ f1 f2 f3 : Nat,
      (((NewBool false).Toggle (f1 + 1)).bind fun r1 =>
        (r1.2.Toggle (f2 + 1)).bind fun r2 =>
          (r2.2.Toggle (f3 + 1)).map fun r3 => (r1.1, r2.1, r3.1, r3.2.Load)) =
        some (false, true, false, true)) ∧
    (∀ (b : Bool) (f1 f2 : Nat), b.valid →
      ((b.Toggle (f1 + 1)).bind fun r1 => r1.2.Toggle (f2 + 1)) = some (!b.Load, b)) := by
  refine ⟨?_, ?_, ?_⟩
  · intro b fuel hb
    exact ⟨Bool.Toggle_of_valid b fuel hb, truthy_boolToInt _⟩
  · intro f1 f2 f3
    rw [Bool.Toggle_of_valid _ f1 (Bool.valid_NewBool _)]
    simp only [Option.some_bind]
    rw [Bool.Toggle_of_valid _ f2 (Bool.valid_NewBool _)]
    simp only [Option.some_bind]
    rw [Bool.Toggle_of_valid _ f3 (Bool.valid_NewBool _)]
    rfl
  · intro b f1 f2 hb
    rw [Bool.Toggle_of_valid b f1 hb]
    simp only [Option.some_bind]
    rw [Bool.Toggle_of_valid _ f2 (Bool.valid_NewBool _)]
    have h1 : (NewBool (!b.Load)).Load = !b.Load := truthy_boolToInt _
    rw [h1, Bool.not_not]
    exact congrArg (fun s => some (!b.Load, s)) ((Bool.valid_iff b).1 hb).symm

/-- Witness of C4 on `NewBool(true)` with a bound of one iteration: `Toggle()` returns
true and leaves `NewBool(false)`, and a second call restores the cell. -/
theorem C4_toggle_witness :
    (NewBool true).valid ∧
    (NewBool true).Toggle 1 = some (true, NewBool false) ∧
    (((NewBool true).Toggle 1).bind fun r1 => r1.2.Toggle 1) = some (false, NewBool true) :=
  ⟨by decide, (C4_toggle.1 (NewBool true) 0 (by decide)).1,
   C4_toggle.2.2 (NewBool true) 0 0 (by decide)⟩

/-! ## C5: Add -/

/-- C5: for Int64, Uint32 and Uintptr, `Add(n)` on a cell holding `cur` returns
`cur + n` reduced modulo `2^w` into the range of the type, never fails, and the next
`Load()` returns the same value; when `cur + n` is in range the result is `cur + n`. -/
theorem C5_add :
    (∀ (i : Int64) (n : int64),
      isInt64 (i.Add n).1 ∧
      (i.Add n).1 % (2 : Int) ^ 64 = (i.Load + n) % (2 : Int) ^ 64 ∧
      (i.Add n).2.Load = (i.Add n).1 ∧
      (isInt64 (i.Load + n) → (i.Add n).1 = i.Load + n)) ∧
    (∀ (i : Uint32) (n : uint32),
      isUint 32 (i.Add n).1 ∧
      (i.Add n).1 = (i.Load + n) % 2 ^ 32 ∧
      (i.Add n).2.Load = (i.Add n).1 ∧
      (isUint 32 (i.Load + n) → (i.Add n).1 = i.Load + n)) ∧
    (∀ (w : Nat) (i : Uintptr) (n : uintptr),
      isUint w (i.Add w n).1 ∧
      (i.Add w n).1 = (i.Load + n) % 2 ^ w ∧
      (i.Add w n).2.Load = (i.Add w n).1 ∧
      (isUint w (i.Load + n) → (i.Add w n).1 = i.Load + n)) := by
  refine ⟨?_, ?_, ?_⟩
  · intro i n
    refine ⟨wrapInt64_isInt64 _, wrapInt64_emod _, rfl, ?_⟩
    intro h
    exact wrapInt64_of_isInt64 h
  · intro i n
    refine ⟨Nat.mod_lt _ (Nat.two_pow_pos 32), rfl, rfl, ?_⟩
    intro h
    exact Nat.mod_eq_of_lt h
  · intro w i n
    refine ⟨Nat.mod_lt _ (Nat.two_pow_pos w), rfl, rfl, ?_⟩
    intro h
    exact Nat.mod_eq_of_lt h

/-- Witness of C5: `Add(1)` on an Int64 holding 41 returns 42 without wraparound. -/
theorem C5_add_witness :
    isInt64 ((NewInt64 41).Load + 1) ∧ ((NewInt64 41).Add 1).1 = 42 ∧
    ((NewInt64 MaxInt64).Add 1).1 = MinInt64 ∧ ((NewUint32 MaxUint32).Add 1).1 = 0 :=
  ⟨by decide, (C5_add.1 (NewInt64 41) 1).2.2.2 (by decide), by decide, by decide⟩

/-! ## C6: Sub -/

/-- C6: for Int64, Uint32 and Uintptr, `Sub(n)` on a cell holding `cur` returns
`cur - n` modulo `2^w` and the next `Load()` returns that value.  Int64 adds `-n`,
also for `n = MinInt64`, whose negation is itself; Uint32 and Uintptr add `^(n - 1)`,
so `Sub(0)` changes nothing and `Sub(n)` with `n > cur` wraps to `cur + 2^w - n`. -/
theorem C6_sub :
    (∀ (i : Int64) (n : int64),
      (i.Sub n) = i.Add (negInt64 n) ∧
      isInt64 (i.Sub n).1 ∧
      (i.Sub n).1 % (2 : Int) ^ 64 = (i.Load - n) % (2 : Int) ^ 64 ∧
      (i.Sub n).2.Load = (i.Sub n).1 ∧
      (isInt64 (i.Load - n) → (i.Sub n).1 = i.Load - n)) ∧
    (negInt64 MinInt64 = MinInt64 ∧
      ∀ i : Int64, (i.Sub MinInt64).1 % (2 : Int) ^ 64 = (i.Load - MinInt64) % (2 : Int) ^ 64) ∧
    (∀ (i : Uint32) (n : uint32), isUint 32 n →
      (i.Sub n) = i.Add (notUint 32 (subUint 32 n 1)) ∧
      isUint 32 (i.Sub n).1 ∧
      ((i.Sub n).1 + n) % 2 ^ 32 = i.Load % 2 ^ 32 ∧
      (i.Sub n).2.Load = (i.Sub n).1 ∧
      (isUint 32 i.Load → n ≤ i.Load → (i.Sub n).1 = i.Load - n) ∧
      (i.Load < n → (i.Sub n).1 = i.Load + 2 ^ 32 - n)) ∧
    (∀ i : Uint32, isUint 32 i.Load → subUint 32 0 1 = MaxUint32 ∧ i.Sub 0 = (i.Load, i)) ∧
    (∀ (w : Nat) (i : Uintptr) (n : uintptr), isUint w n →
      (i.Sub w n) = i.Add w (notUint w (subUint w n 1)) ∧
      isUint w (i.Sub w n).1 ∧
      ((i.Sub w n).1 + n) % 2 ^ w = i.Load % 2 ^ w ∧
      (i.Sub w n).2.Load = (i.Sub w n).1 ∧
      (isUint w i.Load → n ≤ i.Load → (i.Sub w n).1 = i.Load - n) ∧
      (i.Load < n → (i.Sub w n).1 = i.Load + 2 ^ w - n)) ∧
    (∀ (w : Nat) (i : Uintptr), isUint w i.Load →
      subUint w 0 1 = 2 ^ w - 1 ∧ i.Sub w 0 = (i.Load, i)) := by
  refine ⟨?_, ⟨by decide, fun i => wrapInt64_add_neg i.v MinInt64⟩, ?_, ?_, ?_, ?_⟩
  · intro i n
    exact ⟨rfl, wrapInt64_isInt64 _, wrapInt64_add_neg i.v n, rfl,
      fun h => wrapInt64_add_neg_of_isInt64 i.v n h⟩
  · intro i n hn
    have hs := Uint32_Sub_eq i n hn
    refine ⟨rfl, ?_, ?_, ?_, ?_, ?_⟩
    · rw [hs]; exact addUint_lt _ _ _
    · rw [hs]; exact addUint_sub_add 32 i.v n hn
    · rw [hs]; generalize addUint 32 i.v _ = a; rfl
    · intro hc hle; rw [hs]; exact addUint_sub_of_le 32 i.v n hc hle
    · intro hlt; rw [hs]; exact addUint_sub_of_lt 32 i.v n hn hlt
  · intro i hc
    refine ⟨by decide, ?_⟩
    rw [Uint32_Sub_eq i 0 (by decide)]
    have hv : addUint 32 i.v ((2 ^ 32 - 0) % 2 ^ 32) = i.v :=
      addUint_sub_of_le 32 i.v 0 hc (Nat.zero_le _)
    rw [hv]
    rfl
  · intro w i n hn
    have hs := Uintptr_Sub_eq w i n hn
    refine ⟨rfl, ?_, ?_, ?_, ?_, ?_⟩
    · rw [hs]; exact addUint_lt _ _ _
    · rw [hs]; exact addUint_sub_add w i.v.word n hn
    · rw [hs]; generalize addUint w i.v.word _ = a; rfl
    · intro hc hle; rw [hs]; exact addUint_sub_of_le w i.v.word n hc hle
    · intro hlt; rw [hs]; exact addUint_sub_of_lt w i.v.word n hn hlt
  · intro w i hc
    refine ⟨?_, ?_⟩
    · rw [subUint_one w 0 (Nat.two_pow_pos w), if_pos rfl]
    · rw [Uintptr_Sub_eq w i 0 (Nat.two_pow_pos w)]
      have hv : addUint w i.v.word ((2 ^ w - 0) % 2 ^ w) = i.v.word :=
        addUint_sub_of_le w i.v.word 0 hc (Nat.zero_le _)
      rw [hv]
      rfl

/-- Witness of C6: `Sub(5)` on a Uint32 holding 3 wraps to `2^32 - 2`, `Sub(2)` on a
Uint32 holding 7 gives 5, `Sub(0)` on a Uint32 holding 7 changes nothing, and
`Sub(1)` on an Int64 holding 0 gives -1. -/
theorem C6_sub_witness :
    isUint 32 5 ∧ (NewUint32 3).Load < 5 ∧ ((NewUint32 3).Sub 5).1 = 4294967294 ∧
    isUint 32 (NewUint32 7).Load ∧ ((NewUint32 7).Sub 2).1 = 5 ∧
    (NewUint32 7).Sub 0 = (7, NewUint32 7) ∧
    isInt64 ((NewInt64 0).Load - 1) ∧ ((NewInt64 0).Sub 1).1 = -1 :=
  ⟨by decide, by decide,
   (C6_sub.2.2.1 (NewUint32 3) 5 (by decide)).2.2.2.2.2 (by decide),
   by decide,
   (C6_sub.2.2.1 (NewUint32 7) 2 (by decide)).2.2.2.2.1 (by decide) (by decide),
   (C6_sub.2.2.2.1 (NewUint32 7) (by decide)).2,
   by decide,
   (C6_sub.1 (NewInt64 0) 1).2.2.2.2 (by decide)⟩

/-! ## C7: UnmarshalJSON -/

/-- C7: for Bool, Int64, Uint32, Uintptr, Float64 and Duration, whatever the decoder of
encoding/json is, `UnmarshalJSON(b)` returns nil exactly when the decoder accepts `b`.
When the decoder yields `v` the cell is the one `Store(v)` gives and `Load()` is `v`; when
the decoder fails with `e` the method returns `e` and the cell is unchanged. -/
theorem C7_unmarshal_json :
    (∀ (ε : Type) (j : json ε bool) (c : Bool) (b : Bytes),
      (∀ v, j.Unmarshal b = .ok v →
        c.UnmarshalJSON j b = (none, c.Store v) ∧ (c.UnmarshalJSON j b).2.Load = v) ∧
      (∀ e, j.Unmarshal b = .error e → c.UnmarshalJSON j b = (some e, c)) ∧
      ((c.UnmarshalJSON j b).1 = none ↔ ∃ v, j.Unmarshal b = .ok v)) ∧
    (∀ (ε : Type) (j : json ε int64) (c : Int64) (b : Bytes),
      (∀ v, j.Unmarshal b = .ok v →
        c.UnmarshalJSON j b = (none, c.Store v) ∧ (c.UnmarshalJSON j b).2.Load = v) ∧
      (∀ e, j.Unmarshal b = .error e → c.UnmarshalJSON j b = (some e, c)) ∧
      ((c.UnmarshalJSON j b).1 = none ↔ ∃ v, j.Unmarshal b = .ok v)) ∧
    (∀ (ε : Type) (j : json ε uint32) (c : Uint32) (b : Bytes),
      (∀ v, j.Unmarshal b = .ok v →
        c.UnmarshalJSON j b = (none, c.Store v) ∧ (c.UnmarshalJSON j b).2.Load = v) ∧
      (∀ e, j.Unmarshal b = .error e → c.UnmarshalJSON j b = (some e, c)) ∧
      ((c.UnmarshalJSON j b).1 = none ↔ ∃ v, j.Unmarshal b = .ok v)) ∧
    (∀ (ε : Type) (j : json ε uintptr) (c : Uintptr) (b : Bytes),
      (∀ v, j.Unmarshal b = .ok v →
        c.UnmarshalJSON j b = (none, c.Store v) ∧ (c.UnmarshalJSON j b).2.Load = v) ∧
      (∀ e, j.Unmarshal b = .error e → c.UnmarshalJSON j b = (some e, c)) ∧
      ((c.UnmarshalJSON j b).1 = none ↔ ∃ v, j.Unmarshal b = .ok v)) ∧
    (∀ (ε : Type) (j : json ε float64) (c : Float64) (b : Bytes),
      (∀ v, j.Unmarshal b = .ok v →
        c.UnmarshalJSON j b = (none, c.Store v) ∧ (c.UnmarshalJSON j b).2.Load = v) ∧
      (∀ e, j.Unmarshal b = .error e → c.UnmarshalJSON j b = (some e, c)) ∧
      ((c.UnmarshalJSON j b).1 = none ↔ ∃ v, j.Unmarshal b = .ok v)) ∧
    (∀ (ε : Type) (j : json ε time.Duration) (c : Duration) (b : Bytes),
      (∀ v, j.Unmarshal b = .ok v →
        c.UnmarshalJSON j b = (none, c.Store v) ∧ (c.UnmarshalJSON j b).2.Load = v) ∧
      (∀ e, j.Unmarshal b = .error e → c.UnmarshalJSON j b = (some e, c)) ∧
      ((c.UnmarshalJSON j b).1 = none ↔ ∃ v, j.Unmarshal b = .ok v)) := by
  refine ⟨?_, ?_, ?_, ?_, ?_, ?_⟩
  · intro ε j c b
    unfold Bool.UnmarshalJSON
    cases h : j.Unmarshal b with
    | error e => simp
    | ok v => simpa using truthy_boolToInt v
  · intro ε j c b
    unfold Int64.UnmarshalJSON
    cases h : j.Unmarshal b with
    | error e => simp
    | ok v => simp; rfl
  · intro ε j c b
    unfold Uint32.UnmarshalJSON
    cases h : j.Unmarshal b with
    | error e => simp
    | ok v => simp; rfl
  · intro ε j c b
    unfold Uintptr.UnmarshalJSON
    cases h : j.Unmarshal b with
    | error e => simp
    | ok v => simp; rfl
  · intro ε j c b
    unfold Float64.UnmarshalJSON
    cases h : j.Unmarshal b with
    | error e => simp
    | ok v => simpa using math.Float64frombits_bits v
  · intro ε j c b
    unfold Duration.UnmarshalJSON
    cases h : j.Unmarshal b with
    | error e => simp
    | ok v => simp; rfl

/-- Witness of C7 with the concrete decoder at `bool`: the bytes `42` are refused with the
type-mismatch error and the bytes `tru` as malformed, the error is returned and a Bool
holding true is unchanged; the bytes `false` are accepted and stored. -/
theorem C7_unmarshal_json_witness :
    jsonBool.Unmarshal [52, 50] = .error .typeMismatch ∧
    (NewBool true).UnmarshalJSON jsonBool [52, 50] = (some .typeMismatch, NewBool true) ∧
    (NewBool true).UnmarshalJSON jsonBool [116, 114, 117] = (some .malformed, NewBool true) ∧
    jsonBool.Unmarshal litFalse = .ok false ∧
    ((NewBool true).UnmarshalJSON jsonBool litFalse).2.Load = false :=
  ⟨by decide,
   (C7_unmarshal_json.1 jsonError jsonBool (NewBool true) [52, 50]).2.1 .typeMismatch
     (by decide),
   (C7_unmarshal_json.1 jsonError jsonBool (NewBool true) [116, 114, 117]).2.1 .malformed
     (by decide),
   by decide,
   ((C7_unmarshal_json.1 jsonError jsonBool (NewBool true) litFalse).1 false (by decide)).2⟩

/-! ## C8: JSON round trip -/

/-- C8: for Bool, Int64, Uint32, Uintptr and Duration and every value `x` of the wrapped
type: a cell holding `x` marshals without error to bytes `bs`, and `UnmarshalJSON(bs)` on
any cell of the type returns nil and leaves `Load() = x`.  The bytes are those
encoding/json writes, `true` or `false` and the base 10 digits, read back by its
decoder; `w` is the width of a pointer. -/
theorem C8_json_round_trip :
    (∀ c c2 : Bool, ∃ bs, c.MarshalJSON jsonBool = .ok bs ∧
      (c2.UnmarshalJSON jsonBool bs).1 = none ∧
      (c2.UnmarshalJSON jsonBool bs).2.Load = c.Load) ∧
    (∀ c c2 : Int64, isInt64 c.Load → ∃ bs, c.MarshalJSON jsonInt64 = .ok bs ∧
      (c2.UnmarshalJSON jsonInt64 bs).1 = none ∧
      (c2.UnmarshalJSON jsonInt64 bs).2.Load = c.Load) ∧
    (∀ c c2 : Uint32, isUint 32 c.Load → ∃ bs, c.MarshalJSON (jsonUint 32) = .ok bs ∧
      (c2.UnmarshalJSON (jsonUint 32) bs).1 = none ∧
      (c2.UnmarshalJSON (jsonUint 32) bs).2.Load = c.Load) ∧
    (∀ (w : Nat) (c c2 : Uintptr), isUint w c.Load →
      ∃ bs, c.MarshalJSON (jsonUint w) = .ok bs ∧
      (c2.UnmarshalJSON (jsonUint w) bs).1 = none ∧
      (c2.UnmarshalJSON (jsonUint w) bs).2.Load = c.Load) ∧
    (∀ c c2 : Duration, isInt64 c.Load → ∃ bs, c.MarshalJSON jsonInt64 = .ok bs ∧
      (c2.UnmarshalJSON jsonInt64 bs).1 = none ∧
      (c2.UnmarshalJSON jsonInt64 bs).2.Load = c.Load) := by
  refine ⟨?_, ?_, ?_, ?_, ?_⟩
  · intro c c2
    refine ⟨if c.Load then litTrue else litFalse, rfl, ?_⟩
    unfold Bool.UnmarshalJSON
    rw [jsonBool_round_trip]
    exact ⟨rfl, truthy_boolToInt _⟩
  · intro c c2 h
    refine ⟨formatInt c.Load, rfl, ?_⟩
    unfold Int64.UnmarshalJSON
    rw [jsonInt64_round_trip _ h]
    exact ⟨rfl, rfl⟩
  · intro c c2 h
    refine ⟨formatUint c.Load, rfl, ?_⟩
    unfold Uint32.UnmarshalJSON
    rw [jsonUint_round_trip 32 _ h]
    exact ⟨rfl, rfl⟩
  · intro w c c2 h
    refine ⟨formatUint c.Load, rfl, ?_⟩
    unfold Uintptr.UnmarshalJSON
    rw [jsonUint_round_trip w _ h]
    exact ⟨rfl, rfl⟩
  · intro c c2 h
    refine ⟨formatInt c.Load, rfl, ?_⟩
    unfold Duration.UnmarshalJSON
    rw [jsonInt64_round_trip _ h]
    exact ⟨rfl, rfl⟩

/-- Witness of C8: the smallest `int64` marshals to the bytes `-9223372036854775808`,
which unmarshal into a cell holding 7 as the smallest `int64` again; likewise the largest
`int64`, the largest `uint32`, a `uintptr` of 64 bits, the zero duration and `true`. -/
theorem C8_json_round_trip_witness :
    (NewInt64 MinInt64).MarshalJSON jsonInt64 =
      .ok [45, 57, 50, 50, 51, 51, 55, 50, 48, 51, 54, 56, 53, 52, 55, 55, 53, 56, 48, 56] ∧
    (NewInt64 7).UnmarshalJSON jsonInt64
      [45, 57, 50, 50, 51, 51, 55, 50, 48, 51, 54, 56, 53, 52, 55, 55, 53, 56, 48, 56] =
      (none, NewInt64 MinInt64) ∧
    (∃ bs, (NewInt64 MinInt64).MarshalJSON jsonInt64 = .ok bs ∧
      ((NewInt64 7).UnmarshalJSON jsonInt64 bs).1 = none ∧
      ((NewInt64 7).UnmarshalJSON jsonInt64 bs).2.Load = (NewInt64 MinInt64).Load) ∧
    (∃ bs, (NewInt64 MaxInt64).MarshalJSON jsonInt64 = .ok bs ∧
      ((NewInt64 7).UnmarshalJSON jsonInt64 bs).1 = none ∧
      ((NewInt64 7).UnmarshalJSON jsonInt64 bs).2.Load = (NewInt64 MaxInt64).Load) ∧
    (∃ bs, (NewUint32 MaxUint32).MarshalJSON (jsonUint 32) = .ok bs ∧
      ((NewUint32 7).UnmarshalJSON (jsonUint 32) bs).1 = none ∧
      ((NewUint32 7).UnmarshalJSON (jsonUint 32) bs).2.Load = (NewUint32 MaxUint32).Load) ∧
    (∃ bs, (NewUintptr 4096).MarshalJSON (jsonUint 64) = .ok bs ∧
      ((NewUintptr 7).UnmarshalJSON (jsonUint 64) bs).1 = none ∧
      ((NewUintptr 7).UnmarshalJSON (jsonUint 64) bs).2.Load = (NewUintptr 4096).Load) ∧
    (∃ bs, (NewDuration 0).MarshalJSON jsonInt64 = .ok bs ∧
      ((NewDuration 7).UnmarshalJSON jsonInt64 bs).1 = none ∧
      ((NewDuration 7).UnmarshalJSON jsonInt64 bs).2.Load = (NewDuration 0).Load) ∧
    (∃ bs, (NewBool true).MarshalJSON jsonBool = .ok bs ∧
      ((NewBool false).UnmarshalJSON jsonBool bs).1 = none ∧
      ((NewBool false).UnmarshalJSON jsonBool bs).2.Load = (NewBool true).Load) :=
  ⟨by decide, by decide,
   C8_json_round_trip.2.1 (NewInt64 MinInt64) (NewInt64 7) (by decide),
   C8_json_round_trip.2.1 (NewInt64 MaxInt64) (NewInt64 7) (by decide),
   C8_json_round_trip.2.2.1 (NewUint32 MaxUint32) (NewUint32 7) (by decide),
   C8_json_round_trip.2.2.2.1 64 (NewUintptr 4096) (NewUintptr 7) (by decide),
   C8_json_round_trip.2.2.2.2 (NewDuration 0) (NewDuration 7) (by decide),
   C8_json_round_trip.1 (NewBool true) (NewBool false)⟩

/-! ## C9: Float64.CAS compares bit patterns -/

/-- C9: `Float64.CAS(old, new)` returns true and leaves the cell holding `new` exactly
when the raw 64 bits of the cell are the bits of `old`; otherwise it returns false and the
cell is unchanged.  On a cell whose raw field is a 64-bit word this is equality of the
bit patterns of the held value and `old`.  A cell holding `-0.0` fails `CAS(+0.0, x)`
although `-0.0 == +0.0`; a cell holding a NaN fails against a NaN of another payload and
succeeds against the same bit pattern although `NaN != NaN`. -/
theorem C9_float64_cas :
    (∀ (f : Float64) (old new : float64),
      ((f.CAS old new).1 = true ↔ f.v = math.Float64bits old) ∧
      (f.v = math.Float64bits old →
        (f.CAS old new).1 = true ∧ (f.CAS old new).2 = NewFloat64 new ∧
        (f.CAS old new).2.Load = new) ∧
      (f.v ≠ math.Float64bits old → (f.CAS old new).1 = false ∧ (f.CAS old new).2 = f)) ∧
    (∀ (f : Float64) (old new : float64), isUint 64 f.v →
      ((f.CAS old new).1 = true ↔ math.Float64bits f.Load = math.Float64bits old) ∧
      ((f.CAS old new).1 = true ↔ f.Load = old)) ∧
    (float64.eq negZero posZero = true ∧
      ∀ x : float64, (NewFloat64 negZero).CAS posZero x = (false, NewFloat64 negZero)) ∧
    (nanA.isNaN = true ∧ nanB.isNaN = true ∧ float64.eq nanA nanA = false ∧
      ∀ x : float64, (NewFloat64 nanA).CAS nanB x = (false, NewFloat64 nanA) ∧
        (NewFloat64 nanA).CAS nanA x = (true, NewFloat64 x)) := by
  have key : ∀ (f : Float64) (old new : float64),
      (f.v = math.Float64bits old → f.CAS old new = (true, NewFloat64 new)) ∧
      (f.v ≠ math.Float64bits old → f.CAS old new = (false, f)) := by
    intro f old new
    constructor
    · intro h
      simp only [Float64.CAS, CompareAndSwapUint64, if_pos h]
      rfl
    · intro h
      simp only [Float64.CAS, CompareAndSwapUint64, if_neg h]
  have hiff : ∀ (f : Float64) (old new : float64),
      ((f.CAS old new).1 = true ↔ f.v = math.Float64bits old) := by
    intro f old new
    by_cases h : f.v = math.Float64bits old
    · simp [(key f old new).1 h, h]
    · simp [(key f old new).2 h, h]
  refine ⟨?_, ?_, ⟨by decide, ?_⟩, by decide, by decide, by decide, ?_⟩
  · intro f old new
    refine ⟨hiff f old new, ?_, ?_⟩
    · intro h
      rw [(key f old new).1 h]
      exact ⟨rfl, rfl, Float64.Load_NewFloat64 new⟩
    · intro h
      rw [(key f old new).2 h]
      exact ⟨rfl, rfl⟩
  · intro f old new hv
    have hb : math.Float64bits f.Load = f.v := math.Float64bits_frombits f.v hv
    refine ⟨?_, ?_⟩
    · rw [hiff, hb]
    · rw [hiff, ← hb]
      exact ⟨fun h => math.Float64bits_injective h, fun h => by rw [h]⟩
  · intro x
    exact (key (NewFloat64 negZero) posZero x).2 (by decide)
  · intro x
    exact ⟨(key (NewFloat64 nanA) nanB x).2 (by decide),
      (key (NewFloat64 nanA) nanA x).1 (by decide)⟩

/-- Witness of C9: a cell holding 1.5 (bits `0x3FF8000000000000`) swaps against 1.5 and
does not swap against `+0.0`. -/
theorem C9_float64_cas_witness :
    isUint 64 (NewFloat64 (math.Float64frombits 0x3FF8000000000000)).v ∧
    (((NewFloat64 (math.Float64frombits 0x3FF8000000000000)).CAS
      (math.Float64frombits 0x3FF8000000000000) posZero).1 = true) ∧
    ¬ (((NewFloat64 (math.Float64frombits 0x3FF8000000000000)).CAS posZero negZero).1 = true) :=
  ⟨by decide,
   ((C9_float64_cas.2.1 (NewFloat64 (math.Float64frombits 0x3FF8000000000000))
      (math.Float64frombits 0x3FF8000000000000) posZero (by decide)).2).2 (by decide),
   fun h => absurd (((C9_float64_cas.2.1 (NewFloat64 (math.Float64frombits 0x3FF8000000000000))
      posZero negZero (by decide)).2).1 h) (by decide)⟩

/-! ## C10: Float64 keeps bit patterns -/

/-- C10: for every 64-bit pattern `p`, `NewFloat64(Float64frombits(p)).Load()` and, from
any state, `Store(Float64frombits(p))` followed by `Load()` return a float with bit
pattern `p`.  The raw field after `NewFloat64(s)`, after `Store(s)` and after a
successful `CAS(old, s)` is `Float64bits(s)`, and `Load()` then returns `s` field for
field. -/
theorem C10_float64_bits :
    (∀ p : uint64, isUint 64 p →
      math.Float64bits (NewFloat64 (math.Float64frombits p)).Load = p ∧
      (NewFloat64 (math.Float64frombits p)).v = p ∧
      ∀ f : Float64, math.Float64bits (f.Store (math.Float64frombits p)).Load = p ∧
        (f.Store (math.Float64frombits p)).v = p) ∧
    (∀ s : float64, (NewFloat64 s).v = math.Float64bits s ∧ (NewFloat64 s).Load = s) ∧
    (∀ (f : Float64) (s : float64),
      (f.Store s).v = math.Float64bits s ∧ (f.Store s).Load = s) ∧
    (∀ (f : Float64) (old s : float64), (f.CAS old s).1 = true →
      (f.CAS old s).2.v = math.Float64bits s ∧ (f.CAS old s).2.Load = s) := by
  refine ⟨?_, ?_, ?_, ?_⟩
  · intro p hp
    have hb := math.Float64bits_frombits p hp
    have hl : ∀ s : float64, math.Float64frombits (math.Float64bits s) = s :=
      math.Float64frombits_bits
    refine ⟨?_, hb, fun f => ⟨?_, hb⟩⟩
    · show math.Float64bits (math.Float64frombits (math.Float64bits (math.Float64frombits p))) = p
      rw [hl, hb]
    · show math.Float64bits (math.Float64frombits (math.Float64bits (math.Float64frombits p))) = p
      rw [hl, hb]
  · intro s
    exact ⟨rfl, math.Float64frombits_bits s⟩
  · intro f s
    exact ⟨rfl, math.Float64frombits_bits s⟩
  · intro f old s h
    by_cases hv : f.v = math.Float64bits old
    · have : f.CAS old s = (true, NewFloat64 s) := by
        simp only [Float64.CAS, CompareAndSwapUint64, if_pos hv]
        rfl
      rw [this]
      exact ⟨rfl, math.Float64frombits_bits s⟩
    · have : f.CAS old s = (false, f) := by
        simp only [Float64.CAS, CompareAndSwapUint64, if_neg hv]
      rw [this] at h
      exact absurd h Bool.false_ne_true

/-- Witness of C10: a NaN with payload 2, `-0.0`, the smallest denormal and `-Inf` come
back from a cell with their bits unchanged. -/
theorem C10_float64_bits_witness :
    isUint 64 0x7FF8000000000002 ∧
    math.Float64bits (NewFloat64 (math.Float64frombits 0x7FF8000000000002)).Load =
      0x7FF8000000000002 ∧
    math.Float64bits (NewFloat64 negZero).Load = 0x8000000000000000 ∧
    math.Float64bits ((NewFloat64 posZero).Store minDenormal).Load = 1 ∧
    math.Float64bits ((NewFloat64 posZero).Store negInf).Load = 0xFFF0000000000000 :=
  ⟨by decide,
   (C10_float64_bits.1 0x7FF8000000000002 (by decide)).1,
   (C10_float64_bits.1 0x8000000000000000 (by decide)).1,
   ((C10_float64_bits.1 1 (by decide)).2.2 (NewFloat64 posZero)).1,
   ((C10_float64_bits.1 0xFFF0000000000000 (by decide)).2.2 (NewFloat64 posZero)).1⟩

/-! ## C11: Float64.Add -/

/-- C11: on a Float64 cell holding `old`, with no interleaved writer and any bound of at
least one iteration on the retry loop, `Add(s)` returns `old + s` of float64 arithmetic
and leaves a cell whose `Load()` is bit for bit the returned value, so that
`CAS(returned, y)` then returns true and `Load()` returns `y`.  From `NewFloat64(1.5)`,
`Add(2.5)` returns 4.0, `CAS(4.0, 10.0)` returns true and `Load()` returns 10.0. -/
theorem C11_float64_add :
    (∀ (f : Float64) (s : float64) (fuel : Nat), isUint 64 f.v →
      f.Add (fuel + 1) s = some (f.Load.add s, NewFloat64 (f.Load.add s)) ∧
      math.Float64bits (NewFloat64 (f.Load.add s)).Load = math.Float64bits (f.Load.add s) ∧
      ∀ y : float64,
        (NewFloat64 (f.Load.add s)).CAS (f.Load.add s) y = (true, NewFloat64 y) ∧
        (NewFloat64 y).Load = y) ∧
    (∀ fuel : Nat,
      ((NewFloat64 (math.Float64frombits 0x3FF8000000000000)).Add (fuel + 1)
        (math.Float64frombits 0x4004000000000000)).map
        (fun r => (r.1, r.2.CAS (math.Float64frombits 0x4010000000000000)
          (math.Float64frombits 0x4024000000000000))) =
      some (math.Float64frombits 0x4010000000000000, true,
        NewFloat64 (math.Float64frombits 0x4024000000000000))) ∧
    (NewFloat64 (math.Float64frombits 0x4024000000000000)).Load =
      math.Float64frombits 0x4024000000000000 := by
  refine ⟨?_, ?_, by decide⟩
  · intro f s fuel hv
    refine ⟨Float64.Add_of_word f fuel s hv, ?_, fun y => ⟨?_, Float64.Load_NewFloat64 y⟩⟩
    · rw [Float64.Load_NewFloat64]
    · have h := Float64.CAS_self (NewFloat64 (f.Load.add s)) (math.Float64bits_lt _) y
      rw [Float64.Load_NewFloat64] at h
      exact h
  · intro fuel
    rw [Float64.Add_of_word _ fuel _ (by decide)]
    decide

/-- Witness of C11 with a bound of one iteration: `NewFloat64(1.5).Add(2.5)` returns 4.0
and leaves a cell holding 4.0. -/
theorem C11_float64_add_witness :
    isUint 64 (NewFloat64 (math.Float64frombits 0x3FF8000000000000)).v ∧
    (NewFloat64 (math.Float64frombits 0x3FF8000000000000)).Add 1
      (math.Float64frombits 0x4004000000000000) =
      some (math.Float64frombits 0x4010000000000000,
        NewFloat64 (math.Float64frombits 0x4010000000000000)) :=
  ⟨by decide,
   (C11_float64_add.1 (NewFloat64 (math.Float64frombits 0x3FF8000000000000))
     (math.Float64frombits 0x4004000000000000) 0 (by decide)).1⟩

/-! ## C12: JSON round trip of Float64 -/

/-- C12, as stated, fails: `MarshalJSON` of a cell holding `+Inf` returns the
unsupported-value error of the encoder and no bytes. -/
theorem C12_marshal_inf_counterexample :
    (NewFloat64 posInf).MarshalJSON jsonFloat64 = .error .unsupportedValue ∧
    ¬ ∃ bs : Bytes, (NewFloat64 posInf).MarshalJSON jsonFloat64 = .ok bs := by
  have h : (NewFloat64 posInf).MarshalJSON jsonFloat64 = .error .unsupportedValue := by
    unfold Float64.MarshalJSON
    rw [Float64.Load_NewFloat64]
    rfl
  refine ⟨h, ?_⟩
  rintro ⟨bs, hbs⟩
  rw [h] at hbs
  exact absurd hbs (by simp)

/-- C12, amended: a Float64 cell holding an infinity or a NaN does not marshal, the
encoder returns its unsupported-value error; a cell holding any other value `x`, the two
zeros and the denormals among them, marshals without error, and `UnmarshalJSON` of the
bytes into any Float64 cell returns nil and leaves `Load()` bit for bit equal to `x`. -/
theorem C12_float64_json_round_trip :
    (∀ f : Float64, f.Load.isInf = true ∨ f.Load.isNaN = true →
      f.MarshalJSON jsonFloat64 = .error .unsupportedValue) ∧
    (∀ f c2 : Float64, f.Load.isInf = false → f.Load.isNaN = false →
      ∃ bs, f.MarshalJSON jsonFloat64 = .ok bs ∧
        (c2.UnmarshalJSON jsonFloat64 bs).1 = none ∧
        (c2.UnmarshalJSON jsonFloat64 bs).2.Load = f.Load ∧
        math.Float64bits (c2.UnmarshalJSON jsonFloat64 bs).2.Load =
          math.Float64bits f.Load) := by
  refine ⟨?_, ?_⟩
  · intro f h
    have : (f.Load.isInf || f.Load.isNaN) = true := by
      rcases h with h | h <;> simp [h]
    show floatEncoder f.Load = .error .unsupportedValue
    simp only [floatEncoder, this, if_true]
  · intro f c2 hinf hnan
    obtain ⟨bs, hm, hu⟩ := jsonFloat64_round_trip f.Load hinf hnan
    refine ⟨bs, hm, ?_⟩
    have hl : (c2.UnmarshalJSON jsonFloat64 bs) = (none, c2.Store f.Load) := by
      unfold Float64.UnmarshalJSON
      rw [hu]
    have hs : (c2.Store f.Load).Load = f.Load := math.Float64frombits_bits _
    rw [hl]
    exact ⟨rfl, hs, by rw [hs]⟩

/-- Witness of C12: a cell holding 1.5 marshals to the bytes `1.5`, which unmarshal into
a cell holding 4.0 as 1.5; a cell holding 0.1 marshals to `0.1`, one holding 1e21 to
`1e+21`, one holding 1e-7 to `1e-7` and one holding the negative zero to `-0`, each read
back bit for bit; a cell holding `-Inf` and a cell holding a NaN do not marshal. -/
theorem C12_float64_json_round_trip_witness :
    (NewFloat64 (math.Float64frombits 0x3FF8000000000000)).MarshalJSON jsonFloat64 =
      .ok [49, 46, 53] ∧
    (NewFloat64 (math.Float64frombits 0x4010000000000000)).UnmarshalJSON jsonFloat64
      [49, 46, 53] = (none, NewFloat64 (math.Float64frombits 0x3FF8000000000000)) ∧
    (NewFloat64 (math.Float64frombits 0x3FB999999999999A)).MarshalJSON jsonFloat64 =
      .ok [48, 46, 49] ∧
    (NewFloat64 (math.Float64frombits 0x444B1AE4D6E2EF50)).MarshalJSON jsonFloat64 =
      .ok [49, 101, 43, 50, 49] ∧
    (NewFloat64 (math.Float64frombits 0x3E7AD7F29ABCAF48)).MarshalJSON jsonFloat64 =
      .ok [49, 101, 45, 55] ∧
    (NewFloat64 negZero).MarshalJSON jsonFloat64 = .ok [45, 48] ∧
    (∃ bs, (NewFloat64 (math.Float64frombits 0x3FF8000000000000)).MarshalJSON jsonFloat64 =
        .ok bs ∧
      ((NewFloat64 (math.Float64frombits 0x4010000000000000)).UnmarshalJSON
        jsonFloat64 bs).1 = none ∧
      ((NewFloat64 (math.Float64frombits 0x4010000000000000)).UnmarshalJSON
        jsonFloat64 bs).2.Load =
        (NewFloat64 (math.Float64frombits 0x3FF8000000000000)).Load ∧
      math.Float64bits ((NewFloat64 (math.Float64frombits 0x4010000000000000)).UnmarshalJSON
        jsonFloat64 bs).2.Load =
        math.Float64bits (NewFloat64 (math.Float64frombits 0x3FF8000000000000)).Load) ∧
    (∃ bs, (NewFloat64 negZero).MarshalJSON jsonFloat64 = .ok bs ∧
      ((NewFloat64 posZero).UnmarshalJSON jsonFloat64 bs).1 = none ∧
      ((NewFloat64 posZero).UnmarshalJSON jsonFloat64 bs).2.Load = (NewFloat64 negZero).Load ∧
      math.Float64bits ((NewFloat64 posZero).UnmarshalJSON jsonFloat64 bs).2.Load =
        math.Float64bits (NewFloat64 negZero).Load) ∧
    (NewFloat64 negInf).MarshalJSON jsonFloat64 = .error .unsupportedValue ∧
    (NewFloat64 nanA).MarshalJSON jsonFloat64 = .error .unsupportedValue :=
  ⟨by decide, by decide, by decide, by decide, by decide, by decide,
   C12_float64_json_round_trip.2 (NewFloat64 (math.Float64frombits 0x3FF8000000000000))
     (NewFloat64 (math.Float64frombits 0x4010000000000000)) (by decide) (by decide),
   C12_float64_json_round_trip.2 (NewFloat64 negZero) (NewFloat64 posZero) (by decide)
     (by decide),
   C12_float64_json_round_trip.1 (NewFloat64 negInf) (Or.inl (by decide)),
   C12_float64_json_round_trip.1 (NewFloat64 nanA) (Or.inr (by decide))⟩

/-! ## C13: Load of a String -/

/-- C13: `Load()` on the zero value `&String{}` and on `NewString("")`, which stores
nothing, returns the empty string without a panic; `NewString(s).Load()` is `s` for every
string; and from every cell, `Store(s)` succeeds and the next `Load()` returns `s`. -/
theorem C13_string_load :
    String.zero.Load = .ok [] ∧
    NewString [] = .ok String.zero ∧
    (∀ s : string, ((NewString s).bind fun c => c.Load) = .ok s) ∧
    (∀ (c : String) (s : string), c.valid →
      (∃ c2, c.Store s = .ok c2 ∧ c2.valid) ∧
      ((c.Store s).bind fun c2 => c2.Load) = .ok s) := by
  refine ⟨rfl, rfl, ?_, ?_⟩
  · intro s
    rw [NewString_eq]
    by_cases h : s = []
    · subst h; rfl
    · simp only [h, if_false]; rfl
  · intro c s h
    rw [String.Store_of_valid c s h]
    exact ⟨⟨_, rfl, String.valid_stored s⟩, rfl⟩

/-- Witness of C13: `NewString("")`, then `Store("abc")`, then `Load()` gives `abc`, and
storing the empty string over `bcd` gives the empty string. -/
theorem C13_string_load_witness :
    String.zero.valid ∧
    ((String.zero.Store [97, 98, 99]).bind fun c2 => c2.Load) = .ok [97, 98, 99] ∧
    String.valid ⟨⟨⟨some (Any.string [98, 99, 100])⟩⟩⟩ ∧
    ((String.Store ⟨⟨⟨some (Any.string [98, 99, 100])⟩⟩⟩ []).bind fun c2 => c2.Load) = .ok [] :=
  ⟨by decide, (C13_string_load.2.2.2 String.zero [97, 98, 99] (by decide)).2,
   by decide,
   (C13_string_load.2.2.2 ⟨⟨⟨some (Any.string [98, 99, 100])⟩⟩⟩ [] (by decide)).2⟩

/-! ## C14: a JSON number decoded into a String -/

/-- C14: decoding the JSON document `42` into a String cell returns the type-mismatch
error of encoding/json without a call of `UnmarshalText`, so the cell, and with it what
`Load()` returns, is unchanged.  The same holds for every valid JSON document that is
neither a string nor `null`: a number with a fraction, a boolean, an array, an object.
After `NewString("bcd")` and a decode of `"abc"`, a decode of `42` fails and `Load()` is
still `abc`. -/
theorem C14_string_json_type_mismatch :
    (∀ c : String, c.jsonUnmarshal [52, 50] = .ok (some .typeMismatch, c)) ∧
    (∀ (c : String) (t : Bytes), checkValid t = true →
      jsonKindOf (skipSpace t) ≠ jsonKind.null →
      jsonKindOf (skipSpace t) ≠ jsonKind.string →
      c.jsonUnmarshal t = .ok (some .typeMismatch, c)) ∧
    ((NewString [98, 99, 100]).bind fun c =>
      (c.jsonUnmarshal [34, 97, 98, 99, 34]).bind fun r1 =>
        (r1.2.jsonUnmarshal [52, 50]).bind fun r2 =>
          r2.2.Load.map fun x => (r1.1, r2.1, x)) =
      .ok (none, some .typeMismatch, [97, 98, 99]) := by
  have general : ∀ (c : String) (t : Bytes), checkValid t = true →
      jsonKindOf (skipSpace t) ≠ jsonKind.null →
      jsonKindOf (skipSpace t) ≠ jsonKind.string →
      c.jsonUnmarshal t = .ok (some .typeMismatch, c) := by
    intro c t hv hn hs
    unfold String.jsonUnmarshal
    rw [if_pos hv]
    cases hk : jsonKindOf (skipSpace t) with
    | null => exact absurd hk hn
    | string => exact absurd hk hs
    | true => rfl
    | false => rfl
    | number => rfl
    | array => rfl
    | object => rfl
  refine ⟨?_, general, by decide⟩
  intro c
  exact general c [52, 50] (by decide) (by decide) (by decide)

/-- Witness of C14: the documents `1.5`, `[1]`, `true` and an object are valid JSON,
neither a string nor `null`, and a String cell holding `abc` refuses each with the
type-mismatch error and is unchanged; bytes that are not JSON are refused as malformed,
and a string literal with an escape is stored unquoted. -/
theorem C14_string_json_type_mismatch_witness :
    (∀ c : String, c.jsonUnmarshal [49, 46, 53] = .ok (some .typeMismatch, c)) ∧
    (∀ c : String, c.jsonUnmarshal [91, 49, 93] = .ok (some .typeMismatch, c)) ∧
    (∀ c : String, c.jsonUnmarshal [116, 114, 117, 101] = .ok (some .typeMismatch, c)) ∧
    (∀ c : String, c.jsonUnmarshal [123, 34, 97, 34, 58, 34, 98, 34, 125] =
      .ok (some .typeMismatch, c)) ∧
    ((NewString [97, 98, 99]).bind fun c =>
      (c.jsonUnmarshal [49, 46, 53]).bind fun r => r.2.Load.map fun x => (r.1, x)) =
      .ok (some .typeMismatch, [97, 98, 99]) ∧
    ((NewString [97, 98, 99]).bind fun c =>
      (c.jsonUnmarshal [52, 50, 120]).bind fun r => r.2.Load.map fun x => (r.1, x)) =
      .ok (some .malformed, [97, 98, 99]) ∧
    ((NewString [97, 98, 99]).bind fun c =>
      (c.jsonUnmarshal [32, 34, 120, 92, 110, 34]).bind fun r =>
        r.2.Load.map fun x => (r.1, x)) = .ok (none, [120, 10]) :=
  ⟨fun c => C14_string_json_type_mismatch.2.1 c [49, 46, 53] (by decide) (by decide)
     (by decide),
   fun c => C14_string_json_type_mismatch.2.1 c [91, 49, 93] (by decide) (by decide)
     (by decide),
   fun c => C14_string_json_type_mismatch.2.1 c [116, 114, 117, 101] (by decide) (by decide)
     (by decide),
   fun c => C14_string_json_type_mismatch.2.1 c [123, 34, 97, 34, 58, 34, 98, 34, 125]
     (by decide) (by decide) (by decide),
   by decide, by decide, by decide⟩

/-! ## C15: text round trip of a String -/

/-- C15: a String cell holding `s` marshals to exactly the bytes of `s` with a nil error,
and `UnmarshalText` of those bytes into any String cell returns nil and leaves
`Load() = s`; no byte is inspected, so this holds for the empty string and for bytes that
are not valid UTF-8. -/
theorem C15_string_text_round_trip :
    ∀ (c c2 : String) (s : string), c.Load = .ok s → c2.valid →
      c.MarshalText = .ok (s, none) ∧
      ∃ c3, c2.UnmarshalText s = .ok (none, c3) ∧ c3.Load = .ok s := by
  intro c c2 s hl hv
  refine ⟨?_, ⟨⟨⟨⟨some (Any.string s)⟩⟩⟩, ?_, rfl⟩⟩
  · unfold String.MarshalText
    rw [hl]
    rfl
  · unfold String.UnmarshalText
    rw [String.Store_of_valid c2 s hv]
    rfl

/-- Witness of C15: the bytes `0xFF 0xFE`, not valid UTF-8, held by one cell marshal to
themselves and unmarshal into the zero value, which then loads them. -/
theorem C15_string_text_round_trip_witness :
    String.Load ⟨⟨⟨some (Any.string [255, 254])⟩⟩⟩ = .ok [255, 254] ∧ String.zero.valid ∧
    String.MarshalText ⟨⟨⟨some (Any.string [255, 254])⟩⟩⟩ = .ok ([255, 254], none) ∧
    ∃ c3, String.zero.UnmarshalText [255, 254] = .ok (none, c3) ∧ c3.Load = .ok [255, 254] :=
  ⟨by decide, by decide,
   (C15_string_text_round_trip ⟨⟨⟨some (Any.string [255, 254])⟩⟩⟩ String.zero [255, 254]
     (by decide) (by decide)).1,
   (C15_string_text_round_trip ⟨⟨⟨some (Any.string [255, 254])⟩⟩⟩ String.zero [255, 254]
     (by decide) (by decide)).2⟩

/-! ## C16: a written String stays written -/

/-- C16: once `Store(x)` or `UnmarshalText(x)` has run on a String cell, every later
sequence of `Load`, `Store`, `MarshalText` and `UnmarshalText` runs without a panic and
ends in a cell whose `Value` is not nil, also after `Store("")`, and whose `Load()`
returns the string stored last. -/
theorem C16_string_stays_written :
    (∀ (c c1 : String) (x : string) (ops : List StringOp), c.valid → c.Store x = .ok c1 →
      ∃ c2, c1.run ops = .ok c2 ∧ c2.v.Load ≠ none ∧ c2.Load = .ok (lastStored x ops)) ∧
    (∀ (c c1 : String) (x : Bytes) (ops : List StringOp), c.valid →
      c.UnmarshalText x = .ok (none, c1) →
      ∃ c2, c1.run ops = .ok c2 ∧ c2.v.Load ≠ none ∧ c2.Load = .ok (lastStored x ops)) ∧
    (∀ (c : String) (x : string), c.valid →
      (∃ c1, c.Store x = .ok c1) ∧ ∃ c1, c.UnmarshalText x = .ok (none, c1)) := by
  refine ⟨?_, ?_, ?_⟩
  · intro c c1 x ops hv hs
    rw [String.Store_of_valid c x hv] at hs
    have h1 : c1 = ⟨⟨⟨some (Any.string x)⟩⟩⟩ := (Except.ok.inj hs).symm
    subst h1
    exact ⟨_, String.run_stored ops x, by simp [Value.Load, SyncValue.Load], rfl⟩
  · intro c c1 x ops hv hs
    unfold String.UnmarshalText at hs
    rw [String.Store_of_valid c x hv] at hs
    have h1 : c1 = ⟨⟨⟨some (Any.string x)⟩⟩⟩ := (Prod.mk.inj (Except.ok.inj hs)).2.symm
    subst h1
    exact ⟨_, String.run_stored ops x, by simp [Value.Load, SyncValue.Load], rfl⟩
  · intro c x hv
    refine ⟨⟨_, String.Store_of_valid c x hv⟩, ⟨⟨⟨⟨some (Any.string x)⟩⟩⟩, ?_⟩⟩
    unfold String.UnmarshalText
    rw [String.Store_of_valid c x hv]
    rfl

/-- Witness of C16: from the zero value, `Store("abc")`, then `Load`, `Store("")`,
`MarshalText` leave a cell that is not nil and loads the empty string. -/
theorem C16_string_stays_written_witness :
    String.zero.valid ∧
    String.zero.Store [97, 98, 99] = .ok ⟨⟨⟨some (Any.string [97, 98, 99])⟩⟩⟩ ∧
    ∃ c2, String.run ⟨⟨⟨some (Any.string [97, 98, 99])⟩⟩⟩
        [StringOp.Load, StringOp.Store [], StringOp.MarshalText] = .ok c2 ∧
      c2.v.Load ≠ none ∧
      c2.Load = .ok (lastStored [97, 98, 99]
        [StringOp.Load, StringOp.Store [], StringOp.MarshalText]) :=
  ⟨by decide, by decide,
   C16_string_stays_written.1 String.zero ⟨⟨⟨some (Any.string [97, 98, 99])⟩⟩⟩ [97, 98, 99]
     [StringOp.Load, StringOp.Store [], StringOp.MarshalText] (by decide) (by decide)⟩

/-! ## C17: Duration over Int64 -/

/-- C17: every Duration operation is the Int64 operation on the `int64` count, converted
at the boundary: `NewDuration(d).Load()` is `d`; `Add(n)` returns and stores the wrapped
sum, `Sub(n)` the wrapped difference; `Swap(n)` returns the held value and stores `n`;
`CAS(old, new)` returns what `Int64.CAS` returns and leaves the cell it leaves. -/
theorem C17_duration_refines_int64 :
    (∀ d : time.Duration, (NewDuration d).Load = d ∧ (NewDuration d).v = NewInt64 d) ∧
    (∀ (c : Duration) (n : time.Duration),
      (c.Add n).1 = (c.v.Add n).1 ∧ (c.Add n).2.v = (c.v.Add n).2 ∧
      (c.Add n).1 = wrapInt64 (c.Load + n) ∧ (c.Add n).2.Load = (c.Add n).1) ∧
    (∀ (c : Duration) (n : time.Duration),
      (c.Sub n).1 = (c.v.Sub n).1 ∧ (c.Sub n).2.v = (c.v.Sub n).2 ∧
      (c.Sub n).1 = wrapInt64 (c.Load - n) ∧ (c.Sub n).2.Load = (c.Sub n).1) ∧
    (∀ (c : Duration) (n : time.Duration),
      (c.Swap n).1 = (c.v.Swap n).1 ∧ (c.Swap n).2.v = (c.v.Swap n).2 ∧
      (c.Swap n).1 = c.Load ∧ (c.Swap n).2.Load = n) ∧
    (∀ (c : Duration) (old new : time.Duration),
      (c.CAS old new).1 = (c.v.CAS old new).1 ∧ (c.CAS old new).2.v = (c.v.CAS old new).2) := by
  refine ⟨?_, ?_, ?_, ?_, ?_⟩
  · intro d; exact ⟨rfl, rfl⟩
  · intro c n; exact ⟨rfl, rfl, rfl, rfl⟩
  · intro c n; exact ⟨rfl, rfl, wrapInt64_add_neg_eq c.v.v n, rfl⟩
  · intro c n; exact ⟨rfl, rfl, rfl, rfl⟩
  · intro c old new; exact ⟨rfl, rfl⟩

/-! ## C18: Add, Sub, Inc and Dec -/

/-- C18: for Int64, Uint32, Uintptr and Duration, `Add(n)` then `Sub(n)` and `Sub(n)`
then `Add(n)` leave `Load()` as it was; `Inc()` is `Add(1)` and `Dec()` is `Sub(1)`, value
and state; so `Inc` then `Dec` restores the value, also from `MaxInt64` and `MaxUint32`,
and `Dec` on an unsigned cell holding 0 gives the largest value. -/
theorem C18_add_sub_inverse :
    (∀ (i : Int64) (n : int64), isInt64 i.Load →
      ((i.Add n).2.Sub n).2.Load = i.Load ∧ ((i.Sub n).2.Add n).2.Load = i.Load) ∧
    (∀ (i : Uint32) (n : uint32), isUint 32 i.Load → isUint 32 n →
      ((i.Add n).2.Sub n).2.Load = i.Load ∧ ((i.Sub n).2.Add n).2.Load = i.Load) ∧
    (∀ (w : Nat) (i : Uintptr) (n : uintptr), isUint w i.Load → isUint w n →
      ((i.Add w n).2.Sub w n).2.Load = i.Load ∧ ((i.Sub w n).2.Add w n).2.Load = i.Load) ∧
    (∀ (d : Duration) (n : time.Duration), isInt64 d.Load →
      ((d.Add n).2.Sub n).2.Load = d.Load ∧ ((d.Sub n).2.Add n).2.Load = d.Load) ∧
    (∀ i : Int64, i.Inc = i.Add 1 ∧ i.Dec = i.Sub 1) ∧
    (∀ i : Uint32, i.Inc = i.Add 1 ∧ i.Dec = i.Sub 1) ∧
    (∀ (w : Nat) (i : Uintptr), i.Inc w = i.Add w 1 ∧ i.Dec w = i.Sub w 1) ∧
    (∀ i : Int64, isInt64 i.Load → (i.Inc.2.Dec).2.Load = i.Load) ∧
    (∀ i : Uint32, isUint 32 i.Load → (i.Inc.2.Dec).2.Load = i.Load) ∧
    (∀ (w : Nat) (i : Uintptr), 0 < w → isUint w i.Load →
      ((i.Inc w).2.Dec w).2.Load = i.Load) ∧
    ((NewInt64 MaxInt64).Inc.1 = MinInt64 ∧ ((NewInt64 MaxInt64).Inc.2.Dec).1 = MaxInt64) ∧
    ((NewUint32 MaxUint32).Inc.1 = 0 ∧ ((NewUint32 MaxUint32).Inc.2.Dec).1 = MaxUint32) ∧
    ((NewUint32 0).Dec.1 = MaxUint32 ∧ ((NewUint32 0).Dec.2.Inc).1 = 0) := by
  have hi : ∀ (i : Int64) (n : int64), isInt64 i.Load →
      ((i.Add n).2.Sub n).2.Load = i.Load ∧ ((i.Sub n).2.Add n).2.Load = i.Load :=
    fun i n h => ⟨wrapInt64_add_sub_cancel i.v n h, wrapInt64_sub_add_cancel i.v n h⟩
  have hu : ∀ (i : Uint32) (n : uint32), isUint 32 i.Load → isUint 32 n →
      ((i.Add n).2.Sub n).2.Load = i.Load ∧ ((i.Sub n).2.Add n).2.Load = i.Load := by
    intro i n hc hn
    constructor
    · rw [Uint32_Sub_eq _ n hn]
      exact addUint_add_sub_cancel 32 i.v n hc hn
    · rw [Uint32_Sub_eq i n hn]
      exact addUint_sub_add_cancel 32 i.v n hc hn
  have hp : ∀ (w : Nat) (i : Uintptr) (n : uintptr), isUint w i.Load → isUint w n →
      ((i.Add w n).2.Sub w n).2.Load = i.Load ∧ ((i.Sub w n).2.Add w n).2.Load = i.Load := by
    intro w i n hc hn
    constructor
    · rw [Uintptr_Sub_eq w _ n hn]
      exact addUint_add_sub_cancel w i.v.word n hc hn
    · rw [Uintptr_Sub_eq w i n hn]
      exact addUint_sub_add_cancel w i.v.word n hc hn
  refine ⟨hi, hu, hp, ?_, fun i => ⟨rfl, rfl⟩, fun i => ⟨rfl, rfl⟩, fun w i => ⟨rfl, rfl⟩,
    fun i h => (hi i 1 h).1, fun i h => (hu i 1 h (by decide)).1, ?_,
    ⟨by decide, by decide⟩, ⟨by decide, by decide⟩, ⟨by decide, by decide⟩⟩
  · intro d n h
    exact ⟨wrapInt64_add_sub_cancel d.v.v n h, wrapInt64_sub_add_cancel d.v.v n h⟩
  · intro w i hw h
    have h1 : (1 : Nat) < 2 ^ w := Nat.one_lt_two_pow (Nat.pos_iff_ne_zero.1 hw)
    exact (hp w i 1 h h1).1

/-- Witness of C18: on an Int64 holding 5, `Add(7)` then `Sub(7)` gives 5 again; on a
Uint32 holding 3, `Sub(5)` then `Add(5)` gives 3 again although the difference wrapped. -/
theorem C18_add_sub_inverse_witness :
    isInt64 (NewInt64 5).Load ∧ (((NewInt64 5).Add 7).2.Sub 7).2.Load = 5 ∧
    isUint 32 (NewUint32 3).Load ∧ isUint 32 5 ∧ (((NewUint32 3).Sub 5).2.Add 5).2.Load = 3 :=
  ⟨by decide, (C18_add_sub_inverse.1 (NewInt64 5) 7 (by decide)).1,
   by decide, by decide,
   (C18_add_sub_inverse.2.1 (NewUint32 3) 5 (by decide) (by decide)).2⟩

/-! ## C19: the raw field of a reachable Bool -/

/-- C19: every Bool reachable from the zero value or from `NewBool(b)` by `Store`, `Swap`,
`CAS`, `Toggle` and `UnmarshalJSON` has its raw field in {0, 1}, equal to 1 exactly when
`Load()` is true, and every operation on it returns.  A reachable Bool with
`Load() = false` is therefore the zero value: it marshals to `false`, `String()` is
`false`, `CAS(false, true)` returns true and leaves true, `Swap(true)` returns false. -/
theorem C19_bool_reachable :
    (∀ (ε : Type) (j : json ε bool) (b : Bool), Bool.Reachable j b →
      (b.v = 0 ∨ b.v = 1) ∧ (b.v = 1 ↔ b.Load = true) ∧
      ∀ (op : BoolOp) (fuel : Nat), ∃ b2, Bool.step j (fuel + 1) b op = some b2) ∧
    (∀ (ε : Type) (j : json ε bool) (b : Bool), Bool.Reachable j b → b.Load = false →
      b = ⟨0⟩ ∧ b.MarshalJSON jsonBool = .ok litFalse ∧ b.String = litFalse ∧
      (b.CAS false true).1 = true ∧ (b.CAS false true).2.Load = true ∧
      (b.Swap true).1 = false) ∧
    (NewBool false = ⟨0⟩ ∧ ((NewBool true).Swap false).2 = ⟨0⟩ ∧
      (NewBool true).CAS true false = (true, ⟨0⟩)) := by
  refine ⟨?_, ?_, by decide, by decide, by decide⟩
  · intro ε j b hr
    have hb := Bool.valid_of_Reachable j b hr
    refine ⟨hb, ?_, ?_⟩
    · have hraw := Bool.raw_eq_of_valid hb
      cases hl : b.Load <;> rw [hl] at hraw <;> simp [hraw, boolToInt]
    · intro op fuel
      cases op with
      | Store v => exact ⟨_, rfl⟩
      | Swap v => exact ⟨_, rfl⟩
      | CAS old new => exact ⟨_, rfl⟩
      | Toggle =>
        exact ⟨NewBool (!b.Load), by
          simp only [Bool.step, Bool.Toggle_of_valid b fuel hb, Option.map_some']⟩
      | UnmarshalJSON t => exact ⟨_, rfl⟩
  · intro ε j b hr hl
    have h0 := Bool.eq_zero_of_valid b (Bool.valid_of_Reachable j b hr) hl
    subst h0
    decide

/-- Witness of C19: `NewBool(true)` after `Toggle` is reachable, loads false, and so is
the zero value. -/
theorem C19_bool_reachable_witness :
    Bool.Reachable jsonBool (NewBool false) ∧ (NewBool false).Load = false ∧
    (NewBool false).MarshalJSON jsonBool = .ok litFalse ∧
    ((NewBool false).CAS false true).2.Load = true :=
  ⟨Bool.Reachable.step (NewBool true) (NewBool false) 1 BoolOp.Toggle
     (Bool.Reachable.new true) (by decide),
   by decide,
   (C19_bool_reachable.2.1 jsonError jsonBool (NewBool false)
     (Bool.Reachable.step (NewBool true) (NewBool false) 1 BoolOp.Toggle
       (Bool.Reachable.new true) (by decide)) (by decide)).2.1,
   (C19_bool_reachable.2.1 jsonError jsonBool (NewBool false)
     (Bool.Reachable.step (NewBool true) (NewBool false) 1 BoolOp.Toggle
       (Bool.Reachable.new true) (by decide)) (by decide)).2.2.2.2.1⟩

/-! ## C20: text forms of a Bool -/

/-- C20: for every Bool cell `String()` is `true` when `Load()` is true and `false`
otherwise, so the zero value gives `false`; `MarshalJSON()` returns the bytes `true` or
`false` accordingly, with a nil error. -/
theorem C20_bool_text :
    (∀ b : Bool, b.String = (if b.Load then [116, 114, 117, 101] else [102, 97, 108, 115, 101])) ∧
    (∀ b : Bool, b.MarshalJSON jsonBool =
      .ok (if b.Load then [116, 114, 117, 101] else [102, 97, 108, 115, 101])) ∧
    (Bool.String ⟨0⟩ = [102, 97, 108, 115, 101] ∧
      Bool.MarshalJSON jsonBool ⟨0⟩ = .ok [102, 97, 108, 115, 101]) ∧
    ((NewBool true).String = [116, 114, 117, 101] ∧
      (NewBool true).MarshalJSON jsonBool = .ok [116, 114, 117, 101]) := by
  refine ⟨?_, ?_, ⟨by decide, by decide⟩, ⟨by decide, by decide⟩⟩
  · intro b
    unfold Bool.String strconv.FormatBool
    cases b.Load <;> rfl
  · intro b
    unfold Bool.MarshalJSON
    cases b.Load <;> rfl

/-! ## C21: Time.Add and Time.Round -/

/-- C21, evaluated on the code: `Time.Add(d)` and `Time.Round(d)` return `x.Add(d)` and
`x.Round(d)` of the time `x` the cell holds, and do not store: the cell after the call is
the cell before it and `Load()` still returns `x`.  On a cell holding the instant 5 ns,
`Add(1)` returns the instant 6 ns and `Load()` then returns 5 ns. -/
theorem C21_time_add_does_not_store :
    (∀ (t : Time) (d : time.Duration),
      (t.Add d).1 = t.Load.Add d ∧ (t.Add d).2 = t ∧ (t.Add d).2.Load = t.Load) ∧
    (∀ (t : Time) (d : time.Duration),
      (t.Round d).1 = t.Load.Round d ∧ (t.Round d).2 = t ∧ (t.Round d).2.Load = t.Load) ∧
    (Time.Load ⟨⟨⟨packTime ⟨5⟩⟩⟩⟩ = ⟨5⟩ ∧
      (Time.Add ⟨⟨⟨packTime ⟨5⟩⟩⟩⟩ 1).1 = ⟨6⟩ ∧
      (Time.Add ⟨⟨⟨packTime ⟨5⟩⟩⟩⟩ 1).2.Load = ⟨5⟩ ∧
      (Time.Add ⟨⟨⟨packTime ⟨5⟩⟩⟩⟩ 1).2.Load ≠ (Time.Add ⟨⟨⟨packTime ⟨5⟩⟩⟩⟩ 1).1) ∧
    ((Time.Round ⟨⟨⟨packTime ⟨5⟩⟩⟩⟩ 10).1 = ⟨10⟩ ∧
      (Time.Round ⟨⟨⟨packTime ⟨5⟩⟩⟩⟩ 10).2.Load = ⟨5⟩) := by
  refine ⟨fun t d => ⟨rfl, rfl, rfl⟩, fun t d => ⟨rfl, rfl, rfl⟩, ?_, ?_⟩
  · exact ⟨by decide, by decide, by decide, by decide⟩
  · exact ⟨by decide, by decide⟩

/-! ## C22: the configuration error of the generators -/

/-- C22: after a successful parse of the flags, `run` of gen-valuewrapper returns the error
`flags -name, -type, and -zero are required` exactly when one of the three is empty, and
`run` of gen-atomicint returns `flags -name and -wrapped are required` exactly when one
of the two is empty; a run that returns it has no effect: no file is created, nothing is
rendered, nothing is written. -/
theorem C22_config_error :
    (∀ (format : text → Except text text) (env : GenEnv) (opts : valuewrapper.Opts),
      ((valuewrapper.run format env (.ok opts)).1 =
          some (.config "flags -name, -type, and -zero are required") ↔
        (opts.Name.length = 0 ∨ opts.Type_.length = 0 ∨ opts.Zero.length = 0)) ∧
      ((valuewrapper.run format env (.ok opts)).1 =
          some (.config "flags -name, -type, and -zero are required") →
        (valuewrapper.run format env (.ok opts)).2 = [])) ∧
    (∀ (tmpl : atomicint.Data → Except text text) (format : text → Except text text)
      (env : GenEnv) (opts : atomicint.Opts),
      ((atomicint.run tmpl format env (.ok opts)).1 =
          some (.config "flags -name and -wrapped are required") ↔
        (opts.Name.length = 0 ∨ opts.Wrapped.length = 0)) ∧
      ((atomicint.run tmpl format env (.ok opts)).1 =
          some (.config "flags -name and -wrapped are required") →
        (atomicint.run tmpl format env (.ok opts)).2 = [])) := by
  constructor
  · intro format env opts
    by_cases h : opts.Name.length = 0 ∨ opts.Type_.length = 0 ∨ opts.Zero.length = 0
    · have hr : valuewrapper.run format env (.ok opts) =
          (some (.config "flags -name, -type, and -zero are required"), []) := by
        simp only [valuewrapper.run, if_pos h]
      rw [hr]
      exact ⟨⟨fun _ => h, fun _ => rfl⟩, fun _ => rfl⟩
    · have hne : (valuewrapper.run format env (.ok opts)).1 ≠
          some (.config "flags -name, -type, and -zero are required") := by
        simp only [valuewrapper.run, if_neg h, valuewrapper.Execute]
        split
        · simp
        · split
          · simp
          · cases env.write _ _ <;> simp
      exact ⟨⟨fun hc => absurd hc hne, fun hc => absurd hc h⟩, fun hc => absurd hc hne⟩
  · intro tmpl format env opts
    by_cases h : opts.Name.length = 0 ∨ opts.Wrapped.length = 0
    · have hr : atomicint.run tmpl format env (.ok opts) =
          (some (.config "flags -name and -wrapped are required"), []) := by
        simp only [atomicint.run, if_pos h]
      rw [hr]
      exact ⟨⟨fun _ => h, fun _ => rfl⟩, fun _ => rfl⟩
    · have hne : (atomicint.run tmpl format env (.ok opts)).1 ≠
          some (.config "flags -name and -wrapped are required") := by
        simp only [atomicint.run, if_neg h]
        split
        · simp
        · split
          · simp
          · split
            · simp
            · cases env.write _ _ <;> simp
      exact ⟨⟨fun hc => absurd hc hne, fun hc => absurd hc h⟩, fun hc => absurd hc hne⟩

/-- Witness of C22: gen-valuewrapper with an empty `-type` returns the configuration
error and has no effect, also with an output file named. -/
theorem C22_config_error_witness :
    (valuewrapper.run (fun s => .ok s) ⟨fun _ => none, fun _ _ => none, 2023⟩
        (.ok ⟨"Error", "", "nil", "error.go"⟩)).1 =
      some (.config "flags -name, -type, and -zero are required") ∧
    (valuewrapper.run (fun s => .ok s) ⟨fun _ => none, fun _ _ => none, 2023⟩
        (.ok ⟨"Error", "", "nil", "error.go"⟩)).2 = [] :=
  ⟨by decide,
   (C22_config_error.1 (fun s => .ok s) ⟨fun _ => none, fun _ _ => none, 2023⟩
     ⟨"Error", "", "nil", "error.go"⟩).2 (by decide)⟩

/-! ## C23: what the generated text depends on -/

/-- C23, as stated, fails for gen-atomicint: the data handed to its template holds the
year of the run, so two runs on the same descriptor, one in 2022 and one in 2023, hand
different data to the template. -/
theorem C23_data_depends_on_year_counterexample :
    atomicint.data ⟨"Uintptr", "uintptr", "uintptr_go119.go", true⟩ 2022 ≠
      atomicint.data ⟨"Uintptr", "uintptr", "uintptr_go119.go", true⟩ 2023 := by
  decide

/-- C23, amended: two runs of gen-valuewrapper on the same descriptor that both return
nil have the same effects, byte for byte, whatever else differs around them; two runs of
gen-atomicint on the same descriptor that both return nil have the same effects when
they take place in the same year, the year being part of the data handed to the
template. -/
theorem C23_generator_output :
    (∀ (format : text → Except text text) (env1 env2 : GenEnv) (opts : valuewrapper.Opts),
      (valuewrapper.run format env1 (.ok opts)).1 = none →
      (valuewrapper.run format env2 (.ok opts)).1 = none →
      (valuewrapper.run format env1 (.ok opts)).2 =
        (valuewrapper.run format env2 (.ok opts)).2) ∧
    (∀ (tmpl : atomicint.Data → Except text text) (format : text → Except text text)
      (env1 env2 : GenEnv) (opts : atomicint.Opts), env1.year = env2.year →
      (atomicint.run tmpl format env1 (.ok opts)).1 = none →
      (atomicint.run tmpl format env2 (.ok opts)).1 = none →
      (atomicint.run tmpl format env1 (.ok opts)).2 =
        (atomicint.run tmpl format env2 (.ok opts)).2) ∧
    (∀ (opts : atomicint.Opts) (year : Nat),
      atomicint.data opts year =
        { Name := opts.Name, Wrapped := opts.Wrapped, Unsigned := opts.Unsigned,
          ToYear := year }) := by
  refine ⟨?_, ?_, fun _ _ => rfl⟩
  · intro format env1 env2 opts h1 h2
    obtain ⟨bs1, hf1, he1⟩ := valuewrapper_run_ok format env1 opts h1
    obtain ⟨bs2, hf2, he2⟩ := valuewrapper_run_ok format env2 opts h2
    have hb : bs1 = bs2 := Except.ok.inj (hf1.symm.trans hf2)
    rw [he1, he2, hb]
  · intro tmpl format env1 env2 opts hy h1 h2
    obtain ⟨buff1, bs1, ht1, hf1, he1⟩ := atomicint_run_ok tmpl format env1 opts h1
    obtain ⟨buff2, bs2, ht2, hf2, he2⟩ := atomicint_run_ok tmpl format env2 opts h2
    rw [hy] at ht1
    have hbuff : buff1 = buff2 := Except.ok.inj (ht1.symm.trans ht2)
    rw [hbuff] at hf1
    have hb : bs1 = bs2 := Except.ok.inj (hf1.symm.trans hf2)
    rw [he1, he2, hb]

/-- Witness of C23: two runs of gen-valuewrapper for `Error`, one writing in 2022 and one
in 2023, both succeed and have the same effects. -/
theorem C23_generator_output_witness :
    (valuewrapper.run (fun s => .ok s) ⟨fun _ => none, fun _ _ => none, 2022⟩
        (.ok ⟨"Error", "error", "nil", "error.go"⟩)).1 = none ∧
    (valuewrapper.run (fun s => .ok s) ⟨fun _ => none, fun _ _ => none, 2023⟩
        (.ok ⟨"Error", "error", "nil", "error.go"⟩)).1 = none ∧
    (valuewrapper.run (fun s => .ok s) ⟨fun _ => none, fun _ _ => none, 2022⟩
        (.ok ⟨"Error", "error", "nil", "error.go"⟩)).2 =
      (valuewrapper.run (fun s => .ok s) ⟨fun _ => none, fun _ _ => none, 2023⟩
        (.ok ⟨"Error", "error", "nil", "error.go"⟩)).2 :=
  ⟨by decide, by decide,
   C23_generator_output.1 (fun s => .ok s) ⟨fun _ => none, fun _ _ => none, 2022⟩
     ⟨fun _ => none, fun _ _ => none, 2023⟩ ⟨"Error", "error", "nil", "error.go"⟩
     (by decide) (by decide)⟩

/-! ## C24: the nillable pattern of gen-valuewrapper -/

/-- C24: gen-valuewrapper sets `Nillable` exactly when the zero literal is the text `nil`.
For any other zero literal the `if .Nillable` block of the template emits nothing, and
the rendered text is the head of the template followed by the constructor and by `Load`
and `Store` with the wrapped type in the place of the stored type, of wrap and of unwrap:
`Load` returns `T(v.(T))` and `Store` stores `T(v)` for the wrapped type `T`.  For `nil`
the names are `stored<Name>`, `wrap<Name>` and `unwrap<Name>`, the block emits the
declarations of that struct and of those two functions, and `Load` and `Store` use
them. -/
theorem C24_nillable_selection :
    (∀ opts : valuewrapper.Opts,
      (valuewrapper.data opts).Nillable = true ↔ opts.Zero = "nil") ∧
    (∀ opts : valuewrapper.Opts, opts.Zero ≠ "nil" →
      valuewrapper.vars (valuewrapper.data opts) = (opts.Type_, opts.Type_, opts.Type_) ∧
      valuewrapper.tmplWrapper (valuewrapper.data opts) = "" ∧
      valuewrapper.tmpl (valuewrapper.data opts) =
        valuewrapper.tmplHead (valuewrapper.data opts) ++
          valuewrapper.tmplTail (valuewrapper.data opts) opts.Type_ opts.Type_ opts.Type_ ∧
      valuewrapper.tmpl (valuewrapper.data opts) =
        (valuewrapper.licence ++ "\npackage atomic\n\n// " ++ opts.Name ++
          " is an atomic type-safe wrapper for " ++ opts.Type_ ++ " values.\ntype " ++
          opts.Name ++ " struct\x7b v Value \x7d\n\n\n\n\n\n") ++
        ("\n\n// New" ++ opts.Name ++ " creates a new " ++ opts.Name ++ ".\nfunc New" ++
          opts.Name ++ "(v " ++ opts.Type_ ++ ") *" ++ opts.Name ++ " \x7b\n\tx := &" ++
          opts.Name ++ "\x7b\x7d\n\tif v != " ++ opts.Zero ++
          " \x7b\n\t\tx.Store(v)\n\t\x7d\n\treturn x\n\x7d\n\n" ++
          "// Load atomically loads the wrapped " ++ opts.Type_ ++ ".\nfunc (x *" ++
          opts.Name ++ ") Load() " ++ opts.Type_ ++
          " \x7b\n\tv := x.v.Load()\n\tif v == nil \x7b\n\t\treturn " ++ opts.Zero ++
          "\n\t\x7d\n\treturn " ++ opts.Type_ ++ "(v.(" ++ opts.Type_ ++ "))\n\x7d\n\n" ++
          "// Store atomically stores the passed " ++ opts.Type_ ++
          ".\n//\n// NOTE: This will cause an allocation.\nfunc (x *" ++ opts.Name ++
          ") Store(v " ++ opts.Type_ ++ ") \x7b\n\tx.v.Store(" ++ opts.Type_ ++
          "(v))\n\x7d\n")) ∧
    (∀ opts : valuewrapper.Opts, opts.Zero = "nil" →
      valuewrapper.vars (valuewrapper.data opts) =
        ("stored" ++ opts.Name, "wrap" ++ opts.Name, "unwrap" ++ opts.Name) ∧
      valuewrapper.tmplWrapper (valuewrapper.data opts) =
        "\n\t\n\t\n\n\ttype " ++ ("stored" ++ opts.Name) ++ " struct\x7b Value " ++
        opts.Type_ ++ " \x7d\n\n\tfunc " ++ ("wrap" ++ opts.Name) ++ "(v " ++ opts.Type_ ++
        ") " ++ ("stored" ++ opts.Name) ++ " \x7b\n\t\treturn " ++ ("stored" ++ opts.Name) ++
        "\x7bv\x7d\n\t\x7d\n\n\tfunc " ++ ("unwrap" ++ opts.Name) ++ "(v " ++
        ("stored" ++ opts.Name) ++ ") " ++ opts.Type_ ++
        " \x7b\n\t\treturn v.Value\n\t\x7d" ∧
      valuewrapper.tmpl (valuewrapper.data opts) =
        valuewrapper.tmplHead (valuewrapper.data opts) ++
        valuewrapper.tmplWrapper (valuewrapper.data opts) ++
        ("\n\n// New" ++ opts.Name ++ " creates a new " ++ opts.Name ++ ".\nfunc New" ++
          opts.Name ++ "(v " ++ opts.Type_ ++ ") *" ++ opts.Name ++ " \x7b\n\tx := &" ++
          opts.Name ++ "\x7b\x7d\n\tif v != " ++ opts.Zero ++
          " \x7b\n\t\tx.Store(v)\n\t\x7d\n\treturn x\n\x7d\n\n" ++
          "// Load atomically loads the wrapped " ++ opts.Type_ ++ ".\nfunc (x *" ++
          opts.Name ++ ") Load() " ++ opts.Type_ ++
          " \x7b\n\tv := x.v.Load()\n\tif v == nil \x7b\n\t\treturn " ++ opts.Zero ++
          "\n\t\x7d\n\treturn " ++ ("unwrap" ++ opts.Name) ++ "(v.(" ++
          ("stored" ++ opts.Name) ++ "))\n\x7d\n\n" ++
          "// Store atomically stores the passed " ++ opts.Type_ ++
          ".\n//\n// NOTE: This will cause an allocation.\nfunc (x *" ++ opts.Name ++
          ") Store(v " ++ opts.Type_ ++ ") \x7b\n\tx.v.Store(" ++ ("wrap" ++ opts.Name) ++
          "(v))\n\x7d\n")) := by
  refine ⟨?_, ?_, ?_⟩
  · intro opts
    simp [valuewrapper.data]
  · intro opts h
    have hn : (valuewrapper.data opts).Nillable = false := by simp [valuewrapper.data, h]
    have hv : valuewrapper.vars (valuewrapper.data opts) =
        (opts.Type_, opts.Type_, opts.Type_) := by
      simp only [valuewrapper.vars, hn, Bool.false_eq_true, if_false]
      rfl
    have hw : valuewrapper.tmplWrapper (valuewrapper.data opts) = "" := by
      simp only [valuewrapper.tmplWrapper, hn, Bool.false_eq_true, if_false]
    have ht : valuewrapper.tmpl (valuewrapper.data opts) =
        valuewrapper.tmplHead (valuewrapper.data opts) ++
          valuewrapper.tmplTail (valuewrapper.data opts) opts.Type_ opts.Type_
            opts.Type_ := by
      simp only [valuewrapper.tmpl, hw, hv, String.append_empty]
    refine ⟨hv, hw, ht, ?_⟩
    rw [ht]
    rfl
  · intro opts h
    have hn : (valuewrapper.data opts).Nillable = true := by simp [valuewrapper.data, h]
    have hv : valuewrapper.vars (valuewrapper.data opts) =
        ("stored" ++ opts.Name, "wrap" ++ opts.Name, "unwrap" ++ opts.Name) := by
      simp only [valuewrapper.vars, hn, if_true]
      rfl
    refine ⟨hv, ?_, ?_⟩
    · simp only [valuewrapper.tmplWrapper, hn, if_true, hv]
      rfl
    · simp only [valuewrapper.tmpl, hv]
      rfl

/-- Witness of C24: for `String` over `string` with the zero literal `""` the whole
rendered text is the one below, with nothing declared between the cell type and the
constructor, `string(v.(string))` in `Load` and `string(v)` in `Store`; for `Error` over
`error` with `nil` the rendered text declares `storedError`, `wrapError` and
`unwrapError` and uses them in `Load` and `Store`. -/
theorem C24_nillable_selection_witness :
    ((valuewrapper.tmplWrapper (valuewrapper.data ⟨"String", "string", "\"\"", ""⟩) = "" ∧
      valuewrapper.vars (valuewrapper.data ⟨"String", "string", "\"\"", ""⟩) =
        ("string", "string", "string")) ∧
    valuewrapper.vars (valuewrapper.data ⟨"Error", "error", "nil", ""⟩) =
      ("storedError", "wrapError", "unwrapError")) ∧
    valuewrapper.tmpl (valuewrapper.data ⟨"String", "string", "\"\"", ""⟩) =
      "// Copyright (c) 2020 Uber Technologies, Inc.\n" ++
      "//\n" ++
      "// Permission is hereby granted, free of charge, to any person obtaining a copy\n" ++
      "// of this software and associated documentation files (the \"Software\"), to deal\n" ++
      "// in the Software without restriction, including without limitation the rights\n" ++
      "// to use, copy, modify, merge, publish, distribute, sublicense, and/or sell\n" ++
      "// copies of the Software, and to permit persons to whom the Software is\n" ++
      "// furnished to do so, subject to the following conditions:\n" ++
      "//\n" ++
      "// The above copyright notice and this permission notice shall be included in\n" ++
      "// all copies or substantial portions of the Software.\n" ++
      "//\n" ++
      "// THE SOFTWARE IS PROVIDED \"AS IS\", WITHOUT WARRANTY OF ANY KIND, EXPRESS OR\n" ++
      "// IMPLIED, INCLUDING BUT NOT LIMITED TO THE WARRANTIES OF MERCHANTABILITY,\n" ++
      "// FITNESS FOR A PARTICULAR PURPOSE AND NONINFRINGEMENT. IN NO EVENT SHALL THE\n" ++
      "// AUTHORS OR COPYRIGHT HOLDERS BE LIABLE FOR ANY CLAIM, DAMAGES OR OTHER\n" ++
      "// LIABILITY, WHETHER IN AN ACTION OF CONTRACT, TORT OR OTHERWISE, ARISING FROM,\n" ++
      "// OUT OF OR IN CONNECTION WITH THE SOFTWARE OR THE USE OR OTHER DEALINGS IN\n" ++
      "// THE SOFTWARE.\n" ++
      "\n" ++
      "package atomic\n" ++
      "\n" ++
      "// String is an atomic type-safe wrapper for string values.\n" ++
      "type String struct\x7b v Value \x7d\n" ++
      "\n" ++
      "\n" ++
      "\n" ++
      "\n" ++
      "\n" ++
      "\n" ++
      "\n" ++
      "// NewString creates a new String.\n" ++
      "func NewString(v string) *String \x7b\n" ++
      "\tx := &String\x7b\x7d\n" ++
      "\tif v != \"\" \x7b\n" ++
      "\t\tx.Store(v)\n" ++
      "\t\x7d\n" ++
      "\treturn x\n" ++
      "\x7d\n" ++
      "\n" ++
      "// Load atomically loads the wrapped string.\n" ++
      "func (x *String) Load() string \x7b\n" ++
      "\tv := x.v.Load()\n" ++
      "\tif v == nil \x7b\n" ++
      "\t\treturn \"\"\n" ++
      "\t\x7d\n" ++
      "\treturn string(v.(string))\n" ++
      "\x7d\n" ++
      "\n" ++
      "// Store atomically stores the passed string.\n" ++
      "//\n" ++
      "// NOTE: This will cause an allocation.\n" ++
      "func (x *String) Store(v string) \x7b\n" ++
      "\tx.v.Store(string(v))\n" ++
      "\x7d\n" ∧
    valuewrapper.tmpl (valuewrapper.data ⟨"Error", "error", "nil", ""⟩) =
      "// Copyright (c) 2020 Uber Technologies, Inc.\n" ++
      "//\n" ++
      "// Permission is hereby granted, free of charge, to any person obtaining a copy\n" ++
      "// of this software and associated documentation files (the \"Software\"), to deal\n" ++
      "// in the Software without restriction, including without limitation the rights\n" ++
      "// to use, copy, modify, merge, publish, distribute, sublicense, and/or sell\n" ++
      "// copies of the Software, and to permit persons to whom the Software is\n" ++
      "// furnished to do so, subject to the following conditions:\n" ++
      "//\n" ++
      "// The above copyright notice and this permission notice shall be included in\n" ++
      "// all copies or substantial portions of the Software.\n" ++
      "//\n" ++
      "// THE SOFTWARE IS PROVIDED \"AS IS\", WITHOUT WARRANTY OF ANY KIND, EXPRESS OR\n" ++
      "// IMPLIED, INCLUDING BUT NOT LIMITED TO THE WARRANTIES OF MERCHANTABILITY,\n" ++
      "// FITNESS FOR A PARTICULAR PURPOSE AND NONINFRINGEMENT. IN NO EVENT SHALL THE\n" ++
      "// AUTHORS OR COPYRIGHT HOLDERS BE LIABLE FOR ANY CLAIM, DAMAGES OR OTHER\n" ++
      "// LIABILITY, WHETHER IN AN ACTION OF CONTRACT, TORT OR OTHERWISE, ARISING FROM,\n" ++
      "// OUT OF OR IN CONNECTION WITH THE SOFTWARE OR THE USE OR OTHER DEALINGS IN\n" ++
      "// THE SOFTWARE.\n" ++
      "\n" ++
      "package atomic\n" ++
      "\n" ++
      "// Error is an atomic type-safe wrapper for error values.\n" ++
      "type Error struct\x7b v Value \x7d\n" ++
      "\n" ++
      "\n" ++
      "\n" ++
      "\n" ++
      "\n" ++
      "\n" ++
      "\t\n" ++
      "\t\n" ++
      "\n" ++
      "\ttype storedError struct\x7b Value error \x7d\n" ++
      "\n" ++
      "\tfunc wrapError(v error) storedError \x7b\n" ++
      "\t\treturn storedError\x7bv\x7d\n" ++
      "\t\x7d\n" ++
      "\n" ++
      "\tfunc unwrapError(v storedError) error \x7b\n" ++
      "\t\treturn v.Value\n" ++
      "\t\x7d\n" ++
      "\n" ++
      "// NewError creates a new Error.\n" ++
      "func NewError(v error) *Error \x7b\n" ++
      "\tx := &Error\x7b\x7d\n" ++
      "\tif v != nil \x7b\n" ++
      "\t\tx.Store(v)\n" ++
      "\t\x7d\n" ++
      "\treturn x\n" ++
      "\x7d\n" ++
      "\n" ++
      "// Load atomically loads the wrapped error.\n" ++
      "func (x *Error) Load() error \x7b\n" ++
      "\tv := x.v.Load()\n" ++
      "\tif v == nil \x7b\n" ++
      "\t\treturn nil\n" ++
      "\t\x7d\n" ++
      "\treturn unwrapError(v.(storedError))\n" ++
      "\x7d\n" ++
      "\n" ++
      "// Store atomically stores the passed error.\n" ++
      "//\n" ++
      "// NOTE: This will cause an allocation.\n" ++
      "func (x *Error) Store(v error) \x7b\n" ++
      "\tx.v.Store(wrapError(v))\n" ++
      "\x7d\n" :=
  ⟨⟨⟨(C24_nillable_selection.2.1 ⟨"String", "string", "\"\"", ""⟩ (by decide)).2.1,
    (C24_nillable_selection.2.1 ⟨"String", "string", "\"\"", ""⟩ (by decide)).1⟩,
   (C24_nillable_selection.2.2 ⟨"Error", "error", "nil", ""⟩ (by decide)).1⟩,
   (C24_nillable_selection.2.1 ⟨"String", "string", "\"\"", ""⟩
     (by decide)).2.2.2.trans (by simp [valuewrapper.licence]),
   (C24_nillable_selection.2.2 ⟨"Error", "error", "nil", ""⟩ (by decide)).2.2.trans
     (by simp [valuewrapper.licence, valuewrapper.tmplHead, valuewrapper.tmplWrapper,
       valuewrapper.vars, valuewrapper.data])⟩

/-! ## C25: concurrent Toggle -/

/-- C25: `n` goroutines call `Toggle` on one Bool cell and a schedule interleaves their
atomic steps in any order.  When all of them have returned, exactly `n` swaps have
succeeded, each of them a negation of the cell, and `Load()` is the initial value negated
`n` times: the initial value when `n` is even. -/
theorem C25_concurrent_toggle :
    ∀ (b : Bool) (n : Nat) (sched : List Nat), b.valid →
      ((ToggleSys.init b n).run sched).allDone = true →
      ((ToggleSys.init b n).run sched).flips = n ∧
      ((ToggleSys.init b n).run sched).cell.Load = xor b.Load (decide (n % 2 = 1)) ∧
      (n % 2 = 0 → ((ToggleSys.init b n).run sched).cell.Load = b.Load) := by
  intro b n sched hb hd
  obtain ⟨_, hlen, hfl, hld⟩ :=
    ToggleSys.inv_run b.Load n sched _ (ToggleSys.inv_init b n hb)
  have hcount := ToggleSys.doneCount_of_allDone _ hd
  have hn : ((ToggleSys.init b n).run sched).flips = n := by
    rw [hfl, hcount, hlen]
  rw [hn] at hld
  refine ⟨hn, hld, ?_⟩
  intro he
  rw [hld]
  have : ¬ (n % 2 = 1) := by omega
  simp [this]

/-- Witness of C25: two goroutines on `NewBool(false)`; both load false, the first swaps,
the second fails its swap, loads true and swaps back.  Both have returned, two swaps
succeeded and the cell holds false again. -/
theorem C25_concurrent_toggle_witness :
    (NewBool false).valid ∧
    ((ToggleSys.init (NewBool false) 2).run [0, 1, 0, 1, 1, 1]).allDone = true ∧
    ((ToggleSys.init (NewBool false) 2).run [0, 1, 0, 1, 1, 1]).threads =
      [TogglePc.done false, TogglePc.done true] ∧
    ((ToggleSys.init (NewBool false) 2).run [0, 1, 0, 1, 1, 1]).flips = 2 ∧
    ((ToggleSys.init (NewBool false) 2).run [0, 1, 0, 1, 1, 1]).cell.Load = false :=
  ⟨by decide, by decide, by decide,
   (C25_concurrent_toggle (NewBool false) 2 [0, 1, 0, 1, 1, 1] (by decide) (by decide)).1,
   (C25_concurrent_toggle (NewBool false) 2 [0, 1, 0, 1, 1, 1] (by decide) (by decide)).2.2
     (by decide)⟩

/-! ## C26: Toggle returns in its first iteration -/

/-- C26: on every reachable Bool, with no interleaved writer, the `CAS(old, !old)` issued
after `Load()` returned `old` succeeds, so `Toggle` returns within one iteration.  This
rests on the raw field being 0 or 1: on a raw field of 2, which no operation produces,
`Load()` is false, `CAS(false, true)` fails and the loop never returns. -/
theorem C26_toggle_first_iteration :
    (∀ (ε : Type) (j : json ε bool) (b : Bool), Bool.Reachable j b →
      (b.CAS b.Load (!b.Load)).1 = true ∧
      b.Toggle 1 = some (b.Load, NewBool (!b.Load))) ∧
    ((Bool.mk 2).Load = false ∧ ((Bool.mk 2).CAS false true).1 = false ∧
      ∀ fuel : Nat, Bool.Toggle fuel ⟨2⟩ = none) := by
  refine ⟨?_, by decide, by decide, Bool.Toggle_raw_two⟩
  intro ε j b hr
  have hb := Bool.valid_of_Reachable j b hr
  have hraw := Bool.raw_eq_of_valid hb
  refine ⟨?_, Bool.Toggle_of_valid b 0 hb⟩
  simp only [Bool.CAS, CompareAndSwapUint32, if_pos hraw]

/-- Witness of C26: `NewBool(true)` after `Store(false)` is reachable and `Toggle` with a
bound of one iteration returns false and leaves true. -/
theorem C26_toggle_first_iteration_witness :
    Bool.Reachable jsonBool ((NewBool true).Store false) ∧
    ((NewBool true).Store false).Toggle 1 = some (false, NewBool true) :=
  ⟨Bool.Reachable.step (NewBool true) _ 1 (BoolOp.Store false) (Bool.Reachable.new true) rfl,
   (C26_toggle_first_iteration.1 jsonError jsonBool ((NewBool true).Store false)
     (Bool.Reachable.step (NewBool true) _ 1 (BoolOp.Store false)
       (Bool.Reachable.new true) rfl)).2⟩

/-! ## C27: Float64.Add returns in its first iteration -/

/-- C27: on every Float64 cell, a NaN of any payload included, with no interleaved writer,
the `CAS(old, old + s)` issued after `Load()` returned `old` succeeds, the comparison
being on bit patterns: `Add(s)` returns within one iteration, and so does `Sub(s)`, which
is `Add(-s)`.  A cell holding a NaN returns although the NaN is not equal to itself. -/
theorem C27_float64_add_first_iteration :
    (∀ (f : Float64) (s : float64), isUint 64 f.v →
      (f.CAS f.Load (f.Load.add s)).1 = true ∧
      f.Add 1 s = some (f.Load.add s, NewFloat64 (f.Load.add s)) ∧
      f.Sub 1 s = f.Add 1 s.neg ∧
      f.Sub 1 s = some (f.Load.add s.neg, NewFloat64 (f.Load.add s.neg))) ∧
    (∀ (x s : float64), x.isNaN = true →
      (NewFloat64 x).Add 1 s = some (x.add s, NewFloat64 (x.add s))) ∧
    (nanA.isNaN = true ∧ float64.eq nanA nanA = false ∧
      ((NewFloat64 nanA).Add 1 posZero).isSome = true) := by
  refine ⟨?_, ?_, by decide, by decide, by decide⟩
  · intro f s hv
    refine ⟨?_, Float64.Add_of_word f 0 s hv, rfl, Float64.Add_of_word f 0 s.neg hv⟩
    rw [Float64.CAS_self f hv]
  · intro x s _
    have h := Float64.Add_of_word (NewFloat64 x) 0 s (math.Float64bits_lt x)
    rw [Float64.Load_NewFloat64] at h
    exact h

/-- Witness of C27: a cell holding the NaN with payload 2 returns from `Add(1.5)` within
one iteration, and a cell holding 1.5 from `Sub(1.5)` with `+0.0`. -/
theorem C27_float64_add_first_iteration_witness :
    nanB.isNaN = true ∧
    (NewFloat64 nanB).Add 1 (math.Float64frombits 0x3FF8000000000000) =
      some (nanB.add (math.Float64frombits 0x3FF8000000000000),
        NewFloat64 (nanB.add (math.Float64frombits 0x3FF8000000000000))) ∧
    isUint 64 (NewFloat64 (math.Float64frombits 0x3FF8000000000000)).v ∧
    (NewFloat64 (math.Float64frombits 0x3FF8000000000000)).Sub 1
      (math.Float64frombits 0x3FF8000000000000) = some (posZero, NewFloat64 posZero) :=
  ⟨by decide,
   C27_float64_add_first_iteration.2.1 nanB (math.Float64frombits 0x3FF8000000000000)
     (by decide),
   by decide,
   (C27_float64_add_first_iteration.1 (NewFloat64 (math.Float64frombits 0x3FF8000000000000))
     (math.Float64frombits 0x3FF8000000000000) (by decide)).2.2.2⟩

/-! ## C28: the generated nillable cell -/

/-- C28: in the cell gen-valuewrapper generates for the zero literal `nil`, `Store(v)`
hands the struct `stored<Name>{v}`, never a nil interface, to the `Value`, so it does not
panic, not for `v = nil` either, and `Load()` then returns `v`; `Load()` on a cell nothing
was stored in returns nil; `New<Name>(v).Load()` is `v` for every `v`, and `New<Name>(nil)`
stores nothing. -/
theorem C28_nillable_cell :
    (∀ (name : text) (x : Nillable) (v : Option Nat),
      x.Store name v = (x.v.Store (some (Any.stored name v))).map (fun y => ⟨y⟩) ∧
      x.Store name v ≠ .error .storeNil) ∧
    (∀ (name : text) (x : Nillable) (v : Option Nat), x.valid name →
      ∃ y, x.Store name v = .ok y ∧ y.valid name ∧ y.Load name = .ok v) ∧
    (∀ name : text, Nillable.zero.Load name = .ok none) ∧
    (∀ name : text, NewNillable name none = .ok Nillable.zero) ∧
    (∀ (name : text) (v : Option Nat),
      ∃ x, NewNillable name v = .ok x ∧ x.valid name ∧ x.Load name = .ok v) := by
  have hst : ∀ (name : text) (x : Nillable) (v : Option Nat), x.valid name →
      ∃ y, x.Store name v = .ok y ∧ y.valid name ∧ y.Load name = .ok v := by
    intro name x v hx
    exact ⟨_, Nillable_Store_of_valid name x v hx, rfl, Nillable_Load_stored name v⟩
  refine ⟨?_, hst, fun _ => rfl, fun _ => rfl, ?_⟩
  · intro name x v
    refine ⟨rfl, ?_⟩
    obtain ⟨⟨⟨s⟩⟩⟩ := x
    cases s with
    | none => simp [Nillable.Store, Value.Store, SyncValue.Store, Except.map]
    | some a =>
      by_cases ht : a.typ = (wrapNillable name v).typ
      · simp [Nillable.Store, Value.Store, SyncValue.Store, Except.map, ht]
      · simp [Nillable.Store, Value.Store, SyncValue.Store, Except.map, ht]
  · intro name v
    cases v with
    | none => exact ⟨Nillable.zero, rfl, trivial, rfl⟩
    | some n =>
      have h : NewNillable name (some n) = Nillable.zero.Store name (some n) := by
        simp [NewNillable]
      rw [h]
      exact hst name Nillable.zero (some n) trivial

/-- Witness of C28: on the cell `Error` holding the non-nil value 3, `Store(nil)`
succeeds and `Load()` then returns nil. -/
theorem C28_nillable_cell_witness :
    Nillable.valid "Error" ⟨⟨⟨some (Any.stored "Error" (some 3))⟩⟩⟩ ∧
    ∃ y, Nillable.Store "Error" ⟨⟨⟨some (Any.stored "Error" (some 3))⟩⟩⟩ none = .ok y ∧
      y.valid "Error" ∧ y.Load "Error" = .ok none :=
  ⟨by decide,
   C28_nillable_cell.2.1 "Error" ⟨⟨⟨some (Any.stored "Error" (some 3))⟩⟩⟩ none (by decide)⟩

/-! ## C29: packTime and unpackTime -/

/-- C29: `unpackTime(packTime(t))` is `t` for every time `t`, and `unpackTime(v)` is the
zero `time.Time` for the nil interface and for every value whose dynamic type is not
`packedTime`. -/
theorem C29_pack_unpack :
    (∀ t : time.Time, unpackTime (packTime t) = t) ∧
    unpackTime none = time.Time.zero ∧
    (∀ a : Any, a.typ ≠ GoType.packedTime → unpackTime (some a) = time.Time.zero) := by
  refine ⟨fun _ => rfl, rfl, ?_⟩
  intro a h
  cases a with
  | packedTime t => exact absurd rfl h
  | string s => rfl
  | other t n => rfl
  | stored name v => rfl

/-- Witness of C29: a string handed to `unpackTime` gives the zero time. -/
theorem C29_pack_unpack_witness :
    (Any.string [97]).typ ≠ GoType.packedTime ∧
    unpackTime (some (Any.string [97])) = time.Time.zero :=
  ⟨by decide, C29_pack_unpack.2.2 (Any.string [97]) (by decide)⟩

/-! ## C30: the type assertion of String.Load -/

/-- C30: in every state reachable through `NewString`, `Store`, `UnmarshalText`, `Load` and
`MarshalText` the `Value` of a String is nil or holds a `string`, so the type assertion
of `Load` does not fail and `Load` returns a string; every operation runs without a
panic, the `Store` of the `Value` being handed a `string` each time. -/
theorem C30_string_load_total :
    (∀ s : String, String.Reachable s →
      (s.v.Load = none ∨ ∃ x, s.v.Load = some (Any.string x)) ∧
      (∃ x, s.Load = .ok x) ∧
      ∀ op : StringOp, ∃ s2, s.step op = .ok s2) ∧
    (∀ (s : String) (str : string),
      s.Store str = (s.v.Store (String.storeArg str)).map (fun y => ⟨y⟩) ∧
      ∃ a, String.storeArg str = some a ∧ a.typ = GoType.string) := by
  refine ⟨?_, fun s str => ⟨rfl, _, rfl, rfl⟩⟩
  intro s hr
  have hv := String_valid_of_Reachable s hr
  refine ⟨?_, String.Load_of_valid s hv, ?_⟩
  · obtain ⟨⟨⟨v⟩⟩⟩ := s
    cases v with
    | none => exact Or.inl rfl
    | some a =>
      cases a with
      | string x => exact Or.inr ⟨x, rfl⟩
      | other t n => exact absurd hv (by simp [String.valid])
      | packedTime t => exact absurd hv (by simp [String.valid])
      | stored name x => exact absurd hv (by simp [String.valid])
  · intro op
    obtain ⟨s2, h2, _⟩ := String.step_of_valid s op hv
    exact ⟨s2, h2⟩

/-- Witness of C30: the cell `NewString("abc")` gives is reachable and loads `abc`. -/
theorem C30_string_load_total_witness :
    String.Reachable ⟨⟨⟨some (Any.string [97, 98, 99])⟩⟩⟩ ∧
    ∃ x, String.Load ⟨⟨⟨some (Any.string [97, 98, 99])⟩⟩⟩ = .ok x :=
  ⟨String.Reachable.new [97, 98, 99] _ (by decide),
   (C30_string_load_total.1 ⟨⟨⟨some (Any.string [97, 98, 99])⟩⟩⟩
     (String.Reachable.new [97, 98, 99] _ (by decide))).2.1⟩

/-! ## C31: String.UnmarshalText accepts every byte slice -/

/-- C31: `String.UnmarshalText` inspects no byte: on every reachable String cell and for
every byte slice `b` it returns a nil error, without a panic, and `Load()` then returns
`string(b)`; so for the empty slice, for the bytes `42`, which the JSON decoder refuses
for a String, and for bytes that are not valid UTF-8. -/
theorem C31_string_unmarshal_text_total :
    (∀ (s : String) (b : Bytes), String.Reachable s →
      ∃ s2, s.UnmarshalText b = .ok (none, s2) ∧ s2.Load = .ok b ∧ String.Reachable s2) ∧
    (∀ (s : String) (b : Bytes), s.UnmarshalText b = (s.Store b).map fun y => (none, y)) ∧
    ((String.zero.UnmarshalText []).bind fun r => r.2.Load.map fun x => (r.1, x)) =
      .ok (none, []) ∧
    ((String.zero.UnmarshalText [52, 50]).bind fun r => r.2.Load.map fun x => (r.1, x)) =
      .ok (none, [52, 50]) ∧
    ((String.zero.UnmarshalText [255, 254]).bind fun r => r.2.Load.map fun x => (r.1, x)) =
      .ok (none, [255, 254]) := by
  refine ⟨?_, fun _ _ => rfl, by decide, by decide, by decide⟩
  intro s b hr
  have hv := String_valid_of_Reachable s hr
  have hu : s.UnmarshalText b = .ok (none, ⟨⟨⟨some (Any.string b)⟩⟩⟩) := by
    unfold String.UnmarshalText
    rw [String.Store_of_valid s b hv]
    rfl
  refine ⟨_, hu, String.Load_stored b, ?_⟩
  refine String.Reachable.step s _ (StringOp.UnmarshalText b) hr ?_
  simp only [String.step, hu]
  rfl

/-- Witness of C31: the cell `NewString("abc")` gives is reachable, and `UnmarshalText`
of the bytes `42` on it returns nil and leaves `42` as the string held. -/
theorem C31_string_unmarshal_text_total_witness :
    String.Reachable ⟨⟨⟨some (Any.string [97, 98, 99])⟩⟩⟩ ∧
    ∃ s2, String.UnmarshalText ⟨⟨⟨some (Any.string [97, 98, 99])⟩⟩⟩ [52, 50] = .ok (none, s2) ∧
      s2.Load = .ok [52, 50] ∧ String.Reachable s2 :=
  ⟨String.Reachable.new [97, 98, 99] _ (by decide),
   C31_string_unmarshal_text_total.1 ⟨⟨⟨some (Any.string [97, 98, 99])⟩⟩⟩ [52, 50]
     (String.Reachable.new [97, 98, 99] _ (by decide))⟩

end atomic
